import Mathlib

/-!
# Ember+ element tree (package `embertree`): a shallow embedding

Source files embedded here: `embertree/element.go` and `embertree/command.go`.

Modelling conventions
* Every `*Element` is an address (`Ptr`) into an explicit heap (`Heap`, the list of all
  allocated element cells; `NewElement` appends a cell).  A function that mutates elements
  takes the heap and returns the new heap.  A result `none` means that the Go code does not
  return a value there: a nil/dangling dereference, a failed type assertion, or (for the
  functions that carry a `fuel` argument) more loop iterations / nested calls than `fuel`.
* A Go `map[int]*Element` is an association list; the order in which `range` visits a map is
  unspecified in Go, so every function that ranges over a map takes a `MapOrder` that chooses
  the visiting order (any permutation of the stored entries).
* `Listener.Receive` is an external callback; the model records each invocation as an `Event`.
* The packages `asn1` and `errors` and the matrix encoders are outside the two source files and
  are taken as parameters (`Env`, `Codec`).
-/

namespace Embertree

/-! ## command.go: constants -/

/-- Go: `type FieldFlags int`. -/
abbrev FieldFlags := Int

def COMMAND_SUBSCRIBE : Int := 30
def COMMAND_UNSUBSCRIBE : Int := 31
def COMMAND_GETDIRECTORY : Int := 32
def COMMAND_INVOKE : Int := 33

/-- Go's predeclared `iota`: inside a `const ( ... )` block its value is the zero-based index of
the ConstSpec it occurs in. -/
def iota (constSpecIndex : Nat) : Int := constSpecIndex

/-- ConstSpec 0 of the block: `SparseFieldFlags FieldFlags = -2`. -/
def SparseFieldFlags : FieldFlags := -2
/-- ConstSpec 1 of the block: `ALLFieldFlags FieldFlags = iota`. -/
def ALLFieldFlags : FieldFlags := iota 1
/-- ConstSpec 2 of the block: `DefaultFieldFlags FieldFlags = iota`. -/
def DefaultFieldFlags : FieldFlags := iota 2
/-- ConstSpec 3 of the block: `IdentifierFieldFlags FieldFlags = iota`. -/
def IdentifierFieldFlags : FieldFlags := iota 3
/-- ConstSpec 4 of the block: `DescriptionFieldFlags FieldFlags = iota`. -/
def DescriptionFieldFlags : FieldFlags := iota 4
/-- ConstSpec 5 of the block: `TreeFieldFlags FieldFlags = iota`. -/
def TreeFieldFlags : FieldFlags := iota 5
/-- ConstSpec 6 of the block: `ValueFieldFlags FieldFlags = iota`. -/
def ValueFieldFlags : FieldFlags := iota 6
/-- ConstSpec 7 of the block: `ConnectionsFieldFlags FieldFlags = iota`. -/
def ConnectionsFieldFlags : FieldFlags := iota 7

/-! ## Data model -/

/-- Address of an `Element` cell in the heap (a non-nil `*Element`). -/
abbrev Ptr := Nat

/-- Identity of a registered `Listener` (the key of `map[Listener]Listener`). -/
abbrev Listener := Nat

/-- Values of `errors.Error` that occur in the two source files. -/
inductive Error where
  /-- The `errors.New("Attempt to update different element ...")` of `Update`, with its arguments. -/
  | identityMismatch (number newNumber : Int) (tag newTag : Nat) : Error
  /-- An error value built outside the two source files (by the codec or by `errors.Update`). -/
  | external (code : Nat) : Error
  deriving DecidableEq, Repr

/-- Go: `type CommandContents struct { fieldFlags FieldFlags }`. -/
structure CommandContents where
  fieldFlags : FieldFlags
  deriving DecidableEq, Repr

/-- Implementations of the `EmberContents` interface: `CommandContents` (command.go) and the
content variants defined outside the two source files, kept abstract. -/
inductive EmberContents where
  | command (cc : CommandContents) : EmberContents
  | other (variant : Nat) : EmberContents
  deriving DecidableEq, Repr

/-- Go: `type ContentCreator func() EmberContents`. -/
abbrev ContentCreator := Unit → EmberContents

/-- Modelled from the spec: `Signal`, a numbered endpoint identifier of a matrix (its declaration
is outside the two source files). -/
abbrev Signal := Int

/-- Modelled from the spec: `Connection`, one target signal with the sources feeding it (its
declaration is outside the two source files). -/
structure Connection where
  target : Signal
  sources : List Signal
  deriving DecidableEq, Repr

/-- Go: `type Element struct`.  The `logger` field has no effect on any modelled result and is
left out. -/
structure Element where
  Number : Int
  tag : Nat
  path : List Int
  Children : List (Int × Ptr)
  parent : Option Ptr
  contents : Option EmberContents
  contentsCreator : Option ContentCreator
  listeners : List Listener
  isQualified : Bool
  isMatrix : Bool
  targets : List Signal
  sources : List Signal
  connections : List Connection

/-- All allocated element cells; the address of a cell is its index. -/
abbrev Heap := List Element

/-- One invocation `listener.Receive(element, err)`.  `depth` is the nesting depth of the
`Update` call that made it, counted from the call under consideration (0 = that call itself). -/
structure Event where
  depth : Nat
  listener : Listener
  element : Ptr
  err : Option Error
  deriving DecidableEq, Repr

/-- The visiting orders chosen by `range` over the two kinds of map. -/
structure MapOrder where
  children : List (Int × Ptr) → List (Int × Ptr)
  children_perm : ∀ l, (children l).Perm l
  listeners : List Listener → List Listener
  listeners_perm : ∀ l, (listeners l).Perm l

/-- Visit every map in the order in which the model stores it. -/
def MapOrder.stored : MapOrder :=
  ⟨fun l => l, fun l => List.Perm.refl l, fun l => l, fun l => List.Perm.refl l⟩

/-- Visit every map in the reverse of the order in which the model stores it. -/
def MapOrder.reversed : MapOrder :=
  ⟨fun l => l.reverse, fun l => List.reverse_perm l, fun l => l.reverse, fun l => List.reverse_perm l⟩

/-- Go: `m[k]` on a `map[int]*Element` (`none` is the nil result for an absent key). -/
def mapLookup (k : Int) : List (Int × Ptr) → Option Ptr
  | [] => none
  | (k', v) :: rest => if k' = k then some v else mapLookup k rest

/-- Go: `m[k] = v` on a `map[int]*Element`. -/
def mapInsert (k : Int) (v : Ptr) : List (Int × Ptr) → List (Int × Ptr)
  | [] => [(k, v)]
  | (k', v') :: rest => if k' = k then (k, v) :: rest else (k', v') :: mapInsert k v rest

/-- The keys of a map. -/
def mapKeys (m : List (Int × Ptr)) : List Int := m.map Prod.fst

/-! ## element.go -/

/-- Go: `NewElement(tag, number, contentsCreator)`; returns the new heap and the new address. -/
def NewElement (h : Heap) (tag : Nat) (number : Int) (contentsCreator : Option ContentCreator) :
    Heap × Ptr :=
  (h ++ [{ Number := number, tag := tag, contents := none, parent := none, Children := [],
           isMatrix := false, isQualified := false, contentsCreator := contentsCreator,
           listeners := [], path := [], targets := [], sources := [], connections := [] }],
   h.length)

/-- Go: `element.CreateContent()`; returns the heap and the returned content (nil = `none`). -/
def CreateContent (h : Heap) (element : Ptr) : Option (Heap × Option EmberContents) :=
  match h[element]? with
  | none => none
  | some e =>
    match e.contentsCreator with
    | none => some (h, none)
    | some creator =>
      let c := creator ()
      some (h.set element { e with contents := some c }, some c)

/-- Go: `element.AddListener(listener)`, i.e. `element.listeners[listener] = listener`. -/
def AddListener (h : Heap) (element : Ptr) (listener : Listener) : Option Heap :=
  match h[element]? with
  | none => none
  | some e =>
    some (h.set element
      { e with listeners := if listener ∈ e.listeners then e.listeners else e.listeners ++ [listener] })

/-- Go: `element.RemoveListener(listener)`, i.e. `delete(element.listeners, listener)`. -/
def RemoveListener (h : Heap) (element : Ptr) (listener : Listener) : Option Heap :=
  match h[element]? with
  | none => none
  | some e => some (h.set element { e with listeners := e.listeners.filter (fun l => l ≠ listener) })

/-- Go: `element.GetContent()`. -/
def GetContent (h : Heap) (element : Ptr) : Option (Option EmberContents) :=
  match h[element]? with
  | none => none
  | some e => some e.contents

/-- Go: `element.SetParent(parent)`; the returned error is always nil. -/
def SetParent (h : Heap) (element : Ptr) (parent : Option Ptr) : Option (Heap × Option Error) :=
  match h[element]? with
  | none => none
  | some e =>
    some (h.set element { e with parent := parent, path := if e.isQualified then e.path else [] },
          none)

/-- Go: `element.GetParent()`; the returned error is always nil. -/
def GetParent (h : Heap) (element : Ptr) : Option (Option Ptr × Option Error) :=
  match h[element]? with
  | none => none
  | some e => some (e.parent, none)

/-- Go: `element.AddChild(child)`; the returned error is always nil. -/
def AddChild (h : Heap) (element child : Ptr) : Option (Heap × Option Error) :=
  match h[element]?, h[child]? with
  | some e, some c =>
    match SetParent (h.set element { e with Children := mapInsert c.Number child e.Children })
        child (some element) with
    | none => none
    | some (h', _) => some (h', none)
  | _, _ => none

/-- Go: `element.updateListeners(err)`: the `Receive` calls it makes, in visiting order. -/
def updateListeners (ord : MapOrder) (h : Heap) (element : Ptr) (err : Option Error) :
    Option (List Event) :=
  match h[element]? with
  | none => none
  | some e => some ((ord.listeners e.listeners).map fun l => ⟨0, l, element, err⟩)

/-- What an `Update` call leaves behind: the heap, the returned error (nil = `none`) and the
`Receive` calls made, in order. -/
structure UpdateResult where
  heap : Heap
  err : Option Error
  trace : List Event

/-- An event of a nested call, seen from the enclosing call. -/
def Event.nested (ev : Event) : Event := { ev with depth := ev.depth + 1 }

/-- The `for number, newChild := range newElement.Children` loop of `Update`, over the entries
still to visit; `recur` is the nested `child.Update(newChild)`. -/
def updateLoop (recur : Heap → Ptr → Ptr → Option UpdateResult) (element : Ptr) :
    List (Int × Ptr) → Heap → List Event → Option UpdateResult
  | [], h, tr => some ⟨h, none, tr⟩
  | (number, newChild) :: rest, h, tr =>
    match h[element]? with
    | none => none
    | some e =>
      match mapLookup number e.Children with
      | none =>
        match AddChild h element newChild with
        | none => none
        | some (h', none) => updateLoop recur element rest h' tr
        | some (h', some err) => some ⟨h', some err, tr⟩
      | some child =>
        match recur h child newChild with
        | none => none
        | some r =>
          match r.err with
          | none => updateLoop recur element rest r.heap (tr ++ r.trace.map Event.nested)
          | some err => some ⟨r.heap, some err, tr ++ r.trace.map Event.nested⟩

/-- Go: `content := newElement.GetContent(); if content != nil { element.contents = content }`,
where `e` is the cell of `element`. -/
def assignContent (h : Heap) (element : Ptr) (e : Element) : Option EmberContents → Heap
  | none => h
  | some content => h.set element { e with contents := some content }

/-- Go: `element.Update(newElement)`.  `fuel` bounds the nesting depth of the calls. -/
def Update (ord : MapOrder) : Nat → Heap → Ptr → Ptr → Option UpdateResult
  | 0, _, _, _ => none
  | fuel + 1, h, element, newElement =>
    match h[element]?, h[newElement]? with
    | some e, some n =>
      if e.Number ≠ n.Number ∨ e.tag ≠ n.tag then
        some ⟨h, some (Error.identityMismatch e.Number n.Number e.tag n.tag), []⟩
      else
        match updateLoop (Update ord fuel) element (ord.children n.Children)
            (assignContent h element e n.contents) [] with
        | none => none
        | some r =>
          match updateListeners ord r.heap element r.err with
          | none => none
          | some evs => some ⟨r.heap, r.err, r.trace ++ evs⟩
    | _, _ => none

/-- The functions of the packages `asn1` and `errors` that the two source files call without a
writer: `asn1.Application`, `asn1.Context`, `errors.Update`. -/
structure Env where
  Application : Nat → Nat
  Context : Nat → Nat
  errorsUpdate : Error → Error

/-- The writer operations the two source files call on an `*asn1.ASNWriter` with state `W`; each
returns the writer state it leaves and its error (nil = `none`).  `encodeOther` is `Encode` of the
content variants outside the two source files; `EncodeTargets`, `EncodeSources` and
`EncodeConnections` are modelled from the spec: they write the element's three matrix lists. -/
structure Codec (W : Type) where
  StartSequence : Nat → W → W × Option Error
  EndSequence : W → W × Option Error
  WriteInt : Int → W → W × Option Error
  WriteRelativeOID : List Int → W → W × Option Error
  encodeOther : Nat → W → W × Option Error
  EncodeTargets : List Signal → W → W × Option Error
  EncodeSources : List Signal → W → W × Option Error
  EncodeConnections : List Connection → W → W × Option Error

/-- Go: `err = step; if err != nil { return errors.Update(err) }`, then `rest`. -/
def checked {W : Type} (env : Env) (step : W → W × Option Error)
    (rest : W → Option (W × Option Error)) (w : W) : Option (W × Option Error) :=
  match step w with
  | (w', some err) => some (w', some (env.errorsUpdate err))
  | (w', none) => rest w'

/-- Go: `cc.Encode(writer)` for `*CommandContents`. -/
def CommandContents.Encode {W : Type} (cdc : Codec W) (cc : CommandContents) (w : W) :
    W × Option Error :=
  cdc.WriteInt cc.fieldFlags w

/-- Go: `contents.Encode(writer)` through the `EmberContents` interface. -/
def EmberContents.Encode {W : Type} (cdc : Codec W) : EmberContents → W → W × Option Error
  | EmberContents.command cc => cc.Encode cdc
  | EmberContents.other variant => cdc.encodeOther variant

/-- The `for _, child := range element.Children` loop of `EncodeChildren`, over the entries still
to visit; `encodeChild` is `child.encode(writer, true)`. -/
def encodeChildrenLoop {W : Type} (env : Env) (cdc : Codec W)
    (encodeChild : Ptr → W → Option (W × Option Error)) :
    List (Int × Ptr) → W → Option (W × Option Error)
  | [], w => some (cdc.EndSequence w)
  | (_, child) :: rest, w =>
    checked env (cdc.StartSequence (env.Context 0))
      (fun w1 =>
        match encodeChild child w1 with
        | none => none
        | some (w2, some err) => some (w2, some err)
        | some (w2, none) =>
          checked env cdc.EndSequence (encodeChildrenLoop env cdc encodeChild rest) w2) w

/-- Go: the `if element.isMatrix { ... }` block of `encode` and the closing
`return writer.EndSequence()`. -/
def encodeMatrix {W : Type} (env : Env) (cdc : Codec W) (e : Element) :
    W → Option (W × Option Error) :=
  if e.isMatrix then
    checked env (cdc.EncodeTargets e.targets)
      (checked env (cdc.EncodeSources e.sources)
        (checked env (cdc.EncodeConnections e.connections) (fun w => some (cdc.EndSequence w))))
  else fun w => some (cdc.EndSequence w)

/-- Go: the `if !asChild { if len(element.Children) > 0 { ... } }` block of `encode`, then
`rest`; `encodeChildren` is `element.EncodeChildren(writer)`. -/
def encodeChildrenBlock {W : Type} (env : Env) (cdc : Codec W) (e : Element) (asChild : Bool)
    (encodeChildren : W → Option (W × Option Error)) (rest : W → Option (W × Option Error)) :
    W → Option (W × Option Error) :=
  if asChild = false ∧ e.Children.length > 0 then
    checked env (cdc.StartSequence (env.Context 2))
      (fun w1 =>
        match encodeChildren w1 with
        | none => none
        | some (w2, some err) => some (w2, some (env.errorsUpdate err))
        | some (w2, none) => checked env cdc.EndSequence rest w2)
  else rest

/-- Go: the `if element.contents != nil { ... }` block of `encode`, then `rest`. -/
def encodeContents {W : Type} (env : Env) (cdc : Codec W) (e : Element)
    (rest : W → Option (W × Option Error)) : W → Option (W × Option Error) :=
  match e.contents with
  | some c =>
    checked env (cdc.StartSequence (env.Context 1))
      (checked env (c.Encode cdc) (checked env cdc.EndSequence rest))
  | none => rest

/-- Go: the `if element.isQualified { ... } else { ... }` block of `encode` (path or number),
then `rest`. -/
def encodeAddress {W : Type} (env : Env) (cdc : Codec W) (e : Element)
    (rest : W → Option (W × Option Error)) : W → Option (W × Option Error) :=
  if e.isQualified then
    checked env (cdc.StartSequence (env.Context 0))
      (checked env (cdc.WriteRelativeOID e.path) (checked env cdc.EndSequence rest))
  else
    checked env (cdc.StartSequence (env.Context 0))
      (checked env (cdc.WriteInt e.Number) (checked env cdc.EndSequence rest))

/-- The body of `EncodeChildren` over the entries `entries` in visiting order; `encodeChild` is
`child.encode(writer, true)`. -/
def encodeChildrenWith {W : Type} (env : Env) (cdc : Codec W)
    (encodeChild : Ptr → W → Option (W × Option Error)) (entries : List (Int × Ptr)) :
    W → Option (W × Option Error) :=
  checked env (cdc.StartSequence (env.Application 4))
    (encodeChildrenLoop env cdc encodeChild entries)

/-- Go: `element.encode(writer, asChild)`.  `fuel` bounds the nesting depth of the calls (two
levels are all the code ever uses). -/
def encode {W : Type} (env : Env) (cdc : Codec W) (ord : MapOrder) :
    Nat → Heap → Ptr → Bool → W → Option (W × Option Error)
  | 0, _, _, _, _ => none
  | fuel + 1, h, element, asChild, w =>
    match h[element]? with
    | none => none
    | some e =>
      checked env (cdc.StartSequence e.tag)
        (encodeAddress env cdc e
          (encodeContents env cdc e
            (encodeChildrenBlock env cdc e asChild
              (encodeChildrenWith env cdc (fun child => encode env cdc ord fuel h child true)
                (ord.children e.Children))
              (encodeMatrix env cdc e)))) w

/-- Go: `element.EncodeChildren(writer)`. -/
def EncodeChildren {W : Type} (env : Env) (cdc : Codec W) (ord : MapOrder) (fuel : Nat) (h : Heap)
    (element : Ptr) (w : W) : Option (W × Option Error) :=
  match h[element]? with
  | none => none
  | some e =>
    encodeChildrenWith env cdc (fun child => encode env cdc ord fuel h child true)
      (ord.children e.Children) w

/-- Go: `element.Encode(writer)`. -/
def Encode {W : Type} (env : Env) (cdc : Codec W) (ord : MapOrder) (fuel : Nat) (h : Heap)
    (element : Ptr) (w : W) : Option (W × Option Error) :=
  encode env cdc ord fuel h element false w

/-! ## command.go -/

/-- Go: `NewCommandContents()`. -/
def NewCommandContents : ContentCreator :=
  fun _ => EmberContents.command { fieldFlags := DefaultFieldFlags }

/-- Go: `var CommandApplication = asn1.Application(2)`. -/
def CommandApplication (env : Env) : Nat := env.Application 2

/-- Go: `NewCommand(number)`.  The assignment through `commandContents` writes the
`CommandContents` that `command.contents` refers to. -/
def NewCommand (env : Env) (h : Heap) (number : Int) : Option (Heap × Ptr) :=
  match NewElement h (CommandApplication env) number (some NewCommandContents) with
  | (h1, command) =>
    match CreateContent h1 command with
    | some (h2, some (EmberContents.command commandContents)) =>
      if number = COMMAND_GETDIRECTORY then
        match h2[command]? with
        | none => none
        | some c =>
          let updated : CommandContents := { commandContents with fieldFlags := ALLFieldFlags }
          some (h2.set command { c with contents := some (EmberContents.command updated) }, command)
      else some (h2, command)
    | _ => none

/-! ## element.go: directory requests -/

/-- Modelled from the spec: `RootElement`, an ordered collection of top-level elements (its
declaration, `NewRoot` and `AddElement` are outside the two source files). -/
abbrev RootElement := List Ptr

/-- Modelled from the spec: `NewRoot()`, the empty collection. -/
def NewRoot : RootElement := []

/-- Modelled from the spec: `root.AddElement(element)` appends a top-level element. -/
def RootElement.AddElement (root : RootElement) (element : Ptr) : RootElement := root ++ [element]

/-- The `for { ... }` loop of `getDupBranch` from the state `(e, dupElement)`; `fuel` bounds the
number of iterations. -/
def dupLoop : Nat → Heap → Ptr → Ptr → Option (Heap × Option Ptr × Option Error)
  | 0, _, _, _ => none
  | fuel + 1, h, e, dupElement =>
    match GetParent h e with
    | none => none
    | some (_, some err) => some (h, none, some err)
    | some (none, none) => some (h, some dupElement, none)
    | some (some parent, none) =>
      match h[parent]? with
      | none => none
      | some p =>
        match NewElement h p.tag p.Number none with
        | (h1, dupParent) =>
          match AddChild h1 dupParent dupElement with
          | none => none
          | some (h2, _) => dupLoop fuel h2 parent dupParent

/-- Go: `element.getDupBranch(cmd)`. -/
def getDupBranch (fuel : Nat) (h : Heap) (element : Ptr) (cmd : Option Ptr) :
    Option (Heap × Option Ptr × Option Error) :=
  match h[element]? with
  | none => none
  | some e =>
    match NewElement h e.tag e.Number none with
    | (h1, dupElement) =>
      match cmd with
      | none => dupLoop fuel h1 element dupElement
      | some c =>
        match AddChild h1 dupElement c with
        | none => none
        | some (h2, _) => dupLoop fuel h2 element dupElement

/-- Go: `element.GetDirectoryMsg(listener)`. -/
def GetDirectoryMsg (env : Env) (fuel : Nat) (h : Heap) (element : Ptr)
    (listener : Option Listener) : Option (Heap × Option RootElement × Option Error) :=
  match NewCommand env h COMMAND_GETDIRECTORY with
  | none => none
  | some (h1, cmd) =>
    match getDupBranch fuel h1 element (some cmd) with
    | none => none
    | some (h2, _, some err) => some (h2, none, some (env.errorsUpdate err))
    | some (_, none, none) => none
    | some (h2, some dupElement, none) =>
      match listener with
      | none => some (h2, some (NewRoot.AddElement dupElement), none)
      | some l =>
        match AddListener h2 element l with
        | none => none
        | some h3 => some (h3, some (NewRoot.AddElement dupElement), none)

/-! ## Definitions used to state the properties -/

/-- An element without content, parent, creator or matrix role, not qualified: the cell that
`NewElement` builds, with the given children and listeners. -/
def Element.plain (number : Int) (tag : Nat) (children : List (Int × Ptr))
    (listeners : List Listener) : Element :=
  { Number := number, tag := tag, path := [], Children := children, parent := none,
    contents := none, contentsCreator := none, listeners := listeners, isQualified := false,
    isMatrix := false, targets := [], sources := [], connections := [] }

/-- The fields of an element that neither `AddChild` nor `Update` assigns. -/
def Element.fixed (e : Element) : Int × Nat × List Listener × Bool :=
  (e.Number, e.tag, e.listeners, e.isQualified)

/-- Heap `h'` has the same cells as `h`, with equal `fixed` fields. -/
def SameFixed (h h' : Heap) : Prop :=
  ∀ p : Ptr, (h'[p]?).map Element.fixed = (h[p]?).map Element.fixed

/-- The error `err` is the identity-mismatch error of two cells of `h` that differ in Number or
tag. -/
def MismatchOf (h : Heap) (err : Error) : Prop :=
  ∃ (p q : Ptr) (ep eq : Element), h[p]? = some ep ∧ h[q]? = some eq ∧
    (ep.Number ≠ eq.Number ∨ ep.tag ≠ eq.tag) ∧
    err = Error.identityMismatch ep.Number eq.Number ep.tag eq.tag

/-- The `Receive` calls that the call under consideration itself (nesting depth 0) made on
listener `l`. -/
def ownCalls (l : Listener) (trace : List Event) : List Event :=
  trace.filter fun ev => decide (ev.depth = 0 ∧ ev.listener = l)

/-- All `Receive` calls made on listener `l`, at any nesting depth. -/
def callsOn (l : Listener) (trace : List Event) : List Event :=
  trace.filter fun ev => decide (ev.listener = l)

/-- Resident element 0 (Number 1, tag 0, listener 7) with child 1 (Number 5, tag 1); incoming
element 2 (Number 1, tag 0) with child 3 (Number 5, tag 2). -/
def heapTagClash : Heap :=
  [Element.plain 1 0 [(5, 1)] [7], { Element.plain 5 1 [] [] with parent := some 0 },
   Element.plain 1 0 [(5, 3)] [], { Element.plain 5 2 [] [] with parent := some 2 }]

/-- Resident element 0 (Number 1, tag 0, listener 7) and incoming element 1 (Number 2, tag 0). -/
def heapNumberClash : Heap :=
  [Element.plain 1 0 [] [7], Element.plain 2 0 [] []]

/-- Resident element 0 (Number 1, tag 3, listener 7, one child) and incoming element 2
(Number 1, tag 4, with content and a child). -/
def heapTopClash : Heap :=
  [Element.plain 1 3 [(5, 1)] [7], { Element.plain 5 1 [] [] with parent := some 0 },
   { Element.plain 1 4 [(6, 3)] [] with contents := some (EmberContents.other 0) },
   { Element.plain 6 1 [] [] with parent := some 2 }]

/-- The relation `ParentChain h e anc`: following the parent links from `e` visits exactly `anc`
(nearest first), the last of which (or `e` itself when `anc` is empty) has no parent; so `e` is
at depth `anc.length` below its root. -/
def ParentChain (h : Heap) : Ptr → List Ptr → Prop
  | e, [] => ∃ c, h[e]? = some c ∧ c.parent = none
  | e, p :: rest => ∃ c, h[e]? = some c ∧ c.parent = some p ∧ ParentChain h p rest

/-- The child of `p` when `p` has exactly one child. -/
def soleChild (h : Heap) (p : Ptr) : Option Ptr :=
  match h[p]? with
  | none => none
  | some c =>
    match c.Children with
    | [(_, q)] => some q
    | _ => none

/-- Follow the single child `k` times, starting from `p`. -/
def descend (h : Heap) : Nat → Ptr → Option Ptr
  | 0, p => some p
  | k + 1, p =>
    match soleChild h p with
    | none => none
    | some q => descend h k q

/-- Cell `sc` is a stand-in for the real cell `rc`: same tag and Number, no content, not
qualified. -/
def IsStandIn (sc rc : Element) : Prop :=
  sc.tag = rc.tag ∧ sc.Number = rc.Number ∧ sc.contents = none ∧ sc.isQualified = false

/-- The relation `StandInChain h0 h real s`: in `h` the chain hanging from `s` holds stand-ins for
the elements `real` of heap `h0` (outermost first): every one is a cell allocated after `h0`, and
every one but the last has exactly one child, the next stand-in, stored under its Number. -/
def StandInChain (h0 h : Heap) : List Ptr → Ptr → Prop
  | [], _ => False
  | [r], s => ∃ sc rc, h[s]? = some sc ∧ h0[r]? = some rc ∧ IsStandIn sc rc ∧ h0.length ≤ s
  | r :: r' :: rest, s =>
    ∃ sc rc s' sc', h[s]? = some sc ∧ h0[r]? = some rc ∧ IsStandIn sc rc ∧ h0.length ≤ s ∧
      h[s']? = some sc' ∧ sc.Children = [(sc'.Number, s')] ∧ StandInChain h0 h (r' :: rest) s'

/-- The fields of an element other than its parent link and path. -/
def Element.shape (e : Element) :
    Int × Nat × Option EmberContents × Bool × List (Int × Ptr) × List Listener :=
  (e.Number, e.tag, e.contents, e.isQualified, e.Children, e.listeners)

/-- Every cell of `h` is still there in `h'`, with equal `shape` fields. -/
def SameShape (h h' : Heap) : Prop :=
  ∀ (p : Ptr) (e : Element), h[p]? = some e → ∃ e', h'[p]? = some e' ∧ e'.shape = e.shape

/-- The cell of a child after `child.SetParent(parent)`. -/
def Element.withParent (c : Element) (parent : Ptr) : Element :=
  { c with parent := some parent, path := if c.isQualified then c.path else [] }

/-- The cell of an element after `element.Children[number] = child`. -/
def Element.withChild (e : Element) (number : Int) (child : Ptr) : Element :=
  { e with Children := mapInsert number child e.Children }

/-- A root 0 (Number 1, tag 10, with content and a second child 4), its child 1 (Number 5,
tag 11), the grandchild 2 (Number 7, tag 12, listener 9), a separate command element 3 and the
sibling 4 of element 1. -/
def heapPath : Heap :=
  [{ Element.plain 1 10 [(5, 1), (6, 4)] [] with contents := some (EmberContents.other 0) },
   { Element.plain 5 11 [(7, 2)] [] with parent := some 0 },
   { Element.plain 7 12 [] [9] with parent := some 1 },
   { Element.plain 32 2 [] [] with
       contents := some (EmberContents.command { fieldFlags := ALLFieldFlags }) },
   { Element.plain 6 11 [] [] with parent := some 0 }]

/-- An element cell with its children map emptied. -/
def Element.sansChildren (e : Element) : Element := { e with Children := [] }

/-- The heap in which every element stored in the map `m` has its own children map emptied. -/
def clearChildrenOf : List (Int × Ptr) → Heap → Heap
  | [], h => h
  | (_, c) :: rest, h =>
    clearChildrenOf rest
      (match h[c]? with
       | none => h
       | some cc => h.set c cc.sansChildren)

/-- One token written by the recording codec. -/
inductive Token where
  | start (tag : Nat) : Token
  | finish : Token
  | int (v : Int) : Token
  | oid (path : List Int) : Token
  | content (variant : Nat) : Token
  | targets (l : List Signal) : Token
  | sources (l : List Signal) : Token
  | connections (l : List Connection) : Token
  deriving DecidableEq, Repr

/-- A codec that never fails and records every write. -/
def Codec.recording : Codec (List Token) where
  StartSequence := fun tag w => (w ++ [Token.start tag], none)
  EndSequence := fun w => (w ++ [Token.finish], none)
  WriteInt := fun v w => (w ++ [Token.int v], none)
  WriteRelativeOID := fun path w => (w ++ [Token.oid path], none)
  encodeOther := fun variant w => (w ++ [Token.content variant], none)
  EncodeTargets := fun l w => (w ++ [Token.targets l], none)
  EncodeSources := fun l w => (w ++ [Token.sources l], none)
  EncodeConnections := fun l w => (w ++ [Token.connections l], none)

/-- Context tags n as 128 + n and application tags n as 64 + n; `errors.Update` as the
identity. -/
def Env.sample : Env where
  Application := fun n => 64 + n
  Context := fun n => 128 + n
  errorsUpdate := fun err => err

/-- Heaps `h` and `h'` have the same cells up to the children maps of the cells. -/
def SameSansChildren (h h' : Heap) : Prop :=
  ∀ p : Ptr, (h'[p]?).map Element.sansChildren = (h[p]?).map Element.sansChildren

/-- The addresses reachable from `p` through fewer than `n` levels of children maps, `p` first. -/
def footprint : Nat → Heap → Ptr → List Ptr
  | 0, _, _ => []
  | n + 1, h, p =>
    p :: (match h[p]? with
          | none => []
          | some e => e.Children.flatMap fun kc => footprint n h kc.2)

/-- The relation `TreeAt n h p`: from `p` down there are at most `n` levels, every map has
each key once, and every entry is an allocated element stored under its own Number. -/
def TreeAt : Nat → Heap → Ptr → Prop
  | 0, _, _ => False
  | n + 1, h, p =>
    ∃ e, h[p]? = some e ∧ (mapKeys e.Children).Nodup ∧
      ∀ kc ∈ e.Children, (∃ c, h[kc.2]? = some c ∧ c.Number = kc.1) ∧ TreeAt n h kc.2

/-- Resident `r` and incoming `i` are trees (children keyed by their own Number) that share no
element: no element is reached twice from `r` and `i`. -/
def DisjointTrees (n : Nat) (h : Heap) (r i : Ptr) : Prop :=
  TreeAt n h r ∧ TreeAt n h i ∧ (footprint n h r ++ footprint n h i).Nodup

/-- The relation `Mergeable n h r i`: `r` and `i` agree in Number and tag, and so does, level by
level, every child of `i` with the child of `r` stored under the same number (when there is
one): the incoming tree has no conflicting child. -/
def Mergeable : Nat → Heap → Ptr → Ptr → Prop
  | 0, _, _, _ => False
  | n + 1, h, r, i =>
    ∃ e m, h[r]? = some e ∧ h[i]? = some m ∧ e.Number = m.Number ∧ e.tag = m.tag ∧
      ∀ kc ∈ m.Children, ∀ c, mapLookup kc.1 e.Children = some c → Mergeable n h c kc.2

/-- The elements that the loop of `Update` may touch while it handles the incoming entry `kc`:
the incoming child's tree and the tree of the resident child stored in `M` under the same
number. -/
def region (n : Nat) (h : Heap) (M : List (Int × Ptr)) (kc : Int × Ptr) : List Ptr :=
  footprint n h kc.2 ++
    (match mapLookup kc.1 M with
     | none => []
     | some c => footprint n h c)

/-- What a nested `Update` does on disjoint trees of fewer than `n` levels: it returns, it changes
no cell outside the two trees, it notifies only elements of the resident tree, and it returns no
error exactly when the incoming tree has no conflicting child. -/
def RecSpec (n : Nat) (recur : Heap → Ptr → Ptr → Option UpdateResult) : Prop :=
  ∀ (h : Heap) (c nc : Ptr), DisjointTrees n h c nc →
    ∃ res, recur h c nc = some res ∧
      (∀ q, q ∉ footprint n h c ++ footprint n h nc → res.heap[q]? = h[q]?) ∧
      (∀ ev ∈ res.trace, ev.element ∈ footprint n h c) ∧
      (res.err = none ↔ Mergeable n h c nc)

/-- The facts about the heap `h` that the loop of `Update` relies on when it merges the incoming
entries `E` into resident `r` with children map `M`: every incoming child is a tree stored under
its own Number, it is disjoint from the resident child of the same number, and the regions of
different entries are apart from each other and from `r`. -/
structure LoopFacts (n : Nat) (h : Heap) (r : Ptr) (M E : List (Int × Ptr)) : Prop where
  incoming : ∀ kc ∈ E, TreeAt n h kc.2 ∧ ∃ c, h[kc.2]? = some c ∧ c.Number = kc.1
  paired : ∀ kc ∈ E, ∀ c, mapLookup kc.1 M = some c → DisjointTrees n h c kc.2
  apart : ∀ kc ∈ E, r ∉ region n h M kc
  disjoint : ∀ kc ∈ E, ∀ kc' ∈ E, kc.1 ≠ kc'.1 →
    List.Disjoint (region n h M kc) (region n h M kc')

/-- The cell of an element after
`content := newElement.GetContent(); if content != nil { element.contents = content }`. -/
def Element.withContent (e : Element) : Option EmberContents → Element
  | none => e
  | some content => { e with contents := some content }

/-- Boolean check of `TreeAt`, for concrete heaps. -/
def treeAtB : Nat → Heap → Ptr → Bool
  | 0, _, _ => false
  | n + 1, h, p =>
    match h[p]? with
    | none => false
    | some e =>
      decide (mapKeys e.Children).Nodup &&
        e.Children.all fun kc =>
          (match h[kc.2]? with
           | none => false
           | some c => decide (c.Number = kc.1)) && treeAtB n h kc.2

/-- Boolean check of `Mergeable`, for concrete heaps. -/
def mergeableB : Nat → Heap → Ptr → Ptr → Bool
  | 0, _, _, _ => false
  | n + 1, h, r, i =>
    match h[r]?, h[i]? with
    | some e, some m =>
      decide (e.Number = m.Number) && decide (e.tag = m.tag) &&
        m.Children.all fun kc =>
          match mapLookup kc.1 e.Children with
          | none => true
          | some c => mergeableB n h c kc.2
    | _, _ => false

/-- A resident tree at 0 (children 5 and 6, grandchild 9 below child 5, listener 7 on the root)
and an incoming tree at 4 (content, children 5 and 7, grandchild 8 below child 5). -/
def heapMerge : Heap :=
  [Element.plain 1 0 [(5, 1), (6, 2)] [7],
   { Element.plain 5 1 [(9, 3)] [] with parent := some 0 },
   { Element.plain 6 1 [] [] with parent := some 0 },
   { Element.plain 9 2 [] [] with parent := some 1 },
   { Element.plain 1 0 [(5, 5), (7, 6)] [] with contents := some (EmberContents.other 3) },
   { Element.plain 5 1 [(8, 7)] [] with parent := some 4 },
   { Element.plain 7 1 [] [] with parent := some 4 },
   { Element.plain 8 2 [] [] with parent := some 5 }]

/-- The cell of the element that `NewCommand(COMMAND_GETDIRECTORY)` builds. -/
def getDirectoryCell (env : Env) : Element :=
  { Element.plain COMMAND_GETDIRECTORY (CommandApplication env) [] [] with
    contents := some (EmberContents.command { fieldFlags := ALLFieldFlags }),
    contentsCreator := some NewCommandContents }

/-- The addresses of the elements on which listener `l` is registered. -/
def listenedAt (h : Heap) (l : Listener) : List Ptr :=
  (List.range h.length).filter fun p =>
    match h[p]? with
    | none => false
    | some c => decide (l ∈ c.listeners)

/-- The heap after `GetDirectoryMsg` with listener 4 on element 2 of `heapPath`. -/
def heapRequested : Heap :=
  match GetDirectoryMsg Env.sample 3 heapPath 2 (some 4) with
  | some (h', _, _) => h'
  | none => []

/-- The cells of a decoded response for element 2 of `heapPath` (Number 7, tag 12): the node
with content and one child numbered 1, allocated at addresses 9 and 10. -/
def responseCells : List Element :=
  [{ Element.plain 7 12 [(1, 10)] [] with contents := some (EmberContents.other 5) },
   { Element.plain 1 13 [] [] with parent := some 9 }]

/-- Go: `element.SetContents(contents)`.  The argument is the dynamic value of the `interface{}`
parameter (`none` = nil, on which the type assertion `contents.(EmberContents)` panics).  The
result holds the heap, the returned error (always nil) and the `Receive` calls made. -/
def SetContents (ord : MapOrder) (h : Heap) (element : Ptr) (contents : Option EmberContents) :
    Option UpdateResult :=
  match h[element]?, contents with
  | some e, some c =>
    match updateListeners ord (h.set element { e with contents := some c }) element none with
    | none => none
    | some evs => some ⟨h.set element { e with contents := some c }, none, evs⟩
  | _, _ => none

/-- The reader operation the two source files call on an `*asn1.ASNReader` with state `R`:
`ReadInt` returns the reader state it leaves, the value read and its error (nil = `none`). -/
structure Decoder (R : Type) where
  ReadInt : R → R × Int × Option Error

/-- Go: `cc.Decode(reader)` for `*CommandContents`; returns the reader state, the contents after
the call and the returned error. -/
def CommandContents.Decode {R : Type} (rdr : Decoder R) (cc : CommandContents) (r : R) :
    R × CommandContents × Option Error :=
  match rdr.ReadInt r with
  | (r', _, some err) => (r', cc, some err)
  | (r', val, none) => (r', { cc with fieldFlags := val }, none)

/-- Go: `cc.SetFieldFlags(fieldFlags)`. -/
def CommandContents.SetFieldFlags (_cc : CommandContents) (fieldFlags : FieldFlags) :
    CommandContents :=
  { fieldFlags := fieldFlags }

/-- Go: `cc.GetFieldFlags()`. -/
def CommandContents.GetFieldFlags (cc : CommandContents) : FieldFlags := cc.fieldFlags

/-- Go: `fmt.Sprintf("  fieldFlags: %d", v)`: the verb `%d` prints the integer in decimal, with a
leading minus sign when it is negative. -/
def sprintfFieldFlags (v : FieldFlags) : String := "  fieldFlags: " ++ toString v

/-- Go: `cc.ToString()` for `*CommandContents`: the `switch cc.fieldFlags` with its seven cases,
then the statement after the switch. -/
def CommandContents.ToString (cc : CommandContents) : String :=
  if cc.fieldFlags = ALLFieldFlags then "  fieldFlags: ALL"
  else if cc.fieldFlags = DefaultFieldFlags then "  fieldFlags: Default"
  else if cc.fieldFlags = IdentifierFieldFlags then "  fieldFlags: Identifier"
  else if cc.fieldFlags = DescriptionFieldFlags then "  fieldFlags: Description"
  else if cc.fieldFlags = TreeFieldFlags then "  fieldFlags: Tree"
  else if cc.fieldFlags = ValueFieldFlags then "  fieldFlags: Value"
  else if cc.fieldFlags = ConnectionsFieldFlags then "  fieldFlags: Connections"
  else sprintfFieldFlags cc.fieldFlags

/-- The eight declared `FieldFlags` constants. -/
def knownFieldFlags : List FieldFlags :=
  [SparseFieldFlags, ALLFieldFlags, DefaultFieldFlags, IdentifierFieldFlags,
   DescriptionFieldFlags, TreeFieldFlags, ValueFieldFlags, ConnectionsFieldFlags]

/-- The string `label` occurs inside the string `s`. -/
def containsLabel (s label : String) : Prop := label.data <:+: s.data

/-- Every cell of `h` is still there in `h'`, with the same Number and tag. -/
def KeepsIdentity (h h' : Heap) : Prop :=
  ∀ (p : Ptr) (e : Element), h[p]? = some e →
    ∃ e', h'[p]? = some e' ∧ e'.Number = e.Number ∧ e'.tag = e.tag

/-- Every children map of the heap has each key once, and every entry is an allocated element
stored under its own Number. -/
def KeyedByNumber (h : Heap) : Prop :=
  ∀ (p : Ptr) (e : Element), h[p]? = some e →
    (mapKeys e.Children).Nodup ∧
      ∀ kc ∈ e.Children, ∃ c, h[kc.2]? = some c ∧ c.Number = kc.1

/-- The heaps that can be built from nothing with `NewElement`, `AddChild` and `Update` only. -/
inductive Built : Heap → Prop where
  | empty : Built []
  | newElement (h : Heap) (tag : Nat) (number : Int) (creator : Option ContentCreator) :
      Built h → Built (NewElement h tag number creator).1
  | addChild (h h' : Heap) (element child : Ptr) (err : Option Error) :
      Built h → AddChild h element child = some (h', err) → Built h'
  | update (ord : MapOrder) (fuel : Nat) (h : Heap) (element newElement : Ptr)
      (res : UpdateResult) :
      Built h → Update ord fuel h element newElement = some res → Built res.heap

/-- A writer that never fails and keeps the integers written, oldest first. -/
def Codec.tape : Codec (List Int) where
  StartSequence := fun _ w => (w, none)
  EndSequence := fun w => (w, none)
  WriteInt := fun v w => (w ++ [v], none)
  WriteRelativeOID := fun path w => (w ++ path, none)
  encodeOther := fun _ w => (w, none)
  EncodeTargets := fun _ w => (w, none)
  EncodeSources := fun _ w => (w, none)
  EncodeConnections := fun _ w => (w, none)

/-- A reader over the integers kept by `Codec.tape`: `ReadInt` takes the oldest one and fails on
an empty input. -/
def Decoder.tape : Decoder (List Int) where
  ReadInt := fun r =>
    match r with
    | [] => ([], 0, some (Error.external 1))
    | v :: rest => (rest, v, none)

/-- Resident element 0 (Number 1, tag 0, content variant 1) with child 1 (Number 5, tag 1);
incoming element 2 (Number 1, tag 0, content variant 2) with child 3 (Number 5, tag 2), so that
the merge of the children fails. -/
def heapContentClash : Heap :=
  [{ Element.plain 1 0 [(5, 1)] [7] with contents := some (EmberContents.other 1) },
   { Element.plain 5 1 [] [] with parent := some 0 },
   { Element.plain 1 0 [(5, 3)] [] with contents := some (EmberContents.other 2) },
   { Element.plain 5 2 [] [] with parent := some 2 }]

/-- Two new elements (Number 1 at address 0, Number 5 at address 1), before any `AddChild`. -/
def heapTwoNew : Heap :=
  (NewElement (NewElement [] 0 1 none).1 1 5 none).1

/-- Heap `h'` has every cell of `h`, each with the listener set it has in `h`. -/
def KeepsListeners (h h' : Heap) : Prop :=
  ∀ (p : Ptr) (e : Element), h[p]? = some e → ∃ e', h'[p]? = some e' ∧ e'.listeners = e.listeners

/-- Two cells hold the same element: both are absent, or both are present with equal fields
other than `Children` and with children maps that store the same child under every number (the
order in which the model lists the entries of a map is no part of the map). -/
def SameCell (a b : Option Element) : Prop :=
  a.map Element.sansChildren = b.map Element.sansChildren ∧
  ∀ k : Int, (a.bind fun e => mapLookup k e.Children) = (b.bind fun e => mapLookup k e.Children)

/-- Two heaps hold the same element at every address. -/
def SameCells (h1 h2 : Heap) : Prop :=
  ∀ q : Ptr, SameCell h1[q]? h2[q]?

/-- A resident 0 without children and an incoming tree at 1 with the children 5 and 6. -/
def heapTwoIncoming : Heap :=
  [Element.plain 1 0 [] [], Element.plain 1 0 [(5, 2), (6, 3)] [],
   { Element.plain 5 1 [] [] with parent := some 1 },
   { Element.plain 6 1 [] [] with parent := some 1 }]

/-- The relation `AbsorbedIn S n h r i`: within the addresses `S`, resident `r` already holds
everything of incoming `i`: they agree in Number and tag, the content of `i` (when it has one) is
the content of `r`, and every child of `i` has a child of `r` stored under the same number that,
level by level, already holds everything of it. -/
def AbsorbedIn (S : List Ptr) : Nat → Heap → Ptr → Ptr → Prop
  | 0, _, _, _ => False
  | n + 1, h, r, i =>
    r ∈ S ∧ i ∈ S ∧ ∃ e m, h[r]? = some e ∧ h[i]? = some m ∧ e.Number = m.Number ∧
      e.tag = m.tag ∧ (m.contents = none ∨ e.contents = m.contents) ∧
      ∀ kc ∈ m.Children, ∃ c, mapLookup kc.1 e.Children = some c ∧ AbsorbedIn S n h c kc.2

/-- The spec's step 2 of a record, as tokens: the context-0 sub-record holding the path of a
qualified element or the number of any other. -/
def specAddress (env : Env) (e : Element) : List Token :=
  [Token.start (env.Context 0),
   if e.isQualified then Token.oid e.path else Token.int e.Number,
   Token.finish]

/-- The spec's step 3 of a record, as tokens: when content is present, the context-1 sub-record
holding the content's own encoding (one integer for command contents). -/
def specContent (env : Env) (e : Element) : List Token :=
  match e.contents with
  | none => []
  | some (EmberContents.command cc) =>
    [Token.start (env.Context 1), Token.int cc.fieldFlags, Token.finish]
  | some (EmberContents.other variant) =>
    [Token.start (env.Context 1), Token.content variant, Token.finish]

/-- The spec's matrix groups of a record, as tokens: written for matrix elements at every
depth. -/
def specMatrix (e : Element) : List Token :=
  if e.isMatrix then
    [Token.targets e.targets, Token.sources e.sources, Token.connections e.connections]
  else []

/-- The record of an element in as-child mode, as the spec describes it: tag, address, content
and matrix groups, and no context-2 group. -/
def specChildRecord (env : Env) (c : Element) : List Token :=
  [Token.start c.tag] ++ specAddress env c ++ specContent env c ++ specMatrix c ++ [Token.finish]

/-- The contents of the application-4 group, as the spec describes it: for each child in
visiting order a context-0 wrapper around the child's as-child record. -/
def specChildrenGroup (env : Env) (h : Heap) (entries : List (Int × Ptr)) : List Token :=
  entries.flatMap fun kc =>
    match h[kc.2]? with
    | none => []
    | some c => [Token.start (env.Context 0)] ++ specChildRecord env c ++ [Token.finish]

/-- The record of a top-level `Encode` call, as the spec describes it: tag, address, content,
then (only when the element has children) one context-2 sub-record wrapping the application-4
group of the children, then the matrix groups. -/
def specRecord (env : Env) (ord : MapOrder) (h : Heap) (e : Element) : List Token :=
  [Token.start e.tag] ++ specAddress env e ++ specContent env e ++
    (if e.Children = [] then []
     else [Token.start (env.Context 2), Token.start (env.Application 4)] ++
       specChildrenGroup env h (ord.children e.Children) ++ [Token.finish, Token.finish]) ++
    specMatrix e ++ [Token.finish]

/-! ## Basic facts about heaps -/

theorem SameFixed.refl_fixed (h : Heap) : SameFixed h h := fun _ => rfl

theorem SameFixed.trans_fixed {h1 h2 h3 : Heap} (a : SameFixed h1 h2) (b : SameFixed h2 h3) :
    SameFixed h1 h3 := fun p => (b p).trans (a p)

theorem SameFixed.length_eq {h h' : Heap} (a : SameFixed h h') : h'.length = h.length := by
  by_contra hne
  rcases Nat.lt_or_gt_of_ne hne with hlt | hlt
  · have h1 := a h'.length
    rw [List.getElem?_eq_none (le_refl _)] at h1
    obtain ⟨e, he⟩ : ∃ e, h[h'.length]? = some e :=
      ⟨h[h'.length], List.getElem?_eq_getElem hlt⟩
    simp [he] at h1
  · have h1 := a h.length
    rw [List.getElem?_eq_none (le_refl _)] at h1
    obtain ⟨e, he⟩ : ∃ e, h'[h.length]? = some e :=
      ⟨h'[h.length], List.getElem?_eq_getElem hlt⟩
    simp [he] at h1

theorem SameFixed.cell {h h' : Heap} (a : SameFixed h h') {p : Ptr} {e : Element}
    (he : h[p]? = some e) : ∃ e', h'[p]? = some e' ∧ e'.fixed = e.fixed := by
  have h1 := a p
  rw [he] at h1
  cases hp : h'[p]? with
  | none => simp [hp] at h1
  | some e' => exact ⟨e', rfl, by simpa [hp] using h1⟩

theorem sameFixed_set {h : Heap} {p : Ptr} {e e' : Element} (he : h[p]? = some e)
    (hfix : e'.fixed = e.fixed) : SameFixed h (h.set p e') := by
  intro q
  rw [List.getElem?_set]
  by_cases hpq : p = q
  · subst hpq
    have hlt : p < h.length := (List.getElem?_eq_some.mp he).1
    simp [hlt, he, hfix]
  · simp [hpq]

theorem assignContent_sameFixed {h : Heap} {p : Ptr} {e : Element} (he : h[p]? = some e)
    (c : Option EmberContents) : SameFixed h (assignContent h p e c) := by
  cases c with
  | none => exact SameFixed.refl_fixed h
  | some c => exact sameFixed_set he rfl

theorem SetParent_sameFixed {h h' : Heap} {p : Ptr} {par : Option Ptr} {er : Option Error}
    (hs : SetParent h p par = some (h', er)) : SameFixed h h' ∧ er = none := by
  unfold SetParent at hs
  split at hs
  · simp at hs
  · rename_i e he
    simp only [Option.some.injEq, Prod.mk.injEq] at hs
    obtain ⟨rfl, rfl⟩ := hs
    exact ⟨sameFixed_set he rfl, rfl⟩

theorem AddChild_sameFixed {h h' : Heap} {el ch : Ptr} {er : Option Error}
    (hs : AddChild h el ch = some (h', er)) : SameFixed h h' ∧ er = none := by
  unfold AddChild at hs
  split at hs
  · rename_i e c he hc
    split at hs
    · simp at hs
    · rename_i h2 er2 hsp
      simp only [Option.some.injEq, Prod.mk.injEq] at hs
      obtain ⟨rfl, rfl⟩ := hs
      refine ⟨SameFixed.trans_fixed ?_ (SetParent_sameFixed hsp).1, rfl⟩
      exact sameFixed_set he rfl
  · simp at hs

/-- The ways in which one iteration of the loop of `Update` can go. -/
theorem updateLoop_cons_inv {recur : Heap → Ptr → Ptr → Option UpdateResult} {el : Ptr}
    {number : Int} {newChild : Ptr} {rest : List (Int × Ptr)} {h : Heap} {tr : List Event}
    {r : UpdateResult} (hr : updateLoop recur el ((number, newChild) :: rest) h tr = some r) :
    ∃ e, h[el]? = some e ∧
      ((mapLookup number e.Children = none ∧ ∃ h', AddChild h el newChild = some (h', none) ∧
          updateLoop recur el rest h' tr = some r) ∨
       (∃ child r', mapLookup number e.Children = some child ∧ recur h child newChild = some r' ∧
          ((r'.err = none ∧
              updateLoop recur el rest r'.heap (tr ++ r'.trace.map Event.nested) = some r) ∨
           (∃ err, r'.err = some err ∧
              r = ⟨r'.heap, some err, tr ++ r'.trace.map Event.nested⟩)))) := by
  unfold updateLoop at hr
  split at hr
  · simp at hr
  · rename_i e he
    refine ⟨e, he, ?_⟩
    split at hr
    · rename_i hl
      left
      refine ⟨hl, ?_⟩
      split at hr
      · simp at hr
      · rename_i h' hadd
        exact ⟨h', hadd, hr⟩
      · rename_i h' err hadd
        have := (AddChild_sameFixed hadd).2
        simp at this
    · rename_i child hl
      right
      split at hr
      · simp at hr
      · rename_i r' hr'
        refine ⟨child, r', hl, hr', ?_⟩
        split at hr
        · rename_i hnone
          exact Or.inl ⟨hnone, hr⟩
        · rename_i err herr
          simp only [Option.some.injEq] at hr
          exact Or.inr ⟨err, herr, hr.symm⟩

/-- The ways in which a call of `Update` can return. -/
theorem Update_succ_inv {ord : MapOrder} {fuel : Nat} {h : Heap} {a b : Ptr} {r : UpdateResult}
    (hr : Update ord (fuel + 1) h a b = some r) :
    ∃ e n, h[a]? = some e ∧ h[b]? = some n ∧
      (((e.Number ≠ n.Number ∨ e.tag ≠ n.tag) ∧
          r = ⟨h, some (Error.identityMismatch e.Number n.Number e.tag n.tag), []⟩) ∨
       (e.Number = n.Number ∧ e.tag = n.tag ∧ ∃ r' evs,
          updateLoop (Update ord fuel) a (ord.children n.Children)
            (assignContent h a e n.contents) [] = some r' ∧
          updateListeners ord r'.heap a r'.err = some evs ∧
          r = ⟨r'.heap, r'.err, r'.trace ++ evs⟩)) := by
  unfold Update at hr
  split at hr
  · rename_i e n he hn
    refine ⟨e, n, he, hn, ?_⟩
    split at hr
    · rename_i hmis
      simp only [Option.some.injEq] at hr
      exact Or.inl ⟨hmis, hr.symm⟩
    · rename_i hmis
      have hmis' : e.Number = n.Number ∧ e.tag = n.tag := by
        constructor
        · by_contra hc; exact hmis (Or.inl hc)
        · by_contra hc; exact hmis (Or.inr hc)
      right
      refine ⟨hmis'.1, hmis'.2, ?_⟩
      split at hr
      · simp at hr
      · rename_i r' hloop
        split at hr
        · simp at hr
        · rename_i evs hev
          simp only [Option.some.injEq] at hr
          exact ⟨r', evs, hloop, hev, hr.symm⟩
  · simp at hr

theorem updateLoop_sameFixed {recur : Heap → Ptr → Ptr → Option UpdateResult}
    (hrec : ∀ h a b r, recur h a b = some r → SameFixed h r.heap) (el : Ptr) :
    ∀ (entries : List (Int × Ptr)) (h : Heap) (tr : List Event) (r : UpdateResult),
      updateLoop recur el entries h tr = some r → SameFixed h r.heap := by
  intro entries
  induction entries with
  | nil =>
    intro h tr r hr
    simp only [updateLoop, Option.some.injEq] at hr
    subst hr
    exact SameFixed.refl_fixed h
  | cons hd rest ih =>
    intro h tr r hr
    obtain ⟨number, newChild⟩ := hd
    obtain ⟨e, he, hcase⟩ := updateLoop_cons_inv hr
    rcases hcase with ⟨_, h', hadd, hrest⟩ | ⟨child, r', _, hr', hcase2⟩
    · exact (AddChild_sameFixed hadd).1.trans_fixed (ih _ _ _ hrest)
    · rcases hcase2 with ⟨_, hrest⟩ | ⟨err, _, rfl⟩
      · exact (hrec _ _ _ _ hr').trans_fixed (ih _ _ _ hrest)
      · exact hrec _ _ _ r' hr'

theorem Update_sameFixed (ord : MapOrder) :
    ∀ (fuel : Nat) (h : Heap) (a b : Ptr) (r : UpdateResult),
      Update ord fuel h a b = some r → SameFixed h r.heap := by
  intro fuel
  induction fuel with
  | zero => intro h a b r hr; simp [Update] at hr
  | succ fuel ih =>
    intro h a b r hr
    obtain ⟨e, n, he, hn, hcase⟩ := Update_succ_inv hr
    rcases hcase with ⟨_, rfl⟩ | ⟨_, _, r', evs, hloop, _, rfl⟩
    · exact SameFixed.refl_fixed h
    · exact (assignContent_sameFixed he _).trans_fixed (updateLoop_sameFixed ih a _ _ _ r' hloop)

/-! ## C2: field-flag constants -/

/-- C2 (code defect): the spec fixes the wire values All = 0, Default = 1, Identifier = 2,
Description = 3, Tree = 4, Value = 5, Connections = 6, but the constant block writes `= iota`
only from its second ConstSpec on, after the explicit `SparseFieldFlags = -2`, so the seven
constants evaluate to 1, 2, 3, 4, 5, 6, 7, each one more than its wire value, and
`CommandContents.Encode`, which is exactly one `WriteInt` of the `fieldFlags` integer, writes 1
for `ALLFieldFlags`. -/
theorem C2_fieldFlags_off_by_one :
    SparseFieldFlags = -2 ∧
    [ALLFieldFlags, DefaultFieldFlags, IdentifierFieldFlags, DescriptionFieldFlags,
      TreeFieldFlags, ValueFieldFlags, ConnectionsFieldFlags] = [1, 2, 3, 4, 5, 6, 7] ∧
    [ALLFieldFlags, DefaultFieldFlags, IdentifierFieldFlags, DescriptionFieldFlags,
      TreeFieldFlags, ValueFieldFlags, ConnectionsFieldFlags] ≠ [0, 1, 2, 3, 4, 5, 6] ∧
    (∀ (W : Type) (cdc : Codec W) (v : FieldFlags) (w : W),
      CommandContents.Encode cdc { fieldFlags := v } w = cdc.WriteInt v w) ∧
    ∀ (W : Type) (cdc : Codec W) (w : W),
      CommandContents.Encode cdc { fieldFlags := ALLFieldFlags } w = cdc.WriteInt 1 w := by
  refine ⟨by decide, by decide, by decide, ?_, ?_⟩
  · intro W cdc v w
    rfl
  · intro W cdc w
    rfl

/-! ## C9: NewCommand -/

/-- C9: for every command code `n`, `NewCommand(n)` returns a new element (no existing cell is
touched) with the Command application tag, Number `n`, and `CommandContents` whose `fieldFlags`
is `ALLFieldFlags` when `n = 32` and `DefaultFieldFlags` otherwise. -/
theorem C9_NewCommand (env : Env) (h : Heap) (n : Int) :
    ∃ h' c, NewCommand env h n = some (h', h.length) ∧
      h' = h ++ [c] ∧
      c.tag = CommandApplication env ∧ c.Number = n ∧
      c.contents = some (EmberContents.command
        { fieldFlags := if n = 32 then ALLFieldFlags else DefaultFieldFlags }) ∧
      c.Children = [] ∧ c.parent = none ∧ c.listeners = [] := by
  by_cases hn : n = 32
  · subst hn
    simp [NewCommand, NewElement, CreateContent, NewCommandContents, COMMAND_GETDIRECTORY]
  · simp [NewCommand, NewElement, CreateContent, NewCommandContents, COMMAND_GETDIRECTORY, hn]

/-! ## C10: identity mismatch leaves the resident unchanged -/

/-- C10: if `resident.Number != incoming.Number` or `resident.tag != incoming.tag`, then
`Update(resident, incoming)` returns an error and the whole heap, hence every field of the
resident (content, Children, parent, path, listeners), is what it was before the call. -/
theorem C10_mismatch_leaves_resident (ord : MapOrder) (fuel : Nat) (h : Heap) (resident incoming : Ptr)
    (e n : Element) (he : h[resident]? = some e) (hn : h[incoming]? = some n)
    (hmis : e.Number ≠ n.Number ∨ e.tag ≠ n.tag) :
    ∃ err res, Update ord (fuel + 1) h resident incoming = some res ∧
      res.err = some err ∧ res.heap = h ∧ res.heap[resident]? = some e := by
  refine ⟨Error.identityMismatch e.Number n.Number e.tag n.tag, ⟨h, _, []⟩, ?_, rfl, rfl, he⟩
  simp only [Update, he, hn]
  rw [if_pos hmis]

/-- C10 at a concrete input: tags 3 and 4 differ, the incoming element carries content and a
child, and the resident keeps its cell. -/
theorem C10_witness :
    ∃ err res, Update MapOrder.stored 1 heapTopClash 0 2 = some res ∧
      res.err = some err ∧ res.heap = heapTopClash ∧
      res.heap[0]? = some (Element.plain 1 3 [(5, 1)] [7]) :=
  C10_mismatch_leaves_resident MapOrder.stored 0 heapTopClash 0 2 _ _ rfl rfl (by decide)

/-! ## C1: when `Update` returns an error -/

theorem SameFixed.cell_back {h h' : Heap} (a : SameFixed h h') {p : Ptr} {e' : Element}
    (he : h'[p]? = some e') : ∃ e, h[p]? = some e ∧ e'.fixed = e.fixed := by
  have h1 := a p
  rw [he] at h1
  cases hp : h[p]? with
  | none => simp [hp] at h1
  | some e => exact ⟨e, rfl, by simpa [hp] using h1⟩

theorem MismatchOf.of_sameFixed {h h' : Heap} (a : SameFixed h h') {err : Error}
    (m : MismatchOf h' err) : MismatchOf h err := by
  obtain ⟨p, q, ep, eq, hp, hq, hne, rfl⟩ := m
  obtain ⟨ep0, hp0, fp⟩ := a.cell_back hp
  obtain ⟨eq0, hq0, fq⟩ := a.cell_back hq
  simp only [Element.fixed, Prod.mk.injEq] at fp fq
  refine ⟨p, q, ep0, eq0, hp0, hq0, ?_, ?_⟩
  · rw [← fp.1, ← fp.2.1, ← fq.1, ← fq.2.1]; exact hne
  · rw [← fp.1, ← fp.2.1, ← fq.1, ← fq.2.1]

theorem updateLoop_mismatchOf {recur : Heap → Ptr → Ptr → Option UpdateResult}
    (hfix : ∀ h a b r, recur h a b = some r → SameFixed h r.heap)
    (hrec : ∀ h a b r, recur h a b = some r → ∀ err, r.err = some err → MismatchOf h err)
    (el : Ptr) :
    ∀ (entries : List (Int × Ptr)) (h : Heap) (tr : List Event) (r : UpdateResult),
      updateLoop recur el entries h tr = some r →
      ∀ err, r.err = some err → MismatchOf h err := by
  intro entries
  induction entries with
  | nil =>
    intro h tr r hr err herr
    simp only [updateLoop, Option.some.injEq] at hr
    subst hr
    simp at herr
  | cons hd rest ih =>
    intro h tr r hr err herr
    obtain ⟨number, newChild⟩ := hd
    obtain ⟨e, he, hcase⟩ := updateLoop_cons_inv hr
    rcases hcase with ⟨_, h', hadd, hrest⟩ | ⟨child, r', _, hr', hcase2⟩
    · exact (ih _ _ _ hrest err herr).of_sameFixed (AddChild_sameFixed hadd).1
    · rcases hcase2 with ⟨_, hrest⟩ | ⟨err', herr', rfl⟩
      · exact (ih _ _ _ hrest err herr).of_sameFixed (hfix _ _ _ _ hr')
      · simp only [Option.some.injEq] at herr
        subst herr
        exact hrec _ _ _ r' hr' _ herr'

theorem Update_mismatchOf (ord : MapOrder) :
    ∀ (fuel : Nat) (h : Heap) (a b : Ptr) (r : UpdateResult),
      Update ord fuel h a b = some r → ∀ err, r.err = some err → MismatchOf h err := by
  intro fuel
  induction fuel with
  | zero => intro h a b r hr; simp [Update] at hr
  | succ fuel ih =>
    intro h a b r hr err herr
    obtain ⟨e, n, he, hn, hcase⟩ := Update_succ_inv hr
    rcases hcase with ⟨hmis, rfl⟩ | ⟨_, _, r', evs, hloop, _, rfl⟩
    · simp only [Option.some.injEq] at herr
      exact ⟨a, b, e, n, he, hn, hmis, herr.symm⟩
    · exact (updateLoop_mismatchOf (Update_sameFixed ord fuel) ih a _ _ _ r' hloop err
        herr).of_sameFixed (assignContent_sameFixed he _)

/-- C1 (as stated) fails: resident 0 and incoming 2 of `heapTagClash` have the same Number and
tag, yet `Update` returns an error, the mismatch of their children numbered 5 (tags 1 and 2). -/
theorem C1_counterexample :
    ∃ e n res, heapTagClash[0]? = some e ∧ heapTagClash[2]? = some n ∧
      Update MapOrder.stored 2 heapTagClash 0 2 = some res ∧
      res.err = some (Error.identityMismatch 5 5 1 2) ∧
      ¬ (e.Number ≠ n.Number ∨ e.tag ≠ n.tag) :=
  ⟨_, _, _, rfl, rfl, rfl, rfl, by decide⟩

/-! ## C4: listener notification by `Update` -/

theorem updateLoop_trace {recur : Heap → Ptr → Ptr → Option UpdateResult} (el : Ptr) :
    ∀ (entries : List (Int × Ptr)) (h : Heap) (tr : List Event) (r : UpdateResult),
      updateLoop recur el entries h tr = some r →
      ∃ extra, r.trace = tr ++ extra ∧ ∀ ev ∈ extra, 0 < ev.depth := by
  intro entries
  induction entries with
  | nil =>
    intro h tr r hr
    simp only [updateLoop, Option.some.injEq] at hr
    subst hr
    exact ⟨[], by simp, by simp⟩
  | cons hd rest ih =>
    intro h tr r hr
    obtain ⟨number, newChild⟩ := hd
    obtain ⟨e, he, hcase⟩ := updateLoop_cons_inv hr
    have hnested : ∀ (t : List Event), ∀ ev ∈ t.map Event.nested, 0 < ev.depth := by
      intro t ev hev
      obtain ⟨ev0, _, rfl⟩ := List.mem_map.mp hev
      simp [Event.nested]
    rcases hcase with ⟨_, h', hadd, hrest⟩ | ⟨child, r', _, hr', hcase2⟩
    · exact ih _ _ _ hrest
    · rcases hcase2 with ⟨_, hrest⟩ | ⟨err', herr', rfl⟩
      · obtain ⟨extra, hx, hd⟩ := ih _ _ _ hrest
        refine ⟨r'.trace.map Event.nested ++ extra, by rw [hx, List.append_assoc], ?_⟩
        intro ev hev
        rcases List.mem_append.mp hev with hev | hev
        · exact hnested _ ev hev
        · exact hd ev hev
      · exact ⟨r'.trace.map Event.nested, rfl, hnested _⟩

theorem ownCalls_of_nested (l : Listener) (t : List Event) (ht : ∀ ev ∈ t, 0 < ev.depth) :
    ownCalls l t = [] := by
  unfold ownCalls
  rw [List.filter_eq_nil_iff]
  intro ev hev
  have := ht ev hev
  simp only [decide_eq_true_eq, not_and]
  intro h0
  omega

theorem ownCalls_notify (l : Listener) (p : Ptr) (er : Option Error) :
    ∀ (ls : List Listener), ls.Nodup →
      ownCalls l (ls.map fun l' => (⟨0, l', p, er⟩ : Event)) =
        if l ∈ ls then [⟨0, l, p, er⟩] else [] := by
  intro ls
  induction ls with
  | nil => intro _; simp [ownCalls]
  | cons x rest ih =>
    intro hnd
    have hnd' := List.nodup_cons.mp hnd
    have ih' := ih hnd'.2
    unfold ownCalls at ih' ⊢
    by_cases hx : x = l
    · subst hx
      have hnot : x ∉ rest := hnd'.1
      simp only [hnot, if_false] at ih'
      rw [List.map_cons, List.filter_cons, if_pos (by simp), ih']
      simp
    · have hx' : ¬ l = x := fun hc => hx hc.symm
      rw [List.map_cons, List.filter_cons, if_neg (by simp [hx]), ih']
      simp [hx']

/-- C4 (as stated) fails: in `heapNumberClash` listener 7 is registered on the resident, the call
`Update(resident, incoming)` fails on the identity check, and no `Receive` call is made. -/
theorem C4_counterexample :
    ∃ e res, heapNumberClash[0]? = some e ∧ 7 ∈ e.listeners ∧
      Update MapOrder.stored 1 heapNumberClash 0 1 = some res ∧
      res.err = some (Error.identityMismatch 1 2 0 0) ∧ res.trace = [] :=
  ⟨_, _, rfl, by decide, rfl, rfl, rfl⟩

/-! ## getDupBranch -/

theorem SameShape.refl_shape (h : Heap) : SameShape h h := fun _ e he => ⟨e, he, rfl⟩

theorem SameShape.trans_shape {h1 h2 h3 : Heap} (a : SameShape h1 h2) (b : SameShape h2 h3) :
    SameShape h1 h3 := by
  intro p e he
  obtain ⟨e2, he2, hs2⟩ := a p e he
  obtain ⟨e3, he3, hs3⟩ := b p e2 he2
  exact ⟨e3, he3, hs3.trans hs2⟩

theorem getElem?_lt {h : Heap} {p : Ptr} {e : Element} (he : h[p]? = some e) : p < h.length :=
  (List.getElem?_eq_some.mp he).1

theorem sameShape_set {h : Heap} {p : Ptr} {e e' : Element} (he : h[p]? = some e)
    (hs : e'.shape = e.shape) : SameShape h (h.set p e') := by
  intro q c hc
  rw [List.getElem?_set]
  by_cases hpq : p = q
  · subst hpq
    rw [he] at hc
    simp only [Option.some.injEq] at hc
    subst hc
    simp [getElem?_lt he, hs]
  · simp [hpq, hc]

theorem sameShape_append (h : Heap) (extra : List Element) : SameShape h (h ++ extra) := by
  intro p e he
  exact ⟨e, by rw [List.getElem?_append_left (getElem?_lt he)]; exact he, rfl⟩

/-- The result of `AddChild` on two different allocated elements, in closed form. -/
theorem AddChild_eq {h : Heap} {el ch : Ptr} {e c : Element} (he : h[el]? = some e)
    (hc : h[ch]? = some c) (hne : el ≠ ch) :
    AddChild h el ch =
      some ((h.set el (e.withChild c.Number ch)).set ch (c.withParent el), none) := by
  have hc2 : (h.set el { e with Children := mapInsert c.Number ch e.Children })[ch]? = some c := by
    rw [List.getElem?_set_ne hne]; exact hc
  simp only [AddChild, he, hc, SetParent, hc2]
  rfl

theorem ParentChain.head_cell {h : Heap} {e : Ptr} {anc : List Ptr} (hp : ParentChain h e anc) :
    ∃ c, h[e]? = some c := by
  cases anc with
  | nil => obtain ⟨c, hc, _⟩ := hp; exact ⟨c, hc⟩
  | cons p rest => obtain ⟨c, hc, _⟩ := hp; exact ⟨c, hc⟩

theorem ParentChain.congr {h h' : Heap} :
    ∀ (anc : List Ptr) (e : Ptr), (∀ q ∈ e :: anc, h'[q]? = h[q]?) →
      ParentChain h e anc → ParentChain h' e anc := by
  intro anc
  induction anc with
  | nil =>
    intro e hq hp
    obtain ⟨c, hc, hpar⟩ := hp
    exact ⟨c, by rw [hq e (List.mem_cons_self _ _)]; exact hc, hpar⟩
  | cons p rest ih =>
    intro e hq hp
    obtain ⟨c, hc, hpar, hrest⟩ := hp
    refine ⟨c, by rw [hq e (List.mem_cons_self _ _)]; exact hc, hpar, ih p ?_ hrest⟩
    intro q hqm
    exact hq q (List.mem_cons_of_mem _ hqm)

theorem StandInChain.sameShape {h0 h h' : Heap} (a : SameShape h h') :
    ∀ (real : List Ptr) (s : Ptr), StandInChain h0 h real s → StandInChain h0 h' real s := by
  intro real
  induction real with
  | nil => intro s hs; exact hs
  | cons r rest ih =>
    intro s hs
    cases rest with
    | nil =>
      obtain ⟨sc, rc, hsc, hrc, hst, hnew⟩ := hs
      obtain ⟨sc', hsc', hshape⟩ := a s sc hsc
      simp only [Element.shape, Prod.mk.injEq] at hshape
      refine ⟨sc', rc, hsc', hrc, ?_, hnew⟩
      obtain ⟨h1, h2, h3, h4⟩ := hst
      exact ⟨by rw [hshape.2.1]; exact h1, by rw [hshape.1]; exact h2,
        by rw [hshape.2.2.1]; exact h3, by rw [hshape.2.2.2.1]; exact h4⟩
    | cons r' rest' =>
      obtain ⟨sc, rc, s', sc', hsc, hrc, hst, hnew, hs', hch, hrest⟩ := hs
      obtain ⟨sc2, hsc2, hshape⟩ := a s sc hsc
      obtain ⟨sc2', hsc2', hshape'⟩ := a s' sc' hs'
      simp only [Element.shape, Prod.mk.injEq] at hshape hshape'
      refine ⟨sc2, rc, s', sc2', hsc2, hrc, ?_, hnew, hsc2', ?_, ih s' hrest⟩
      · obtain ⟨h1, h2, h3, h4⟩ := hst
        exact ⟨by rw [hshape.2.1]; exact h1, by rw [hshape.1]; exact h2,
          by rw [hshape.2.2.1]; exact h3, by rw [hshape.2.2.2.1]; exact h4⟩
      · rw [hshape.2.2.2.2.1, hshape'.1]; exact hch

theorem soleChild_sameShape {h h' : Heap} (a : SameShape h h') {p q : Ptr}
    (hs : soleChild h p = some q) : soleChild h' p = some q := by
  unfold soleChild at hs ⊢
  cases hp : h[p]? with
  | none => simp [hp] at hs
  | some c =>
    obtain ⟨c', hc', hshape⟩ := a p c hp
    simp only [Element.shape, Prod.mk.injEq] at hshape
    simp only [hp] at hs
    simp only [hc', hshape.2.2.2.2.1]
    exact hs

theorem descend_sameShape {h h' : Heap} (a : SameShape h h') :
    ∀ (k : Nat) (p q : Ptr), descend h k p = some q → descend h' k p = some q := by
  intro k
  induction k with
  | zero => intro p q hd; exact hd
  | succ k ih =>
    intro p q hd
    unfold descend at hd ⊢
    cases hs : soleChild h p with
    | none => simp [hs] at hd
    | some x =>
      simp only [hs] at hd
      simp only [soleChild_sameShape a hs]
      exact ih x q hd

theorem descend_snoc {h : Heap} :
    ∀ (k : Nat) (p x y : Ptr), descend h k p = some x → soleChild h x = some y →
      descend h (k + 1) p = some y := by
  intro k
  induction k with
  | zero =>
    intro p x y hd hs
    simp only [descend, Option.some.injEq] at hd
    subst hd
    simp [descend, hs]
  | succ k ih =>
    intro p x y hd hs
    unfold descend at hd
    cases hsp : soleChild h p with
    | none => simp [hsp] at hd
    | some z =>
      simp only [hsp] at hd
      have := ih z x y hd hs
      rw [descend, hsp]
      exact this

/-- The cell that `NewElement` appends. -/
theorem NewElement_eq (h : Heap) (tag : Nat) (number : Int) :
    NewElement h tag number none = (h ++ [Element.plain number tag [] []], h.length) := rfl

/-- What the loop of `getDupBranch` builds above `dupElement`, the stand-in of `e`. -/
theorem dupLoop_spec (h0 : Heap) :
    ∀ (anc : List Ptr) (fuel : Nat) (h : Heap) (e dupElement : Ptr) (below : List Ptr),
      anc.length < fuel →
      ParentChain h e anc →
      (∀ p ∈ e :: anc, p < h0.length ∧ h[p]? = h0[p]?) →
      h0.length ≤ dupElement →
      (∃ dc, h[dupElement]? = some dc ∧ dc.parent = none) →
      StandInChain h0 h (e :: below) dupElement →
      ∃ h' top, dupLoop fuel h e dupElement = some (h', some top, none) ∧
        StandInChain h0 h' (anc.reverse ++ e :: below) top ∧
        (∃ tc, h'[top]? = some tc ∧ tc.parent = none) ∧
        SameShape h h' ∧ (∀ p, p < h0.length → h'[p]? = h[p]?) ∧
        descend h' anc.length top = some dupElement ∧
        h'.length = h.length + anc.length ∧
        (∀ (p : Ptr) (c : Element), h.length ≤ p → h'[p]? = some c → c.listeners = []) := by
  intro anc
  induction anc with
  | nil =>
    intro fuel h e dE below hf hp _ _ hdc hchain
    obtain ⟨c, hc, hpar⟩ := hp
    obtain ⟨f, rfl⟩ : ∃ f, fuel = f + 1 := ⟨fuel - 1, by simp at hf; omega⟩
    refine ⟨h, dE, ?_, by simpa using hchain, hdc, SameShape.refl_shape h, fun _ _ => rfl, rfl, rfl, ?_⟩
    · simp [dupLoop, GetParent, hc, hpar]
    · intro q cq hq hcq
      have := getElem?_lt hcq
      simp only [Ptr] at *
      omega
  | cons p rest ih =>
    intro fuel h e dE below hf hp hreal hnew hdc hchain
    obtain ⟨c, hc, hpar, hrest⟩ := hp
    obtain ⟨pc, hpc⟩ := hrest.head_cell
    obtain ⟨dc, hdcell, hdpar⟩ := hdc
    obtain ⟨f, rfl⟩ : ∃ f, fuel = f + 1 := ⟨fuel - 1, by simp at hf; omega⟩
    have hf' : rest.length < f := by simp at hf; omega
    have hdlt : dE < h.length := getElem?_lt hdcell
    have hne : h.length ≠ dE := by simp only [Ptr] at *; omega
    have h1new : (h ++ [Element.plain pc.Number pc.tag [] []])[h.length]? =
        some (Element.plain pc.Number pc.tag [] []) := List.getElem?_concat_length _ _
    have h1d : (h ++ [Element.plain pc.Number pc.tag [] []])[dE]? = some dc := by
      rw [List.getElem?_append_left hdlt]; exact hdcell
    -- the heap after `dupParent.AddChild(dupElement)`
    obtain ⟨h2, hh2⟩ : ∃ h2 : Heap, h2 =
        ((h ++ [Element.plain pc.Number pc.tag [] []]).set h.length
          ((Element.plain pc.Number pc.tag [] []).withChild dc.Number dE)).set
          dE (dc.withParent h.length) :=
      ⟨_, rfl⟩
    have hstep : dupLoop (f + 1) h e dE = dupLoop f h2 p h.length := by
      rw [hh2]
      simp only [dupLoop, GetParent, hc, hpar, hpc, NewElement_eq, AddChild_eq h1new h1d hne]
    have hlen1 : (h ++ [Element.plain pc.Number pc.tag [] []]).length = h.length + 1 := by simp
    have h2top : h2[h.length]? = some (Element.plain pc.Number pc.tag [(dc.Number, dE)] []) := by
      rw [hh2, List.getElem?_set_ne (Ne.symm hne), List.getElem?_set_self (by simp)]
      rfl
    have h2d : h2[dE]? = some (dc.withParent h.length) := by
      rw [hh2, List.getElem?_set_self (by simp only [Ptr] at *; simp; omega)]
    have h2other : ∀ q, q < h.length → q ≠ dE → h2[q]? = h[q]? := by
      intro q hq hqd
      rw [hh2, List.getElem?_set_ne (Ne.symm hqd), List.getElem?_set_ne (by simp only [Ptr] at *; omega),
        List.getElem?_append_left hq]
    have hshape : SameShape h h2 := by
      intro q cq hq
      by_cases hqd : q = dE
      · subst hqd
        rw [hdcell] at hq
        simp only [Option.some.injEq] at hq
        subst hq
        exact ⟨_, h2d, rfl⟩
      · exact ⟨cq, by rw [h2other q (getElem?_lt hq) hqd]; exact hq, rfl⟩
    have hframe : ∀ q, q < h0.length → h2[q]? = h[q]? := by
      intro q hq
      exact h2other q (by simp only [Ptr] at *; omega) (by simp only [Ptr] at *; omega)
    have hp0 : h0[p]? = some pc := by
      rw [← (hreal p (by simp)).2]; exact hpc
    have hchain2 : StandInChain h0 h2 (p :: e :: below) h.length :=
      ⟨_, pc, dE, _, h2top, hp0, ⟨rfl, rfl, rfl, rfl⟩, by simp only [Ptr] at *; omega, h2d, rfl,
        StandInChain.sameShape hshape _ _ hchain⟩
    have hreal2 : ∀ q ∈ p :: rest, q < h0.length ∧ h2[q]? = h0[q]? := by
      intro q hq
      have := hreal q (List.mem_cons_of_mem _ hq)
      exact ⟨this.1, by rw [hframe q this.1]; exact this.2⟩
    have hchainp : ParentChain h2 p rest := by
      refine ParentChain.congr rest p ?_ hrest
      intro q hq
      exact hframe q (hreal q (List.mem_cons_of_mem _ hq)).1
    obtain ⟨h', top, hrun, hch', htop, hsh', hfr', hdesc, hlen, hlis⟩ :=
      ih f h2 p h.length (e :: below) hf' hchainp hreal2 (by simp only [Ptr] at *; omega) ⟨_, h2top, rfl⟩ hchain2
    have hlen2 : h2.length = h.length + 1 := by rw [hh2]; simp
    refine ⟨h', top, by rw [hstep]; exact hrun, ?_, htop, hshape.trans_shape hsh', ?_, ?_, ?_, ?_⟩
    · simpa [List.reverse_cons, List.append_assoc] using hch'
    · intro q hq
      rw [hfr' q hq, hframe q hq]
    · refine descend_snoc _ _ _ _ hdesc (soleChild_sameShape hsh' ?_)
      simp [soleChild, h2top, Element.plain]
    · rw [hlen, hlen2]
      simp only [Ptr] at *
      simp
      omega
    · intro q cq hq hcq
      by_cases hqe : q = h.length
      · subst hqe
        obtain ⟨c', hc', hs'⟩ := hsh' _ _ h2top
        rw [hcq] at hc'
        simp only [Option.some.injEq] at hc'
        subst hc'
        simp only [Element.shape, Prod.mk.injEq] at hs'
        rw [hs'.2.2.2.2.2]
        rfl
      · exact hlis q cq (by simp only [Ptr] at *; omega) hcq

/-- What `getDupBranch` returns for an element with ancestors `anc` (nearest first). -/
theorem getDupBranch_spec (fuel : Nat) (h : Heap) (element : Ptr) (anc : List Ptr)
    (cmd : Option Ptr) (hp : ParentChain h element anc)
    (hcmd : ∀ c, cmd = some c → (∃ cc, h[c]? = some cc) ∧ c ∉ element :: anc)
    (hfuel : anc.length < fuel) :
    ∃ h' top, getDupBranch fuel h element cmd = some (h', some top, none) ∧
      StandInChain h h' (anc.reverse ++ [element]) top ∧
      (∃ tc, h'[top]? = some tc ∧ tc.parent = none) ∧
      descend h' anc.length top = some h.length ∧
      (∃ lf, h'[h.length]? = some lf ∧
        (∀ e, h[element]? = some e → lf.tag = e.tag ∧ lf.Number = e.Number) ∧
        (cmd = none → lf.Children = []) ∧
        (∀ c cc, cmd = some c → h[c]? = some cc → lf.Children = [(cc.Number, c)])) ∧
      (∀ p, p < h.length → cmd ≠ some p → h'[p]? = h[p]?) ∧
      SameShape h h' ∧
      (∀ (p : Ptr) (c : Element), h.length ≤ p → h'[p]? = some c → c.listeners = []) := by
  obtain ⟨e, he⟩ := hp.head_cell
  have hlt : ∀ p ∈ element :: anc, p < h.length := by
    have : ∀ (anc : List Ptr) (x : Ptr), ParentChain h x anc → ∀ p ∈ x :: anc, p < h.length := by
      intro anc
      induction anc with
      | nil =>
        intro x hx p hpm
        obtain ⟨c, hc, _⟩ := hx
        simp only [List.mem_singleton] at hpm
        subst hpm
        exact getElem?_lt hc
      | cons a rest ih =>
        intro x hx p hpm
        obtain ⟨c, hc, _, hrest⟩ := hx
        rcases List.mem_cons.mp hpm with rfl | hpm
        · exact getElem?_lt hc
        · exact ih a hrest p hpm
    exact this anc element hp
  have h1new : (h ++ [Element.plain e.Number e.tag [] []])[h.length]? =
      some (Element.plain e.Number e.tag [] []) := List.getElem?_concat_length _ _
  have h1old : ∀ p, p < h.length → (h ++ [Element.plain e.Number e.tag [] []])[p]? = h[p]? :=
    fun p hpl => List.getElem?_append_left hpl
  cases cmd with
  | none =>
    have hrun : getDupBranch fuel h element none =
        dupLoop fuel (h ++ [Element.plain e.Number e.tag [] []]) element h.length := by
      simp only [getDupBranch, he, NewElement_eq]
    obtain ⟨h', top, hloop, hch, htop, hsh, hfr, hdesc, _, hlis⟩ :=
      dupLoop_spec h anc fuel (h ++ [Element.plain e.Number e.tag [] []]) element h.length []
        hfuel
        (ParentChain.congr anc element (fun q hq => h1old q (hlt q hq)) hp)
        (fun p hpm => ⟨hlt p hpm, h1old p (hlt p hpm)⟩) (le_refl _) ⟨_, h1new, rfl⟩
        ⟨_, e, h1new, he, ⟨rfl, rfl, rfl, rfl⟩, le_refl _⟩
    refine ⟨h', top, by rw [hrun]; exact hloop, hch, htop, hdesc, ?_, ?_,
      (sameShape_append h _).trans_shape hsh, ?_⟩
    · obtain ⟨lf, hlf, hs⟩ := hsh _ _ h1new
      simp only [Element.shape, Prod.mk.injEq] at hs
      refine ⟨lf, hlf, ?_, fun _ => by rw [hs.2.2.2.2.1]; rfl, ?_⟩
      · intro e' he'
        rw [he] at he'
        simp only [Option.some.injEq] at he'
        subst he'
        exact ⟨hs.2.1, hs.1⟩
      · intro c cc hc
        simp at hc
    · intro p hpl _
      rw [hfr p hpl, h1old p hpl]
    · intro p c hpl hc
      by_cases hpe : p = h.length
      · subst hpe
        obtain ⟨lf, hlf, hs⟩ := hsh _ _ h1new
        rw [hc] at hlf
        simp only [Option.some.injEq] at hlf
        subst hlf
        simp only [Element.shape, Prod.mk.injEq] at hs
        rw [hs.2.2.2.2.2]
        rfl
      · exact hlis p c (by simp only [Ptr] at *; simp; omega) hc
  | some c =>
    obtain ⟨⟨cc, hcc⟩, hcnot⟩ := hcmd c rfl
    have hclt : c < h.length := getElem?_lt hcc
    have hne : h.length ≠ c := by simp only [Ptr] at *; omega
    have h1c : (h ++ [Element.plain e.Number e.tag [] []])[c]? = some cc := by
      rw [h1old c hclt]; exact hcc
    obtain ⟨h2, hh2⟩ : ∃ h2 : Heap, h2 =
        ((h ++ [Element.plain e.Number e.tag [] []]).set h.length
          ((Element.plain e.Number e.tag [] []).withChild cc.Number c)).set
          c (cc.withParent h.length) :=
      ⟨_, rfl⟩
    have hrun : getDupBranch fuel h element (some c) = dupLoop fuel h2 element h.length := by
      rw [hh2]
      simp only [getDupBranch, he, NewElement_eq, AddChild_eq h1new h1c hne]
    have h2top : h2[h.length]? = some (Element.plain e.Number e.tag [(cc.Number, c)] []) := by
      rw [hh2, List.getElem?_set_ne (Ne.symm hne), List.getElem?_set_self (by simp)]
      rfl
    have h2c : h2[c]? = some (cc.withParent h.length) := by
      rw [hh2, List.getElem?_set_self (by simp only [Ptr] at *; simp; omega)]
    have h2other : ∀ q, q < h.length → q ≠ c → h2[q]? = h[q]? := by
      intro q hq hqd
      rw [hh2, List.getElem?_set_ne (Ne.symm hqd),
        List.getElem?_set_ne (by simp only [Ptr] at *; omega), List.getElem?_append_left hq]
    have hshape : SameShape h h2 := by
      intro q cq hq
      by_cases hqd : q = c
      · subst hqd
        rw [hcc] at hq
        simp only [Option.some.injEq] at hq
        subst hq
        exact ⟨_, h2c, rfl⟩
      · exact ⟨cq, by rw [h2other q (getElem?_lt hq) hqd]; exact hq, rfl⟩
    have hchainne : ∀ q ∈ element :: anc, q ≠ c := by
      intro q hq hqc
      exact hcnot (hqc ▸ hq)
    have hlen2 : h2.length = h.length + 1 := by rw [hh2]; simp
    obtain ⟨h', top, hloop, hch, htop, hsh, hfr, hdesc, _, hlis⟩ :=
      dupLoop_spec h anc fuel h2 element h.length [] hfuel
        (ParentChain.congr anc element
          (fun q hq => h2other q (hlt q hq) (hchainne q hq)) hp)
        (fun p hpm => ⟨hlt p hpm, h2other p (hlt p hpm) (hchainne p hpm)⟩) (le_refl _)
        ⟨_, h2top, rfl⟩
        ⟨_, e, h2top, he, ⟨rfl, rfl, rfl, rfl⟩, le_refl _⟩
    refine ⟨h', top, by rw [hrun]; exact hloop, hch, htop, hdesc, ?_, ?_, hshape.trans_shape hsh, ?_⟩
    · obtain ⟨lf, hlf, hs⟩ := hsh _ _ h2top
      simp only [Element.shape, Prod.mk.injEq] at hs
      refine ⟨lf, hlf, ?_, fun hc => by simp at hc, ?_⟩
      · intro e' he'
        rw [he] at he'
        simp only [Option.some.injEq] at he'
        subst he'
        exact ⟨hs.2.1, hs.1⟩
      · intro c' cc' hc' hcc'
        simp only [Option.some.injEq] at hc'
        subst hc'
        rw [hcc] at hcc'
        simp only [Option.some.injEq] at hcc'
        subst hcc'
        rw [hs.2.2.2.2.1]
        rfl
    · intro p hpl hpc
      have : p ≠ c := fun hc => hpc (by rw [hc])
      rw [hfr p hpl, h2other p hpl this]
    · intro p c' hpl hc'
      by_cases hpe : p = h.length
      · subst hpe
        obtain ⟨lf, hlf, hs⟩ := hsh _ _ h2top
        rw [hc'] at hlf
        simp only [Option.some.injEq] at hlf
        subst hlf
        simp only [Element.shape, Prod.mk.injEq] at hs
        rw [hs.2.2.2.2.2]
        rfl
      · exact hlis p c' (by simp only [Ptr] at *; omega) hc'

/-! ## C5 and C6: the duplicate branch -/

/-- C5: for every element at depth `d = anc.length` below its root and every optional command
`cmd` (an allocated element that is not itself on the path of the element), `getDupBranch`
returns without error a chain whose outermost element has no parent and in which following the
single child `d` times reaches the leaf; the leaf has the tag and Number of the original element,
and its Children are exactly `{cmd.Number -> cmd}` when `cmd` is given and empty when it is nil. -/
theorem C5_dupBranch_depth (fuel : Nat) (h : Heap) (element : Ptr) (anc : List Ptr)
    (cmd : Option Ptr) (e : Element) (he : h[element]? = some e)
    (hp : ParentChain h element anc)
    (hcmd : ∀ c, cmd = some c → (∃ cc, h[c]? = some cc) ∧ c ∉ element :: anc)
    (hfuel : anc.length < fuel) :
    ∃ h' top tc leaf lf, getDupBranch fuel h element cmd = some (h', some top, none) ∧
      h'[top]? = some tc ∧ tc.parent = none ∧
      descend h' anc.length top = some leaf ∧ h'[leaf]? = some lf ∧
      lf.tag = e.tag ∧ lf.Number = e.Number ∧
      (cmd = none → lf.Children = []) ∧
      (∀ c cc, cmd = some c → h[c]? = some cc → lf.Children = [(cc.Number, c)]) := by
  obtain ⟨h', top, hrun, _, ⟨tc, htc, hpar⟩, hdesc, ⟨lf, hlf, hid, hnone, hsome⟩, _⟩ :=
    getDupBranch_spec fuel h element anc cmd hp hcmd hfuel
  exact ⟨h', top, tc, h.length, lf, hrun, htc, hpar, hdesc, hlf, (hid e he).1, (hid e he).2,
    hnone, hsome⟩

/-- C5 at a concrete input: element 2 of `heapPath` is at depth 2 and the command is element 3. -/
theorem C5_witness :
    ∃ h' top tc leaf lf, getDupBranch 3 heapPath 2 (some 3) = some (h', some top, none) ∧
      h'[top]? = some tc ∧ tc.parent = none ∧
      descend h' 2 top = some leaf ∧ h'[leaf]? = some lf ∧
      lf.tag = 12 ∧ lf.Number = 7 ∧
      ((some 3 : Option Ptr) = none → lf.Children = []) ∧
      (∀ c cc, (some 3 : Option Ptr) = some c → heapPath[c]? = some cc →
        lf.Children = [(cc.Number, c)]) :=
  C5_dupBranch_depth 3 heapPath 2 [1, 0] (some 3) _ rfl
    ⟨_, rfl, rfl, _, rfl, rfl, _, rfl, rfl⟩
    (fun c hc => by
      simp only [Option.some.injEq] at hc
      subst hc
      exact ⟨⟨_, rfl⟩, by decide⟩)
    (by decide)

/-- C6: in the chain returned by `getDupBranch(element, cmd)`, the i-th element from the top has
the same tag and Number as the i-th element on the real path from the root to the element
(`anc.reverse ++ [element]`), has no content, is not qualified, is a newly allocated cell, and
(except for the last) has exactly one child, the next stand-in; so no sibling or content of a real
ancestor appears in the chain. -/
theorem C6_standIn_fidelity (fuel : Nat) (h : Heap) (element : Ptr) (anc : List Ptr)
    (cmd : Option Ptr) (hp : ParentChain h element anc)
    (hcmd : ∀ c, cmd = some c → (∃ cc, h[c]? = some cc) ∧ c ∉ element :: anc)
    (hfuel : anc.length < fuel) :
    ∃ h' top, getDupBranch fuel h element cmd = some (h', some top, none) ∧
      StandInChain h h' (anc.reverse ++ [element]) top := by
  obtain ⟨h', top, hrun, hchain, _⟩ := getDupBranch_spec fuel h element anc cmd hp hcmd hfuel
  exact ⟨h', top, hrun, hchain⟩

/-- C6 at a concrete input: the stand-ins for the path 0, 1, 2 of `heapPath`. -/
theorem C6_witness :
    ∃ h' top, getDupBranch 3 heapPath 2 none = some (h', some top, none) ∧
      StandInChain heapPath h' [0, 1, 2] top :=
  C6_standIn_fidelity 3 heapPath 2 [1, 0] none
    ⟨_, rfl, rfl, _, rfl, rfl, _, rfl, rfl⟩
    (fun c hc => by simp at hc)
    (by decide)

/-! ## C7: one-level encoding -/

theorem SameSansChildren.refl_sans (h : Heap) : SameSansChildren h h := fun _ => rfl

theorem SameSansChildren.trans_sans {h1 h2 h3 : Heap} (a : SameSansChildren h1 h2)
    (b : SameSansChildren h2 h3) : SameSansChildren h1 h3 := fun p => (b p).trans (a p)

theorem clearChildrenOf_sans :
    ∀ (m : List (Int × Ptr)) (h : Heap), SameSansChildren h (clearChildrenOf m h) := by
  intro m
  induction m with
  | nil => intro h; exact SameSansChildren.refl_sans h
  | cons kc rest ih =>
    intro h
    obtain ⟨k, c⟩ := kc
    unfold clearChildrenOf
    refine SameSansChildren.trans_sans ?_ (ih _)
    cases hc : h[c]? with
    | none => exact SameSansChildren.refl_sans h
    | some cc =>
      intro q
      simp only
      rw [List.getElem?_set]
      by_cases hq : c = q
      · subst hq
        simp [getElem?_lt hc, hc, Element.sansChildren]
      · simp [hq]

theorem clearChildrenOf_other :
    ∀ (m : List (Int × Ptr)) (h : Heap) (p : Ptr), (∀ kc ∈ m, kc.2 ≠ p) →
      (clearChildrenOf m h)[p]? = h[p]? := by
  intro m
  induction m with
  | nil => intro h p _; rfl
  | cons kc rest ih =>
    intro h p hne
    obtain ⟨k, c⟩ := kc
    unfold clearChildrenOf
    rw [ih _ p (fun kc hkc => hne kc (List.mem_cons_of_mem _ hkc))]
    have hcp : c ≠ p := hne (k, c) (List.mem_cons_self _ _)
    cases hc : h[c]? with
    | none => rfl
    | some cc => simp only; rw [List.getElem?_set_ne hcp]

/-- In as-child mode `encode` does not read the children map of the element. -/
theorem encode_asChild_congr {W : Type} (env : Env) (cdc : Codec W) (ord : MapOrder)
    {h h' : Heap} (a : SameSansChildren h h') (fuel : Nat) (c : Ptr) (w : W) :
    encode env cdc ord fuel h' c true w = encode env cdc ord fuel h c true w := by
  cases fuel with
  | zero => rfl
  | succ fuel =>
    have hc := a c
    unfold encode
    cases h1 : h[c]? with
    | none =>
      cases h2 : h'[c]? with
      | none => rfl
      | some e' => simp [h1, h2] at hc
    | some e =>
      cases h2 : h'[c]? with
      | none => simp [h1, h2] at hc
      | some e' =>
        simp only [h1, h2, Option.map_some', Option.some.injEq] at hc
        cases e
        cases e'
        simp only [Element.sansChildren, Element.mk.injEq] at hc
        obtain ⟨rfl, rfl, rfl, _, rfl, rfl, rfl, rfl, rfl, rfl, rfl, rfl, rfl⟩ := hc
        simp [encodeChildrenBlock, encodeAddress, encodeContents, encodeMatrix]

/-- The record written for an element does not depend on the children maps of its children. -/
theorem Encode_clearChildren {W : Type} (env : Env) (cdc : Codec W) (ord : MapOrder)
    (fuel : Nat) (h : Heap) (element : Ptr) (e : Element) (w : W) (he : h[element]? = some e)
    (hne : ∀ kc ∈ e.Children, kc.2 ≠ element) :
    Encode env cdc ord fuel (clearChildrenOf e.Children h) element w =
      Encode env cdc ord fuel h element w := by
  cases fuel with
  | zero => rfl
  | succ fuel =>
    have he' : (clearChildrenOf e.Children h)[element]? = some e := by
      rw [clearChildrenOf_other _ _ _ hne]; exact he
    have hf : (fun child => encode env cdc ord fuel (clearChildrenOf e.Children h) child true) =
        (fun child => encode env cdc ord fuel h child true) := by
      funext child w'
      exact encode_asChild_congr env cdc ord (clearChildrenOf_sans _ _) fuel child w'
    unfold Encode encode
    simp only [he, he', hf]

theorem checked_total {W : Type} (env : Env) (step : W → W × Option Error)
    (rest : W → Option (W × Option Error)) (hrest : ∀ w, ∃ o, rest w = some o) (w : W) :
    ∃ o, checked env step rest w = some o := by
  unfold checked
  cases hs : step w with
  | mk w' er =>
    cases er with
    | none => exact hrest w'
    | some err => exact ⟨_, rfl⟩

theorem encodeChildrenLoop_total {W : Type} (env : Env) (cdc : Codec W)
    (encodeChild : Ptr → W → Option (W × Option Error)) :
    ∀ (l : List (Int × Ptr)), (∀ kc ∈ l, ∀ w, ∃ o, encodeChild kc.2 w = some o) →
      ∀ w, ∃ o, encodeChildrenLoop env cdc encodeChild l w = some o := by
  intro l
  induction l with
  | nil => intro _ w; exact ⟨_, rfl⟩
  | cons kc rest ih =>
    intro hall w
    obtain ⟨k, c⟩ := kc
    unfold encodeChildrenLoop
    apply checked_total
    intro w1
    obtain ⟨o, ho⟩ := hall (k, c) (List.mem_cons_self _ _) w1
    obtain ⟨w2, er⟩ := o
    simp only at ho
    rw [ho]
    cases er with
    | some err => exact ⟨_, rfl⟩
    | none =>
      simp only
      apply checked_total
      exact ih (fun kc hkc => hall kc (List.mem_cons_of_mem _ hkc))

theorem encodeMatrix_total {W : Type} (env : Env) (cdc : Codec W) (e : Element) (w : W) :
    ∃ o, encodeMatrix env cdc e w = some o := by
  unfold encodeMatrix
  split
  · exact checked_total _ _ _ (checked_total _ _ _ (checked_total _ _ _ fun w => ⟨_, rfl⟩)) w
  · exact ⟨_, rfl⟩

theorem encodeChildrenBlock_total {W : Type} (env : Env) (cdc : Codec W) (e : Element)
    (asChild : Bool) (encodeChildren rest : W → Option (W × Option Error))
    (hch : asChild = false → ∀ w, ∃ o, encodeChildren w = some o)
    (hrest : ∀ w, ∃ o, rest w = some o) (w : W) :
    ∃ o, encodeChildrenBlock env cdc e asChild encodeChildren rest w = some o := by
  unfold encodeChildrenBlock
  split
  · rename_i hcond
    apply checked_total
    intro w1
    obtain ⟨o, ho⟩ := hch hcond.1 w1
    obtain ⟨w2, er⟩ := o
    rw [ho]
    cases er with
    | some err => exact ⟨_, rfl⟩
    | none => exact checked_total _ _ _ hrest w2
  · exact hrest w

theorem encodeContents_total {W : Type} (env : Env) (cdc : Codec W) (e : Element)
    (rest : W → Option (W × Option Error)) (hrest : ∀ w, ∃ o, rest w = some o) (w : W) :
    ∃ o, encodeContents env cdc e rest w = some o := by
  unfold encodeContents
  cases e.contents with
  | some c => exact checked_total _ _ _ (checked_total _ _ _ (checked_total _ _ _ hrest)) w
  | none => exact hrest w

theorem encodeAddress_total {W : Type} (env : Env) (cdc : Codec W) (e : Element)
    (rest : W → Option (W × Option Error)) (hrest : ∀ w, ∃ o, rest w = some o) (w : W) :
    ∃ o, encodeAddress env cdc e rest w = some o := by
  unfold encodeAddress
  split
  · exact checked_total _ _ _ (checked_total _ _ _ (checked_total _ _ _ hrest)) w
  · exact checked_total _ _ _ (checked_total _ _ _ (checked_total _ _ _ hrest)) w

theorem encode_total {W : Type} (env : Env) (cdc : Codec W) (ord : MapOrder) (fuel : Nat)
    (h : Heap) (element : Ptr) (e : Element) (asChild : Bool) (he : h[element]? = some e)
    (hch : asChild = false →
      ∀ kc ∈ e.Children, ∀ w, ∃ o, encode env cdc ord fuel h kc.2 true w = some o) (w : W) :
    ∃ o, encode env cdc ord (fuel + 1) h element asChild w = some o := by
  unfold encode
  simp only [he]
  apply checked_total
  apply encodeAddress_total
  apply encodeContents_total
  apply encodeChildrenBlock_total
  · intro has
    unfold encodeChildrenWith
    apply checked_total
    apply encodeChildrenLoop_total
    intro kc hkc
    exact hch has kc ((ord.children_perm e.Children).mem_iff.mp hkc)
  · exact encodeMatrix_total env cdc e

/-- With two levels of fuel `Encode` returns, whatever the codec does. -/
theorem Encode_total {W : Type} (env : Env) (cdc : Codec W) (ord : MapOrder) (fuel : Nat)
    (h : Heap) (element : Ptr) (e : Element) (he : h[element]? = some e)
    (hch : ∀ kc ∈ e.Children, ∃ c, h[kc.2]? = some c) (w : W) :
    ∃ o, Encode env cdc ord (fuel + 2) h element w = some o := by
  unfold Encode
  refine encode_total env cdc ord (fuel + 1) h element e false he ?_ w
  intro _ kc hkc w'
  obtain ⟨c, hc⟩ := hch kc hkc
  exact encode_total env cdc ord fuel h kc.2 c true hc (fun hf => by simp at hf) w'

/-! ## Maps -/

theorem mapLookup_mem {k : Int} {c : Ptr} :
    ∀ {m : List (Int × Ptr)}, mapLookup k m = some c → (k, c) ∈ m := by
  intro m
  induction m with
  | nil => intro hl; simp [mapLookup] at hl
  | cons kv rest ih =>
    intro hl
    obtain ⟨k', v⟩ := kv
    unfold mapLookup at hl
    by_cases hk : k' = k
    · simp only [hk, if_true, Option.some.injEq] at hl
      subst hl
      subst hk
      exact List.mem_cons_self _ _
    · simp only [hk, if_false] at hl
      exact List.mem_cons_of_mem _ (ih hl)

theorem mapLookup_of_mem {k : Int} {c : Ptr} :
    ∀ {m : List (Int × Ptr)}, (mapKeys m).Nodup → (k, c) ∈ m → mapLookup k m = some c := by
  intro m
  induction m with
  | nil => intro _ hm; simp at hm
  | cons kv rest ih =>
    intro hnd hm
    obtain ⟨k', v⟩ := kv
    simp only [mapKeys, List.map_cons, List.nodup_cons] at hnd
    unfold mapLookup
    rcases List.mem_cons.mp hm with heq | hm'
    · simp only [Prod.mk.injEq] at heq
      simp [heq.1, heq.2]
    · have hk : k' ≠ k := by
        intro hk
        apply hnd.1
        rw [hk]
        exact List.mem_map.mpr ⟨(k, c), hm', rfl⟩
      simp only [hk, if_false]
      exact ih hnd.2 hm'

theorem mapLookup_eq_none {k : Int} :
    ∀ {m : List (Int × Ptr)}, mapLookup k m = none ↔ k ∉ mapKeys m := by
  intro m
  induction m with
  | nil => simp [mapLookup, mapKeys]
  | cons kv rest ih =>
    obtain ⟨k', v⟩ := kv
    unfold mapLookup
    by_cases hk : k' = k
    · simp [hk, mapKeys]
    · have hk' : ¬ k = k' := fun hc => hk hc.symm
      simp only [hk, if_false, ih, mapKeys, List.map_cons, List.mem_cons, hk', false_or]

theorem mapLookup_mapInsert (k k0 : Int) (v : Ptr) :
    ∀ (m : List (Int × Ptr)),
      mapLookup k0 (mapInsert k v m) = if k0 = k then some v else mapLookup k0 m := by
  intro m
  induction m with
  | nil =>
    by_cases hk : k0 = k
    · simp [mapInsert, mapLookup, hk]
    · have hk' : ¬ k = k0 := fun hc => hk hc.symm
      simp [mapInsert, mapLookup, hk, hk']
  | cons kv rest ih =>
    obtain ⟨k', v'⟩ := kv
    unfold mapInsert
    by_cases h1 : k' = k
    · subst h1
      by_cases hk : k0 = k'
      · simp [mapLookup, hk]
      · have hk' : ¬ k' = k0 := fun hc => hk hc.symm
        simp [mapLookup, hk, hk']
    · simp only [h1, if_false]
      unfold mapLookup
      by_cases h2 : k' = k0
      · have hk : ¬ k0 = k := fun hc => h1 (h2.trans hc)
        simp [h2, hk]
      · simp only [h2, if_false, ih]

/-! ## Trees in the heap -/

theorem TreeAt.pos {n : Nat} {h : Heap} {p : Ptr} (t : TreeAt n h p) : ∃ m, n = m + 1 := by
  cases n with
  | zero => exact absurd t (by simp [TreeAt])
  | succ m => exact ⟨m, rfl⟩

theorem footprint_self_mem (n : Nat) (h : Heap) (p : Ptr) : p ∈ footprint (n + 1) h p := by
  simp [footprint]

theorem footprint_child {n : Nat} {h : Heap} {p : Ptr} {e : Element} (he : h[p]? = some e)
    {kc : Int × Ptr} (hkc : kc ∈ e.Children) {q : Ptr} (hq : q ∈ footprint n h kc.2) :
    q ∈ (footprint (n + 1) h p).tail := by
  simp only [footprint, he, List.tail_cons]
  exact List.mem_flatMap.mpr ⟨kc, hkc, hq⟩

theorem footprint_congr {h h' : Heap} :
    ∀ (n : Nat) (p : Ptr), (∀ q ∈ footprint n h p, h'[q]? = h[q]?) →
      footprint n h' p = footprint n h p := by
  intro n
  induction n with
  | zero => intro p _; rfl
  | succ n ih =>
    intro p hag
    have hp : h'[p]? = h[p]? := hag p (footprint_self_mem n h p)
    unfold footprint
    rw [hp]
    cases he : h[p]? with
    | none => rfl
    | some e =>
      simp only
      congr 1
      apply List.flatMap_congr
      intro kc hkc
      apply ih
      intro q hq
      exact hag q (List.mem_of_mem_tail (footprint_child he hkc hq))

theorem TreeAt_congr {h h' : Heap} :
    ∀ (n : Nat) (p : Ptr), (∀ q ∈ footprint n h p, h'[q]? = h[q]?) →
      TreeAt n h p → TreeAt n h' p := by
  intro n
  induction n with
  | zero => intro p _ t; exact t
  | succ n ih =>
    intro p hag t
    obtain ⟨e, he, hnd, hch⟩ := t
    refine ⟨e, by rw [hag p (footprint_self_mem n h p)]; exact he, hnd, ?_⟩
    intro kc hkc
    obtain ⟨⟨c, hc, hnum⟩, tc⟩ := hch kc hkc
    have hsub : ∀ q ∈ footprint n h kc.2, h'[q]? = h[q]? := fun q hq =>
      hag q (List.mem_of_mem_tail (footprint_child he hkc hq))
    obtain ⟨m, rfl⟩ := tc.pos
    exact ⟨⟨c, by rw [hsub kc.2 (footprint_self_mem m h kc.2)]; exact hc, hnum⟩, ih kc.2 hsub tc⟩

theorem Mergeable_congr {h h' : Heap} :
    ∀ (n : Nat) (r i : Ptr), (∀ q ∈ footprint n h r ++ footprint n h i, h'[q]? = h[q]?) →
      Mergeable n h r i → Mergeable n h' r i := by
  intro n
  induction n with
  | zero => intro r i _ t; exact t
  | succ n ih =>
    intro r i hag t
    obtain ⟨e, m, he, hm, hnum, htag, hch⟩ := t
    have hr : h'[r]? = h[r]? :=
      hag r (List.mem_append_left _ (footprint_self_mem n h r))
    have hi : h'[i]? = h[i]? :=
      hag i (List.mem_append_right _ (footprint_self_mem n h i))
    refine ⟨e, m, by rw [hr]; exact he, by rw [hi]; exact hm, hnum, htag, ?_⟩
    intro kc hkc c hl
    apply ih c kc.2 ?_ (hch kc hkc c hl)
    intro q hq
    rcases List.mem_append.mp hq with hq | hq
    · exact hag q (List.mem_append_left _
        (List.mem_of_mem_tail (footprint_child he (mapLookup_mem hl) hq)))
    · exact hag q (List.mem_append_right _
        (List.mem_of_mem_tail (footprint_child hm hkc hq)))

theorem DisjointTrees_congr {h h' : Heap} {n : Nat} {c nc : Ptr}
    (hag : ∀ q ∈ footprint n h c ++ footprint n h nc, h'[q]? = h[q]?)
    (t : DisjointTrees n h c nc) :
    DisjointTrees n h' c nc ∧ footprint n h' c = footprint n h c ∧
      footprint n h' nc = footprint n h nc := by
  have h1 : ∀ q ∈ footprint n h c, h'[q]? = h[q]? := fun q hq =>
    hag q (List.mem_append_left _ hq)
  have h2 : ∀ q ∈ footprint n h nc, h'[q]? = h[q]? := fun q hq =>
    hag q (List.mem_append_right _ hq)
  have f1 := footprint_congr n c h1
  have f2 := footprint_congr n nc h2
  exact ⟨⟨TreeAt_congr n c h1 t.1, TreeAt_congr n nc h2 t.2.1, by rw [f1, f2]; exact t.2.2⟩,
    f1, f2⟩

theorem mapLookup_cons_ne {k k0 : Int} {v : Ptr} {m : List (Int × Ptr)} (hne : k0 ≠ k) :
    mapLookup k0 ((k, v) :: m) = mapLookup k0 m := by
  have : ¬ k = k0 := fun hc => hne hc.symm
  simp [mapLookup, this]

/-- The loop of `Update` on a resident whose children and the incoming children are disjoint
trees. -/
theorem updateLoop_tree {n : Nat} {recur : Heap → Ptr → Ptr → Option UpdateResult}
    (hrec : RecSpec n recur) {h : Heap} {r : Ptr} {M E : List (Int × Ptr)}
    (F : LoopFacts n h r M E) :
    ∀ (rest : List (Int × Ptr)), (∀ kc ∈ rest, kc ∈ E) → (mapKeys rest).Nodup →
      ∀ (hj : Heap) (tr : List Event) (ej : Element), hj[r]? = some ej →
        (∀ kc ∈ rest, mapLookup kc.1 ej.Children = mapLookup kc.1 M) →
        (∀ kc ∈ rest, ∀ q ∈ region n h M kc, hj[q]? = h[q]?) →
        ∃ res ef, updateLoop recur r rest hj tr = some res ∧ res.heap[r]? = some ef ∧
          ef.sansChildren = ej.sansChildren ∧
          (∀ q, q ≠ r → (∀ kc ∈ rest, q ∉ region n h M kc) → res.heap[q]? = hj[q]?) ∧
          (∃ extra, res.trace = tr ++ extra ∧ ∀ ev ∈ extra, 0 < ev.depth ∧
            ∃ kc ∈ rest, ∃ c, mapLookup kc.1 M = some c ∧ ev.element ∈ footprint n h c) ∧
          ((∀ kc ∈ rest, ∀ c, mapLookup kc.1 M = some c → Mergeable n h c kc.2) →
            res.err = none) ∧
          (res.err = none →
            ∀ kc ∈ rest, ∀ c, mapLookup kc.1 M = some c → Mergeable n h c kc.2) ∧
          (res.err = none → ∀ k0, mapLookup k0 ef.Children =
            match mapLookup k0 ej.Children with
            | some c => some c
            | none => mapLookup k0 rest) ∧
          (∀ k0, k0 ∉ mapKeys rest → mapLookup k0 ef.Children = mapLookup k0 ej.Children) := by
  intro rest
  induction rest with
  | nil =>
    intro _ _ hj tr ej hr _ _
    refine ⟨⟨hj, none, tr⟩, ej, rfl, hr, rfl, fun _ _ _ => rfl, ⟨[], by simp, by simp⟩,
      fun _ => rfl, fun _ kc hkc => by simp at hkc, ?_, fun _ _ => rfl⟩
    intro _ k0
    cases mapLookup k0 ej.Children <;> rfl
  | cons kc rest' ih =>
    intro hsub hnd hj tr ej hr hlook hreg
    obtain ⟨k, nc⟩ := kc
    have hE : (k, nc) ∈ E := hsub _ (List.mem_cons_self _ _)
    have hsub' : ∀ kc ∈ rest', kc ∈ E := fun kc hkc => hsub kc (List.mem_cons_of_mem _ hkc)
    simp only [mapKeys, List.map_cons, List.nodup_cons] at hnd
    have hknot : ∀ kc ∈ rest', kc.1 ≠ k := by
      intro kc hkc hk
      exact hnd.1 (hk ▸ List.mem_map.mpr ⟨kc, hkc, rfl⟩)
    obtain ⟨tnc, cn, hcn, hnum⟩ := F.incoming _ hE
    obtain ⟨m, rfl⟩ := tnc.pos
    have hncreg : nc ∈ region (m + 1) h M (k, nc) :=
      List.mem_append_left _ (footprint_self_mem m h nc)
    have hjnc : hj[nc]? = some cn := by
      rw [hreg _ (List.mem_cons_self _ _) nc hncreg]; exact hcn
    have hrnc : r ≠ nc := fun hc => F.apart _ hE (hc ▸ hncreg)
    have hdis : ∀ kc ∈ rest', ∀ q ∈ region (m + 1) h M kc, q ∉ region (m + 1) h M (k, nc) := by
      intro kc hkc q hq hq'
      exact F.disjoint _ (hsub' kc hkc) _ hE (hknot kc hkc) hq hq'
    have hlook' : ∀ kc ∈ rest', mapLookup kc.1 ej.Children = mapLookup kc.1 M :=
      fun kc hkc => hlook kc (List.mem_cons_of_mem _ hkc)
    have hlk : mapLookup k ej.Children = mapLookup k M := hlook _ (List.mem_cons_self _ _)
    cases hl : mapLookup k ej.Children with
    | none =>
      -- the incoming child is adopted
      have hadd := AddChild_eq hr hjnc hrnc
      rw [hnum] at hadd
      obtain ⟨hj', hhj'⟩ : ∃ hj' : Heap,
          hj' = (hj.set r (ej.withChild k nc)).set nc (cn.withParent r) := ⟨_, rfl⟩
      rw [← hhj'] at hadd
      have hrlt : r < hj.length := getElem?_lt hr
      have hj'r : hj'[r]? = some (ej.withChild k nc) := by
        rw [hhj', List.getElem?_set_ne (Ne.symm hrnc), List.getElem?_set_self hrlt]
      have hj'o : ∀ q, q ≠ r → q ≠ nc → hj'[q]? = hj[q]? := by
        intro q h1 h2
        rw [hhj', List.getElem?_set_ne (Ne.symm h2), List.getElem?_set_ne (Ne.symm h1)]
      have hstep : updateLoop recur r ((k, nc) :: rest') hj tr =
          updateLoop recur r rest' hj' tr := by
        simp only [updateLoop, hr, hl, hadd]
      obtain ⟨res, ef, hrun, hef, hsans, hframe, htrace, herr, hconv, hchar, hother⟩ :=
        ih hsub' hnd.2 hj' tr (ej.withChild k nc) hj'r
          (fun kc hkc => by
            rw [← hlook' kc hkc]
            simp only [Element.withChild, mapLookup_mapInsert, hknot kc hkc, if_false])
          (fun kc hkc q hq => by
            have hqr : q ≠ r := fun hc => F.apart _ (hsub' kc hkc) (hc ▸ hq)
            have hqnc : q ≠ nc := fun hc => hdis kc hkc q hq (hc ▸ hncreg)
            rw [hj'o q hqr hqnc]
            exact hreg kc (List.mem_cons_of_mem _ hkc) q hq)
      refine ⟨res, ef, by rw [hstep]; exact hrun, hef, hsans, ?_, ?_, ?_, ?_, ?_, ?_⟩
      · intro q hqr hq
        have hqnc : q ≠ nc := fun hc => hq _ (List.mem_cons_self _ _) (hc ▸ hncreg)
        rw [hframe q hqr (fun kc hkc => hq kc (List.mem_cons_of_mem _ hkc)), hj'o q hqr hqnc]
      · obtain ⟨extra, hx, hev⟩ := htrace
        refine ⟨extra, hx, ?_⟩
        intro ev hevm
        obtain ⟨hd, kc, hkc, c, hc, hel⟩ := hev ev hevm
        exact ⟨hd, kc, List.mem_cons_of_mem _ hkc, c, hc, hel⟩
      · intro hm
        exact herr (fun kc hkc => hm kc (List.mem_cons_of_mem _ hkc))
      · intro hnone kc hkc c' hc'
        rcases List.mem_cons.mp hkc with rfl | hkc
        · simp only at hc'
          rw [← hlk, hl] at hc'
          simp at hc'
        · exact hconv hnone kc hkc c' hc'
      · intro hnone k0
        rw [hchar hnone k0]
        simp only [Element.withChild, mapLookup_mapInsert]
        by_cases hk0 : k0 = k
        · subst hk0
          simp [hl, mapLookup]
        · simp only [hk0, if_false, mapLookup_cons_ne hk0]
      · intro k0 hk0
        simp only [mapKeys, List.map_cons, List.mem_cons, not_or] at hk0
        rw [hother k0 hk0.2]
        simp only [Element.withChild, mapLookup_mapInsert, hk0.1, if_false]
    | some c =>
      -- the incoming child is merged into the resident child `c`
      have hlM : mapLookup k M = some c := by rw [← hlk]; exact hl
      have hregeq : region (m + 1) h M (k, nc) =
          footprint (m + 1) h nc ++ footprint (m + 1) h c := by
        simp only [region, hlM]
      have hag : ∀ q ∈ footprint (m + 1) h c ++ footprint (m + 1) h nc, hj[q]? = h[q]? := by
        intro q hq
        apply hreg _ (List.mem_cons_self _ _) q
        rw [hregeq]
        rcases List.mem_append.mp hq with hq | hq
        · exact List.mem_append_right _ hq
        · exact List.mem_append_left _ hq
      obtain ⟨tj, fc, fnc⟩ := DisjointTrees_congr hag (F.paired _ hE c hlM)
      obtain ⟨res1, hrec1, hfr1, hev1, herr1⟩ := hrec hj c nc tj
      rw [fc, fnc] at hfr1
      rw [fc] at hev1
      have hout : ∀ q, q ∉ region (m + 1) h M (k, nc) → res1.heap[q]? = hj[q]? := by
        intro q hq
        apply hfr1 q
        intro hq'
        apply hq
        rw [hregeq]
        rcases List.mem_append.mp hq' with hq' | hq'
        · exact List.mem_append_right _ hq'
        · exact List.mem_append_left _ hq'
      have hr1 : res1.heap[r]? = some ej := by
        rw [hout r (F.apart _ hE)]; exact hr
      have hnested : ∀ ev ∈ res1.trace.map Event.nested, 0 < ev.depth ∧
          ∃ kc ∈ (k, nc) :: rest', ∃ c, mapLookup kc.1 M = some c ∧
            ev.element ∈ footprint (m + 1) h c := by
        intro ev hev
        obtain ⟨ev0, hev0, rfl⟩ := List.mem_map.mp hev
        exact ⟨by simp [Event.nested], (k, nc), List.mem_cons_self _ _, c, hlM,
          hev1 ev0 hev0⟩
      cases herr1v : res1.err with
      | some er =>
        have hstep : updateLoop recur r ((k, nc) :: rest') hj tr =
            some ⟨res1.heap, some er, tr ++ res1.trace.map Event.nested⟩ := by
          simp only [updateLoop, hr, hl, hrec1, herr1v]
        refine ⟨_, ej, hstep, hr1, rfl, ?_, ⟨_, rfl, hnested⟩, ?_, ?_, ?_, fun _ _ => rfl⟩
        · intro q _ hq
          exact hout q (hq _ (List.mem_cons_self _ _))
        · intro hm
          have := herr1.mpr
            (Mergeable_congr (m + 1) c nc hag (hm _ (List.mem_cons_self _ _) c hlM))
          rw [herr1v] at this
          simp at this
        · intro hc
          simp at hc
        · intro hc
          simp at hc
      | none =>
        have hstep : updateLoop recur r ((k, nc) :: rest') hj tr =
            updateLoop recur r rest' res1.heap (tr ++ res1.trace.map Event.nested) := by
          simp only [updateLoop, hr, hl, hrec1, herr1v]
        obtain ⟨res, ef, hrun, hef, hsans, hframe, htrace, herr, hconv, hchar, hother⟩ :=
          ih hsub' hnd.2 res1.heap (tr ++ res1.trace.map Event.nested) ej hr1 hlook'
            (fun kc hkc q hq => by
              rw [hout q (hdis kc hkc q hq)]
              exact hreg kc (List.mem_cons_of_mem _ hkc) q hq)
        refine ⟨res, ef, by rw [hstep]; exact hrun, hef, hsans, ?_, ?_, ?_, ?_, ?_, ?_⟩
        · intro q hqr hq
          rw [hframe q hqr (fun kc hkc => hq kc (List.mem_cons_of_mem _ hkc)),
            hout q (hq _ (List.mem_cons_self _ _))]
        · obtain ⟨extra, hx, hev⟩ := htrace
          refine ⟨res1.trace.map Event.nested ++ extra, by rw [hx, List.append_assoc], ?_⟩
          intro ev hevm
          rcases List.mem_append.mp hevm with hevm | hevm
          · exact hnested ev hevm
          · obtain ⟨hd, kc, hkc, c', hc', hel⟩ := hev ev hevm
            exact ⟨hd, kc, List.mem_cons_of_mem _ hkc, c', hc', hel⟩
        · intro hm
          exact herr (fun kc hkc => hm kc (List.mem_cons_of_mem _ hkc))
        · intro hnone kc hkc c' hc'
          rcases List.mem_cons.mp hkc with rfl | hkc
          · simp only at hc'
            rw [hlM] at hc'
            simp only [Option.some.injEq] at hc'
            subst hc'
            refine Mergeable_congr (m + 1) c nc ?_ (herr1.mp herr1v)
            intro q hq
            rw [fc, fnc] at hq
            exact (hag q hq).symm
          · exact hconv hnone kc hkc c' hc'
        · intro hnone k0
          rw [hchar hnone k0]
          cases hk0 : mapLookup k0 ej.Children with
          | some c0 => rfl
          | none =>
            have hne : k0 ≠ k := by
              intro hc
              rw [hc, hl] at hk0
              simp at hk0
            simp only [mapLookup_cons_ne hne]
        · intro k0 hk0
          simp only [mapKeys, List.map_cons, List.mem_cons, not_or] at hk0
          exact hother k0 hk0.2

theorem flatMap_disjoint {α β : Type} {l : List α} {f : α → List β}
    (hnd : (l.flatMap f).Nodup) {x y : α} (hx : x ∈ l) (hy : y ∈ l) (hne : x ≠ y) :
    List.Disjoint (f x) (f y) := by
  have hp := (List.nodup_flatMap.mp hnd).2
  have hsym : Symmetric (List.Disjoint on f) := fun a b hab => List.Disjoint.symm hab
  exact hp.forall hsym hx hy hne

theorem mapLookup_perm {m m' : List (Int × Ptr)} (hnd : (mapKeys m).Nodup) (hp : m'.Perm m)
    (k : Int) : mapLookup k m' = mapLookup k m := by
  have hnd' : (mapKeys m').Nodup := (hp.map Prod.fst).nodup_iff.mpr hnd
  cases hl : mapLookup k m' with
  | none =>
    have h1 : k ∉ mapKeys m := by
      intro hk
      exact (mapLookup_eq_none.mp hl) (((hp.map Prod.fst).mem_iff).mpr hk)
    exact (mapLookup_eq_none.mpr h1).symm
  | some c =>
    exact (mapLookup_of_mem hnd (hp.mem_iff.mp (mapLookup_mem hl))).symm

/-- The facts the loop needs follow from the disjointness of the two trees. -/
theorem loopFacts_of_disjointTrees {n : Nat} {h : Heap} {r i : Ptr} {e m : Element}
    (t : DisjointTrees (n + 1) h r i) (he : h[r]? = some e) (hm : h[i]? = some m) :
    LoopFacts n h r e.Children m.Children ∧ (mapKeys m.Children).Nodup ∧
      (∀ kc ∈ m.Children, ∀ q ∈ region n h e.Children kc,
        q ∈ (footprint (n + 1) h r).tail ++ (footprint (n + 1) h i).tail) ∧
      r ∉ (footprint (n + 1) h r).tail ++ (footprint (n + 1) h i).tail := by
  obtain ⟨⟨e', he', hndr, hchr⟩, ⟨m', hm', hndi, hchi⟩, hnd⟩ := t
  rw [he] at he'
  rw [hm] at hm'
  simp only [Option.some.injEq] at he' hm'
  subst he' hm'
  simp only [footprint, he, hm] at hnd
  simp only [footprint, he, hm, List.tail_cons]
  obtain ⟨A, hA⟩ : ∃ A, A = e.Children.flatMap fun kc => footprint n h kc.2 := ⟨_, rfl⟩
  obtain ⟨B, hB⟩ : ∃ B, B = m.Children.flatMap fun kc => footprint n h kc.2 := ⟨_, rfl⟩
  rw [← hA, ← hB] at hnd ⊢
  have hnd1 : (r :: A).Nodup := hnd.of_append_left
  have hnd2 : (i :: B).Nodup := hnd.of_append_right
  have hdisj : List.Disjoint (r :: A) (i :: B) := (List.nodup_append.mp hnd).2.2
  have hrA : r ∉ A := (List.nodup_cons.mp hnd1).1
  have hndA : A.Nodup := (List.nodup_cons.mp hnd1).2
  have hndB : B.Nodup := (List.nodup_cons.mp hnd2).2
  have hrB : r ∉ B := fun hc => hdisj (List.mem_cons_self _ _) (List.mem_cons_of_mem _ hc)
  have hAB : ∀ q, q ∈ A → q ∉ B := fun q hq hc =>
    hdisj (List.mem_cons_of_mem _ hq) (List.mem_cons_of_mem _ hc)
  have hinA : ∀ kc ∈ e.Children, ∀ q ∈ footprint n h kc.2, q ∈ A := by
    intro kc hkc q hq
    rw [hA]
    exact List.mem_flatMap.mpr ⟨kc, hkc, hq⟩
  have hinB : ∀ kc ∈ m.Children, ∀ q ∈ footprint n h kc.2, q ∈ B := by
    intro kc hkc q hq
    rw [hB]
    exact List.mem_flatMap.mpr ⟨kc, hkc, hq⟩
  have hregion : ∀ kc ∈ m.Children, ∀ q ∈ region n h e.Children kc, q ∈ A ∨ q ∈ B := by
    intro kc hkc q hq
    unfold region at hq
    rcases List.mem_append.mp hq with hq | hq
    · exact Or.inr (hinB kc hkc q hq)
    · cases hl : mapLookup kc.1 e.Children with
      | none => simp [hl] at hq
      | some c =>
        simp only [hl] at hq
        exact Or.inl (hinA (kc.1, c) (mapLookup_mem hl) q hq)
  refine ⟨⟨?_, ?_, ?_, ?_⟩, hndi, ?_, ?_⟩
  · intro kc hkc
    exact ⟨(hchi kc hkc).2, (hchi kc hkc).1⟩
  · intro kc hkc c hl
    have hcm := mapLookup_mem hl
    refine ⟨(hchr _ hcm).2, (hchi kc hkc).2, ?_⟩
    rw [List.nodup_append]
    refine ⟨?_, ?_, ?_⟩
    · rw [hA] at hndA
      exact (List.nodup_flatMap.mp hndA).1 (kc.1, c) hcm
    · rw [hB] at hndB
      exact (List.nodup_flatMap.mp hndB).1 kc hkc
    · intro q hq hq'
      exact hAB q (hinA (kc.1, c) hcm q hq) (hinB kc hkc q hq')
  · intro kc hkc hr
    rcases hregion kc hkc r hr with hc | hc
    · exact hrA hc
    · exact hrB hc
  · intro kc hkc kc' hkc' hne q hq hq'
    have hkne : kc ≠ kc' := fun hc => hne (by rw [hc])
    unfold region at hq hq'
    rcases List.mem_append.mp hq with hq | hq
    · rcases List.mem_append.mp hq' with hq' | hq'
      · rw [hB] at hndB
        exact flatMap_disjoint hndB hkc hkc' hkne hq hq'
      · cases hl' : mapLookup kc'.1 e.Children with
        | none => simp [hl'] at hq'
        | some c' =>
          simp only [hl'] at hq'
          exact hAB q (hinA (kc'.1, c') (mapLookup_mem hl') q hq') (hinB kc hkc q hq)
    · cases hl : mapLookup kc.1 e.Children with
      | none => simp [hl] at hq
      | some c =>
        simp only [hl] at hq
        rcases List.mem_append.mp hq' with hq' | hq'
        · exact hAB q (hinA (kc.1, c) (mapLookup_mem hl) q hq) (hinB kc' hkc' q hq')
        · cases hl' : mapLookup kc'.1 e.Children with
          | none => simp [hl'] at hq'
          | some c' =>
            simp only [hl'] at hq'
            have hcne : ((kc.1, c) : Int × Ptr) ≠ (kc'.1, c') := by
              intro hc
              simp only [Prod.mk.injEq] at hc
              exact hne hc.1
            rw [hA] at hndA
            exact flatMap_disjoint hndA (mapLookup_mem hl) (mapLookup_mem hl') hcne hq hq'
  · intro kc hkc q hq
    rcases hregion kc hkc q hq with hc | hc
    · exact List.mem_append_left _ hc
    · exact List.mem_append_right _ hc
  · intro hc
    rcases List.mem_append.mp hc with hc | hc
    · exact hrA hc
    · exact hrB hc

theorem LoopFacts.of_perm {n : Nat} {h : Heap} {r : Ptr} {M E E' : List (Int × Ptr)}
    (F : LoopFacts n h r M E) (hp : E'.Perm E) : LoopFacts n h r M E' :=
  ⟨fun kc hkc => F.incoming kc (hp.mem_iff.mp hkc),
   fun kc hkc => F.paired kc (hp.mem_iff.mp hkc),
   fun kc hkc => F.apart kc (hp.mem_iff.mp hkc),
   fun kc hkc kc' hkc' => F.disjoint kc (hp.mem_iff.mp hkc) kc' (hp.mem_iff.mp hkc')⟩

theorem assignContent_self {h : Heap} {r : Ptr} {e : Element} (he : h[r]? = some e)
    (c : Option EmberContents) : (assignContent h r e c)[r]? = some (e.withContent c) := by
  cases c with
  | none => exact he
  | some x =>
    simp only [assignContent, Element.withContent]
    exact List.getElem?_set_self (getElem?_lt he)

theorem assignContent_other (h : Heap) (r : Ptr) (e : Element) (c : Option EmberContents)
    {q : Ptr} (hq : q ≠ r) : (assignContent h r e c)[q]? = h[q]? := by
  cases c with
  | none => rfl
  | some x =>
    simp only [assignContent]
    exact List.getElem?_set_ne (Ne.symm hq)

theorem Element.withContent_children (e : Element) (c : Option EmberContents) :
    (e.withContent c).Children = e.Children := by
  cases c <;> rfl

/-- A call of `Update` that passes the identity check, on disjoint trees: it returns, and this
is what it leaves behind. -/
theorem Update_onTrees (ord : MapOrder) {n f : Nat} (hrec : RecSpec n (Update ord f))
    {h : Heap} {r i : Ptr} {e m : Element} (t : DisjointTrees (n + 1) h r i)
    (he : h[r]? = some e) (hm : h[i]? = some m) (hnum : e.Number = m.Number)
    (htag : e.tag = m.tag) :
    ∃ res ef, Update ord (f + 1) h r i = some res ∧ res.heap[r]? = some ef ∧
      ef.sansChildren = (e.withContent m.contents).sansChildren ∧
      (∀ q, q ≠ r → (∀ kc ∈ m.Children, q ∉ region n h e.Children kc) →
        res.heap[q]? = h[q]?) ∧
      (∃ inner, res.trace = inner ++
          (ord.listeners e.listeners).map (fun l => (⟨0, l, r, res.err⟩ : Event)) ∧
        ∀ ev ∈ inner, 0 < ev.depth ∧
          ∃ kc ∈ m.Children, ∃ c, mapLookup kc.1 e.Children = some c ∧
            ev.element ∈ footprint n h c) ∧
      ((∀ kc ∈ m.Children, ∀ c, mapLookup kc.1 e.Children = some c →
          Mergeable n h c kc.2) → res.err = none) ∧
      (res.err = none → ∀ kc ∈ m.Children, ∀ c, mapLookup kc.1 e.Children = some c →
          Mergeable n h c kc.2) ∧
      (res.err = none → ∀ k0, mapLookup k0 ef.Children =
        match mapLookup k0 e.Children with
        | some c => some c
        | none => mapLookup k0 m.Children) ∧
      (∀ k0, k0 ∉ mapKeys m.Children → mapLookup k0 ef.Children = mapLookup k0 e.Children) := by
  obtain ⟨F, hndm, _, _⟩ := loopFacts_of_disjointTrees t he hm
  have hperm := ord.children_perm m.Children
  have hndE : (mapKeys (ord.children m.Children)).Nodup :=
    (hperm.map Prod.fst).nodup_iff.mpr hndm
  have h1r := assignContent_self he m.contents
  obtain ⟨res, ef, hrun, hef, hsans, hframe, ⟨extra, hx, hev⟩, herr, hconv, hchar, hother⟩ :=
    updateLoop_tree hrec (F.of_perm hperm) (ord.children m.Children) (fun _ hkc => hkc) hndE
      (assignContent h r e m.contents) [] (e.withContent m.contents) h1r
      (fun kc _ => by rw [Element.withContent_children])
      (fun kc hkc q hq => by
        have hqr : q ≠ r := fun hc => F.apart kc (hperm.mem_iff.mp hkc) (hc ▸ hq)
        exact assignContent_other h r e m.contents hqr)
  have hfix : SameFixed h res.heap :=
    (assignContent_sameFixed he _).trans_fixed
      (updateLoop_sameFixed (Update_sameFixed ord f) r _ _ _ res hrun)
  obtain ⟨ef', hef', hfe⟩ := hfix.cell he
  rw [hef] at hef'
  simp only [Option.some.injEq] at hef'
  subst hef'
  have hls : ef.listeners = e.listeners := by
    simp only [Element.fixed, Prod.mk.injEq] at hfe
    exact hfe.2.2.1
  have hnot : ¬ (e.Number ≠ m.Number ∨ e.tag ≠ m.tag) := by
    intro hc
    rcases hc with hc | hc
    · exact hc hnum
    · exact hc htag
  have hup : Update ord (f + 1) h r i = some ⟨res.heap, res.err,
      res.trace ++ (ord.listeners e.listeners).map (fun l => (⟨0, l, r, res.err⟩ : Event))⟩ := by
    simp only [Update, he, hm, if_neg hnot, hrun, updateListeners, hef, hls]
  refine ⟨_, ef, hup, hef, hsans, ?_, ⟨extra, ?_, ?_⟩, ?_, ?_, ?_, ?_⟩
  · intro q hqr hq
    rw [hframe q hqr (fun kc hkc => hq kc (hperm.mem_iff.mp hkc))]
    exact assignContent_other h r e m.contents hqr
  · simp only [hx, List.nil_append]
  · intro ev hevm
    obtain ⟨hd, kc, hkc, c, hc, hel⟩ := hev ev hevm
    exact ⟨hd, kc, hperm.mem_iff.mp hkc, c, hc, hel⟩
  · intro hmg
    exact herr (fun kc hkc => hmg kc (hperm.mem_iff.mp hkc))
  · intro hnone kc hkc c hc
    exact hconv hnone kc (hperm.mem_iff.mpr hkc) c hc
  · intro hnone k0
    rw [hchar hnone k0, Element.withContent_children, mapLookup_perm hndm hperm]
  · intro k0 hk0
    rw [hother k0 (fun hc => hk0 ((hperm.map Prod.fst).mem_iff.mp hc)),
      Element.withContent_children]

/-- The behaviour of `Update` on disjoint trees of at most `n` levels, with fuel `n` or more. -/
theorem Update_tree (ord : MapOrder) : ∀ (n f : Nat), n ≤ f → RecSpec n (Update ord f) := by
  intro n
  induction n with
  | zero =>
    intro f _ h c nc t
    exact absurd t.1 (by simp [TreeAt])
  | succ n ih =>
    intro f hf h r i t
    obtain ⟨f', rfl⟩ : ∃ f', f = f' + 1 := ⟨f - 1, by omega⟩
    have hrec := ih f' (by omega)
    obtain ⟨e, he, _, _⟩ := t.1
    obtain ⟨m, hm, _, _⟩ := t.2.1
    by_cases hmis : e.Number ≠ m.Number ∨ e.tag ≠ m.tag
    · refine ⟨⟨h, some (Error.identityMismatch e.Number m.Number e.tag m.tag), []⟩, ?_,
        fun _ _ => rfl, by simp, ?_⟩
      · simp only [Update, he, hm, if_pos hmis]
      · refine ⟨fun hc => by simp at hc, ?_⟩
        intro hmg
        obtain ⟨e', m', he', hm', hnum, htag, _⟩ := hmg
        rw [he] at he'
        rw [hm] at hm'
        simp only [Option.some.injEq] at he' hm'
        subst he' hm'
        rcases hmis with hc | hc
        · exact absurd hnum hc
        · exact absurd htag hc
    · have hnum : e.Number = m.Number := by
        by_contra hc; exact hmis (Or.inl hc)
      have htag : e.tag = m.tag := by
        by_contra hc; exact hmis (Or.inr hc)
      obtain ⟨_, _, hin, hrnot⟩ := loopFacts_of_disjointTrees t he hm
      obtain ⟨res, ef, hrun, hef, _, hframe, ⟨inner, htr, hev⟩, herr, hconv, _, _⟩ :=
        Update_onTrees ord hrec t he hm hnum htag
      refine ⟨res, hrun, ?_, ?_, ?_⟩
      · intro q hq
        have hqr : q ≠ r := fun hc =>
          hq (List.mem_append_left _ (hc ▸ footprint_self_mem n h r))
        apply hframe q hqr
        intro kc hkc hreg
        apply hq
        have := hin kc hkc q hreg
        rcases List.mem_append.mp this with hc | hc
        · exact List.mem_append_left _ (List.mem_of_mem_tail hc)
        · exact List.mem_append_right _ (List.mem_of_mem_tail hc)
      · intro ev hevm
        rw [htr] at hevm
        rcases List.mem_append.mp hevm with hevm | hevm
        · obtain ⟨_, kc, _, c, hc, hel⟩ := hev ev hevm
          exact List.mem_of_mem_tail (footprint_child he (mapLookup_mem hc) hel)
        · obtain ⟨l, _, rfl⟩ := List.mem_map.mp hevm
          exact footprint_self_mem n h r
      · refine ⟨fun hnone => ⟨e, m, he, hm, hnum, htag, hconv hnone⟩, ?_⟩
        intro hmg
        obtain ⟨e', m', he', hm', _, _, hch⟩ := hmg
        rw [he] at he'
        rw [hm] at hm'
        simp only [Option.some.injEq] at he' hm'
        subst he' hm'
        exact herr hch

theorem treeAtB_sound : ∀ (n : Nat) (h : Heap) (p : Ptr), treeAtB n h p = true → TreeAt n h p := by
  intro n
  induction n with
  | zero => intro h p hb; simp [treeAtB] at hb
  | succ n ih =>
    intro h p hb
    unfold treeAtB at hb
    cases he : h[p]? with
    | none => simp [he] at hb
    | some e =>
      simp only [he, Bool.and_eq_true, decide_eq_true_eq, List.all_eq_true] at hb
      refine ⟨e, he, hb.1, ?_⟩
      intro kc hkc
      have := hb.2 kc hkc
      cases hc : h[kc.2]? with
      | none => simp [hc] at this
      | some c =>
        simp only [hc, decide_eq_true_eq] at this
        exact ⟨⟨c, rfl, this.1⟩, ih h kc.2 this.2⟩

theorem mergeableB_sound :
    ∀ (n : Nat) (h : Heap) (r i : Ptr), mergeableB n h r i = true → Mergeable n h r i := by
  intro n
  induction n with
  | zero => intro h r i hb; simp [mergeableB] at hb
  | succ n ih =>
    intro h r i hb
    unfold mergeableB at hb
    cases he : h[r]? with
    | none => simp [he] at hb
    | some e =>
      cases hm : h[i]? with
      | none => simp [he, hm] at hb
      | some m =>
        simp only [he, hm, Bool.and_eq_true, decide_eq_true_eq, List.all_eq_true] at hb
        refine ⟨e, m, he, hm, hb.1.1, hb.1.2, ?_⟩
        intro kc hkc c hl
        have := hb.2 kc hkc
        simp only [hl] at this
        exact ih h c kc.2 this

/-- Concrete disjoint trees, from the Boolean checks. -/
theorem disjointTrees_of_check {n : Nat} {h : Heap} {r i : Ptr}
    (hr : treeAtB n h r = true) (hi : treeAtB n h i = true)
    (hnd : (footprint n h r ++ footprint n h i).Nodup) : DisjointTrees n h r i :=
  ⟨treeAtB_sound n h r hr, treeAtB_sound n h i hi, hnd⟩

/-- The tree of a resident child whose number is not a key of the incoming map lies outside
everything the loop of `Update` touches. -/
theorem unmatched_apart {n : Nat} {h : Heap} {r i : Ptr} {e m : Element}
    (t : DisjointTrees (n + 1) h r i) (he : h[r]? = some e) (hm : h[i]? = some m)
    {k : Int} {c : Ptr} (hl : mapLookup k e.Children = some c) (hk : k ∉ mapKeys m.Children) :
    ∀ q ∈ footprint n h c, q ≠ r ∧ ∀ kc ∈ m.Children, q ∉ region n h e.Children kc := by
  intro q hq
  have hnd := t.2.2
  simp only [footprint, he, hm] at hnd
  have hnd1 := hnd.of_append_left
  have hdisj := (List.nodup_append.mp hnd).2.2
  have hcm := mapLookup_mem hl
  have hqA : q ∈ e.Children.flatMap fun kc => footprint n h kc.2 :=
    List.mem_flatMap.mpr ⟨(k, c), hcm, hq⟩
  refine ⟨fun hc => (List.nodup_cons.mp hnd1).1 (hc ▸ hqA), ?_⟩
  intro kc hkc hreg
  unfold region at hreg
  rcases List.mem_append.mp hreg with hreg | hreg
  · exact hdisj (List.mem_cons_of_mem _ hqA)
      (List.mem_cons_of_mem _ (List.mem_flatMap.mpr ⟨kc, hkc, hreg⟩))
  · cases hl' : mapLookup kc.1 e.Children with
    | none => simp [hl'] at hreg
    | some c' =>
      simp only [hl'] at hreg
      have hne : ((k, c) : Int × Ptr) ≠ (kc.1, c') := by
        intro hc
        simp only [Prod.mk.injEq] at hc
        exact hk (hc.1 ▸ List.mem_map.mpr ⟨kc, hkc, rfl⟩)
      exact flatMap_disjoint (List.nodup_cons.mp hnd1).2 hcm (mapLookup_mem hl') hne hq hreg

/-! ## C3: additive merge -/

/-- C3: for every resident and incoming tree whose children maps are keyed by each child's own
Number (disjoint trees of at most `n + 1` levels, any visiting order, fuel above `n`),
`Update(resident, incoming)` returns (without error exactly when the trees are mergeable), and if
it succeeds then every child number present in `resident.Children` before the call is present
afterwards, every child number present in `incoming.Children` is present afterwards, and every
resident child whose number does not occur in `incoming.Children` is unchanged: it is still
stored under its number and no cell of its tree has changed. -/
theorem C3_additive_merge (ord : MapOrder) (n fuel : Nat) (h : Heap) (resident incoming : Ptr)
    (e m : Element) (t : DisjointTrees (n + 1) h resident incoming)
    (he : h[resident]? = some e) (hm : h[incoming]? = some m) (hfuel : n < fuel) :
    ∃ res ef, Update ord fuel h resident incoming = some res ∧
      res.heap[resident]? = some ef ∧
      (res.err = none ↔ Mergeable (n + 1) h resident incoming) ∧
      (res.err = none →
        (∀ k, k ∈ mapKeys e.Children → k ∈ mapKeys ef.Children) ∧
        (∀ k, k ∈ mapKeys m.Children → k ∈ mapKeys ef.Children) ∧
        (∀ k c, mapLookup k e.Children = some c → k ∉ mapKeys m.Children →
          mapLookup k ef.Children = some c ∧
          ∀ q ∈ footprint n h c, res.heap[q]? = h[q]?)) := by
  obtain ⟨f, rfl⟩ : ∃ f, fuel = f + 1 := ⟨fuel - 1, by omega⟩
  obtain ⟨res0, hrun0, _, _, hiff⟩ :=
    Update_tree ord (n + 1) (f + 1) (by omega) h resident incoming t
  by_cases hmis : e.Number ≠ m.Number ∨ e.tag ≠ m.tag
  · have hrun : Update ord (f + 1) h resident incoming =
        some ⟨h, some (Error.identityMismatch e.Number m.Number e.tag m.tag), []⟩ := by
      simp only [Update, he, hm, if_pos hmis]
    rw [hrun] at hrun0
    simp only [Option.some.injEq] at hrun0
    subst hrun0
    exact ⟨_, e, hrun, he, hiff, fun hc => by simp at hc⟩
  · have hnum : e.Number = m.Number := by
      by_contra hc; exact hmis (Or.inl hc)
    have htag : e.tag = m.tag := by
      by_contra hc; exact hmis (Or.inr hc)
    obtain ⟨res, ef, hrun, hef, _, hframe, _, _, _, hchar, hother⟩ :=
      Update_onTrees ord (Update_tree ord n f (by omega)) t he hm hnum htag
    rw [hrun] at hrun0
    simp only [Option.some.injEq] at hrun0
    subst hrun0
    refine ⟨res, ef, hrun, hef, hiff, ?_⟩
    intro hok
    refine ⟨?_, ?_, ?_⟩
    · intro k hk
      by_contra hc
      have h1 := hchar hok k
      rw [mapLookup_eq_none.mpr hc] at h1
      cases hl : mapLookup k e.Children with
      | none => exact (mapLookup_eq_none.mp hl) hk
      | some c => simp [hl] at h1
    · intro k hk
      by_contra hc
      have h1 := hchar hok k
      rw [mapLookup_eq_none.mpr hc] at h1
      cases hl : mapLookup k e.Children with
      | none =>
        simp only [hl] at h1
        exact (mapLookup_eq_none.mp h1.symm) hk
      | some c => simp [hl] at h1
    · intro k c hl hk
      refine ⟨by rw [hother k hk]; exact hl, ?_⟩
      intro q hq
      obtain ⟨hqr, hqreg⟩ := unmatched_apart t he hm hl hk q hq
      exact hframe q hqr hqreg

/-- C3 at a concrete input: the trees at 0 and 4 of `heapMerge` are merged without error; the
resident then has the child numbers 5, 6 and 7, and its child 6, which the incoming tree does
not mention, is the same element 2 with the same cell. -/
theorem C3_witness :
    ∃ res ef, Update MapOrder.stored 3 heapMerge 0 4 = some res ∧
      res.heap[0]? = some ef ∧ res.err = none ∧
      (∀ k, k ∈ [5, 6] → k ∈ mapKeys ef.Children) ∧
      (∀ k, k ∈ [5, 7] → k ∈ mapKeys ef.Children) ∧
      mapLookup 6 ef.Children = some 2 ∧ res.heap[2]? = heapMerge[2]? := by
  obtain ⟨res, ef, hrun, hef, hiff, himp⟩ :=
    C3_additive_merge MapOrder.stored 2 3 heapMerge 0 4 _ _
      (disjointTrees_of_check (by decide) (by decide) (by decide)) rfl rfl (by decide)
  have hok : res.err = none := hiff.mpr (mergeableB_sound _ _ _ _ (by decide))
  obtain ⟨h1, h2, h3⟩ := himp hok
  obtain ⟨h4, h5⟩ := h3 6 2 (by decide) (by decide)
  exact ⟨res, ef, hrun, hef, hok, h1, h2, h4, h5 2 (by decide)⟩

/-! ## Directory requests and listener delivery -/

theorem NewCommand_getDirectory (env : Env) (h : Heap) :
    NewCommand env h COMMAND_GETDIRECTORY = some (h ++ [getDirectoryCell env], h.length) := by
  simp [NewCommand, NewElement, CreateContent, NewCommandContents, getDirectoryCell,
    Element.plain]

theorem ParentChain.lt {h : Heap} :
    ∀ (anc : List Ptr) (x : Ptr), ParentChain h x anc → ∀ p ∈ x :: anc, p < h.length := by
  intro anc
  induction anc with
  | nil =>
    intro x hx p hpm
    obtain ⟨c, hc, _⟩ := hx
    simp only [List.mem_singleton] at hpm
    subst hpm
    exact getElem?_lt hc
  | cons a rest ih =>
    intro x hx p hpm
    obtain ⟨c, hc, _, hrest⟩ := hx
    rcases List.mem_cons.mp hpm with rfl | hpm
    · exact getElem?_lt hc
    · exact ih a hrest p hpm

theorem StandInChain.head_new {h0 h : Heap} {real : List Ptr} {s : Ptr}
    (hs : StandInChain h0 h real s) : h0.length ≤ s := by
  cases real with
  | nil => exact absurd hs (by simp [StandInChain])
  | cons r rest =>
    cases rest with
    | nil => obtain ⟨_, _, _, _, _, hnew⟩ := hs; exact hnew
    | cons r' rest' => obtain ⟨_, _, _, _, _, _, _, hnew, _⟩ := hs; exact hnew

theorem StandInChain.congr_new {h0 h h' : Heap}
    (hag : ∀ q : Ptr, h0.length ≤ q → h'[q]? = h[q]?) :
    ∀ (real : List Ptr) (s : Ptr), StandInChain h0 h real s → StandInChain h0 h' real s := by
  intro real
  induction real with
  | nil => intro s hs; exact hs
  | cons r rest ih =>
    intro s hs
    cases rest with
    | nil =>
      obtain ⟨sc, rc, hsc, hrc, hst, hnew⟩ := hs
      exact ⟨sc, rc, by rw [hag s hnew]; exact hsc, hrc, hst, hnew⟩
    | cons r' rest' =>
      obtain ⟨sc, rc, s', sc', hsc, hrc, hst, hnew, hs', hch, hrest⟩ := hs
      exact ⟨sc, rc, s', sc', by rw [hag s hnew]; exact hsc, hrc, hst, hnew,
        by rw [hag s' hrest.head_new]; exact hs', hch, ih s' hrest⟩

/-- What `GetDirectoryMsg(element, listener)` returns and leaves behind. -/
theorem GetDirectoryMsg_spec (env : Env) (fuel : Nat) (h : Heap) (element : Ptr)
    (anc : List Ptr) (l : Listener) (e : Element) (he : h[element]? = some e)
    (hp : ParentChain h element anc) (hfuel : anc.length < fuel) :
    ∃ h' top, GetDirectoryMsg env fuel h element (some l) = some (h', some [top], none) ∧
      StandInChain (h ++ [getDirectoryCell env]) h' (anc.reverse ++ [element]) top ∧
      h'[element]? = some { e with listeners :=
        if l ∈ e.listeners then e.listeners else e.listeners ++ [l] } ∧
      (∀ p, p < h.length → p ≠ element → h'[p]? = h[p]?) ∧
      (∀ (p : Ptr) (c : Element), h.length ≤ p → h'[p]? = some c → c.listeners = []) := by
  have hlt := ParentChain.lt anc element hp
  have happ : ∀ p, p < h.length → (h ++ [getDirectoryCell env])[p]? = h[p]? :=
    fun p hpl => List.getElem?_append_left hpl
  have hcmdcell : (h ++ [getDirectoryCell env])[h.length]? = some (getDirectoryCell env) :=
    List.getElem?_concat_length _ _
  have hp1 : ParentChain (h ++ [getDirectoryCell env]) element anc :=
    ParentChain.congr anc element (fun q hq => happ q (hlt q hq)) hp
  obtain ⟨h2, top, hrun, hchain, _, _, _, hframe, hshape, hnew⟩ :=
    getDupBranch_spec fuel (h ++ [getDirectoryCell env]) element anc (some h.length) hp1
      (fun c hc => by
        simp only [Option.some.injEq] at hc
        subst hc
        refine ⟨⟨_, hcmdcell⟩, ?_⟩
        intro hmem
        have := hlt _ hmem
        simp only [Ptr] at *
        omega)
      hfuel
  have helt : element < h.length := getElem?_lt he
  have hlen1 : (h ++ [getDirectoryCell env]).length = h.length + 1 := by simp
  have he2 : h2[element]? = some e := by
    rw [hframe element (by rw [hlen1]; simp only [Ptr] at *; omega)
      (by
        intro hc
        simp only [Option.some.injEq] at hc
        simp only [Ptr] at *
        omega), happ element helt]
    exact he
  refine ⟨h2.set element { e with listeners :=
      if l ∈ e.listeners then e.listeners else e.listeners ++ [l] }, top, ?_, ?_, ?_, ?_, ?_⟩
  · simp only [GetDirectoryMsg, NewCommand_getDirectory, hrun, AddListener, he2, NewRoot,
      RootElement.AddElement, List.nil_append]
  · refine StandInChain.congr_new ?_ _ _ hchain
    intro q hq
    rw [hlen1] at hq
    exact List.getElem?_set_ne (by simp only [Ptr] at *; omega)
  · exact List.getElem?_set_self (getElem?_lt he2)
  · intro p hpl hpe
    rw [List.getElem?_set_ne (Ne.symm hpe),
      hframe p (by rw [hlen1]; simp only [Ptr] at *; omega)
        (by
          intro hc
          simp only [Option.some.injEq] at hc
          simp only [Ptr] at *
          omega), happ p hpl]
  · intro p c hpl hc
    have hpe : p ≠ element := by simp only [Ptr] at *; omega
    rw [List.getElem?_set_ne (Ne.symm hpe)] at hc
    by_cases hpc : p = h.length
    · subst hpc
      obtain ⟨c', hc', hs⟩ := hshape _ _ hcmdcell
      rw [hc] at hc'
      simp only [Option.some.injEq] at hc'
      subst hc'
      simp only [Element.shape, Prod.mk.injEq] at hs
      rw [hs.2.2.2.2.2]
      rfl
    · exact hnew p c (by rw [hlen1]; simp only [Ptr] at *; omega) hc

theorem mem_listenedAt {h : Heap} {l : Listener} {p : Ptr} :
    p ∈ listenedAt h l ↔ ∃ c, h[p]? = some c ∧ l ∈ c.listeners := by
  unfold listenedAt
  rw [List.mem_filter, List.mem_range]
  constructor
  · rintro ⟨_, hb⟩
    cases hc : h[p]? with
    | none => simp [hc] at hb
    | some c =>
      simp only [hc, decide_eq_true_eq] at hb
      exact ⟨c, rfl, hb⟩
  · rintro ⟨c, hc, hl⟩
    exact ⟨getElem?_lt hc, by simp [hc, hl]⟩

theorem updateLoop_registered {recur : Heap → Ptr → Ptr → Option UpdateResult}
    (hfix : ∀ h a b r, recur h a b = some r → SameFixed h r.heap)
    (hrec : ∀ h a b r, recur h a b = some r →
      ∀ ev ∈ r.trace, ev.element ∈ listenedAt h ev.listener) (el : Ptr) :
    ∀ (entries : List (Int × Ptr)) (h : Heap) (tr : List Event) (r : UpdateResult),
      updateLoop recur el entries h tr = some r →
      ∀ ev ∈ r.trace, ev ∈ tr ∨ ev.element ∈ listenedAt h ev.listener := by
  have hback : ∀ {h h' : Heap}, SameFixed h h' → ∀ (p : Ptr) (l : Listener),
      p ∈ listenedAt h' l → p ∈ listenedAt h l := by
    intro h h' a p l hm
    obtain ⟨c', hc', hl'⟩ := mem_listenedAt.mp hm
    obtain ⟨c, hc, hf⟩ := a.cell_back hc'
    simp only [Element.fixed, Prod.mk.injEq] at hf
    exact mem_listenedAt.mpr ⟨c, hc, by rw [← hf.2.2.1]; exact hl'⟩
  intro entries
  induction entries with
  | nil =>
    intro h tr r hr ev hev
    simp only [updateLoop, Option.some.injEq] at hr
    subst hr
    exact Or.inl hev
  | cons hd rest ih =>
    intro h tr r hr ev hev
    obtain ⟨number, newChild⟩ := hd
    obtain ⟨e, he, hcase⟩ := updateLoop_cons_inv hr
    have hnest : ∀ (r' : UpdateResult) (child : Ptr), recur h child newChild = some r' →
        ∀ ev ∈ r'.trace.map Event.nested, ev.element ∈ listenedAt h ev.listener := by
      intro r' child hr' ev hev
      obtain ⟨ev0, hev0, rfl⟩ := List.mem_map.mp hev
      exact hrec _ _ _ r' hr' ev0 hev0
    rcases hcase with ⟨_, h', hadd, hrest⟩ | ⟨child, r', _, hr', hcase2⟩
    · rcases ih _ _ _ hrest ev hev with h1 | h1
      · exact Or.inl h1
      · exact Or.inr (hback (AddChild_sameFixed hadd).1 _ _ h1)
    · rcases hcase2 with ⟨_, hrest⟩ | ⟨err', herr', rfl⟩
      · rcases ih _ _ _ hrest ev hev with h1 | h1
        · rcases List.mem_append.mp h1 with h1 | h1
          · exact Or.inl h1
          · exact Or.inr (hnest r' child hr' ev h1)
        · exact Or.inr (hback (hfix _ _ _ r' hr') _ _ h1)
      · rcases List.mem_append.mp hev with h1 | h1
        · exact Or.inl h1
        · exact Or.inr (hnest r' child hr' ev h1)

/-- Every `Receive` call made by `Update` is made on a listener registered on the element it is
called with. -/
theorem Update_registered (ord : MapOrder) :
    ∀ (fuel : Nat) (h : Heap) (a b : Ptr) (r : UpdateResult),
      Update ord fuel h a b = some r →
      ∀ ev ∈ r.trace, ev.element ∈ listenedAt h ev.listener := by
  intro fuel
  induction fuel with
  | zero => intro h a b r hr; simp [Update] at hr
  | succ fuel ih =>
    intro h a b r hr ev hev
    obtain ⟨e, n, he, hn, hcase⟩ := Update_succ_inv hr
    rcases hcase with ⟨_, rfl⟩ | ⟨_, _, r', evs, hloop, hevs, rfl⟩
    · simp at hev
    · have hfix1 : SameFixed h (assignContent h a e n.contents) := assignContent_sameFixed he _
      have hfix2 : SameFixed (assignContent h a e n.contents) r'.heap :=
        updateLoop_sameFixed (Update_sameFixed ord fuel) a _ _ _ r' hloop
      have hback : ∀ {h h' : Heap}, SameFixed h h' → ∀ (p : Ptr) (l : Listener),
          p ∈ listenedAt h' l → p ∈ listenedAt h l := by
        intro h h' a p l hm
        obtain ⟨c', hc', hl'⟩ := mem_listenedAt.mp hm
        obtain ⟨c, hc, hf⟩ := a.cell_back hc'
        simp only [Element.fixed, Prod.mk.injEq] at hf
        exact mem_listenedAt.mpr ⟨c, hc, by rw [← hf.2.2.1]; exact hl'⟩
      rcases List.mem_append.mp hev with h1 | h1
      · rcases updateLoop_registered (Update_sameFixed ord fuel) ih a _ _ _ r' hloop ev h1
          with h2 | h2
        · simp at h2
        · exact hback hfix1 _ _ h2
      · unfold updateListeners at hevs
        cases hc : r'.heap[a]? with
        | none => simp [hc] at hevs
        | some c =>
          simp only [hc, Option.some.injEq] at hevs
          subst hevs
          obtain ⟨l, hl, rfl⟩ := List.mem_map.mp h1
          have hl' : l ∈ c.listeners := (ord.listeners_perm c.listeners).mem_iff.mp hl
          exact hback (hfix1.trans_fixed hfix2) _ _ (mem_listenedAt.mpr ⟨c, hc, hl'⟩)

theorem callsOn_notify (l : Listener) (p : Ptr) (er : Option Error) :
    ∀ (ls : List Listener), ls.Nodup →
      callsOn l (ls.map fun l' => (⟨0, l', p, er⟩ : Event)) =
        if l ∈ ls then [⟨0, l, p, er⟩] else [] := by
  intro ls
  induction ls with
  | nil => intro _; simp [callsOn]
  | cons x rest ih =>
    intro hnd
    have hnd' := List.nodup_cons.mp hnd
    have ih' := ih hnd'.2
    unfold callsOn at ih' ⊢
    by_cases hx : x = l
    · subst hx
      have hnot : x ∉ rest := hnd'.1
      simp only [hnot, if_false] at ih'
      rw [List.map_cons, List.filter_cons, if_pos (by simp), ih']
      simp
    · have hx' : ¬ l = x := fun hc => hx hc.symm
      rw [List.map_cons, List.filter_cons, if_neg (by simp [hx]), ih']
      simp [hx']

/-! ## C8: listener delivery on a directory request -/

/-- C8: for every element `E` with a parent chain of any depth and every listener `L` that is
registered on no other element, `GetDirectoryMsg(E, L)` returns a message holding the duplicate
chain for `E`; afterwards `L` is registered on `E` and on no other element (every element of the
chain is a new cell, without listeners); and a subsequent `Update(E, response)`, for a response
tree decoded into new cells with the same tag and Number as `E` and no conflicting children,
returns no error and makes exactly one `Receive` call on `L`, with `E` and no error. -/
theorem C8_listener_delivery (env : Env) (ord : MapOrder) (fuel : Nat) (h : Heap) (E : Ptr)
    (anc : List Ptr) (L : Listener) (e : Element) (he : h[E]? = some e)
    (hp : ParentChain h E anc) (hfuel : anc.length < fuel)
    (hL : ∀ p ∈ listenedAt h L, p = E) (hset : e.listeners.Nodup) :
    ∃ h1 top, GetDirectoryMsg env fuel h E (some L) = some (h1, some [top], none) ∧
      StandInChain (h ++ [getDirectoryCell env]) h1 (anc.reverse ++ [E]) top ∧
      (∀ p, p ∈ listenedAt h1 L ↔ p = E) ∧
      ∀ (ext : List Element) (response : Ptr) (n fuelU : Nat),
        (∀ c ∈ ext, L ∉ c.listeners) →
        DisjointTrees (n + 1) (h1 ++ ext) E response →
        Mergeable (n + 1) (h1 ++ ext) E response → n < fuelU →
        ∃ res, Update ord fuelU (h1 ++ ext) E response = some res ∧ res.err = none ∧
          callsOn L res.trace = [⟨0, L, E, none⟩] := by
  obtain ⟨h1, top, hrun, hchain, hE1, hold, hnew⟩ :=
    GetDirectoryMsg_spec env fuel h E anc L e he hp hfuel
  have hElt : E < h.length := getElem?_lt he
  have hLin : L ∈ (if L ∈ e.listeners then e.listeners else e.listeners ++ [L]) := by
    by_cases hc : L ∈ e.listeners
    · simp [hc]
    · simp [hc]
  have hnd1 : (if L ∈ e.listeners then e.listeners else e.listeners ++ [L]).Nodup := by
    by_cases hc : L ∈ e.listeners
    · simp only [hc, if_true]; exact hset
    · simp only [hc, if_false]
      rw [List.nodup_append]
      exact ⟨hset, List.nodup_singleton L, by
        intro x hx hx'
        simp only [List.mem_singleton] at hx'
        exact hc (hx' ▸ hx)⟩
  have honly1 : ∀ p c, h1[p]? = some c → L ∈ c.listeners → p = E := by
    intro p c hc hl
    by_contra hpe
    by_cases hpl : p < h.length
    · rw [hold p hpl hpe] at hc
      exact hpe (hL p (mem_listenedAt.mpr ⟨c, hc, hl⟩))
    · have := hnew p c (by simp only [Ptr] at *; omega) hc
      rw [this] at hl
      simp at hl
  refine ⟨h1, top, hrun, hchain, ?_, ?_⟩
  · intro p
    constructor
    · intro hm
      obtain ⟨c, hc, hl⟩ := mem_listenedAt.mp hm
      exact honly1 p c hc hl
    · rintro rfl
      exact mem_listenedAt.mpr ⟨_, hE1, hLin⟩
  · intro ext response n fuelU hext t hmg hfu
    obtain ⟨f, rfl⟩ : ∃ f, fuelU = f + 1 := ⟨fuelU - 1, by omega⟩
    have hEU : (h1 ++ ext)[E]? = some { e with listeners :=
        if L ∈ e.listeners then e.listeners else e.listeners ++ [L] } := by
      rw [List.getElem?_append_left (getElem?_lt hE1)]; exact hE1
    have honlyU : ∀ p, p ∈ listenedAt (h1 ++ ext) L → p = E := by
      intro p hm
      obtain ⟨c, hc, hl⟩ := mem_listenedAt.mp hm
      by_cases hpl : p < h1.length
      · rw [List.getElem?_append_left hpl] at hc
        exact honly1 p c hc hl
      · rw [List.getElem?_append_right (by simp only [Ptr] at *; omega)] at hc
        exact absurd hl (hext c (List.getElem?_mem hc))
    obtain ⟨eU, m, heU, hm, hnum, htag, hch⟩ := hmg
    rw [hEU] at heU
    simp only [Option.some.injEq] at heU
    subst heU
    obtain ⟨res, ef, hup, _, _, _, ⟨inner, htr, hev⟩, herr, _, _, _⟩ :=
      Update_onTrees ord (Update_tree ord n f (by omega)) t hEU hm hnum htag
    have hok : res.err = none := herr hch
    refine ⟨res, hup, hok, ?_⟩
    have hreg := Update_registered ord (f + 1) (h1 ++ ext) E response res hup
    have hndE : (footprint (n + 1) (h1 ++ ext) E).Nodup := t.2.2.of_append_left
    have hinner : callsOn L inner = [] := by
      unfold callsOn
      rw [List.filter_eq_nil_iff]
      intro ev hevm hl
      simp only [decide_eq_true_eq] at hl
      obtain ⟨_, kc, _, c, hc, hel⟩ := hev ev hevm
      have hevE : ev.element = E := by
        apply honlyU
        rw [← hl]
        exact hreg ev (by rw [htr]; exact List.mem_append_left _ hevm)
      have htail := footprint_child hEU (mapLookup_mem hc) hel
      rw [hevE] at htail
      simp only [footprint, hEU, List.tail_cons] at htail
      simp only [footprint, hEU, List.nodup_cons] at hndE
      exact hndE.1 htail
    have hown := callsOn_notify L E res.err _
      ((ord.listeners_perm _).nodup_iff.mpr hnd1)
    rw [htr]
    unfold callsOn at hinner hown ⊢
    rw [List.filter_append, hinner, List.nil_append, hown,
      if_pos ((ord.listeners_perm _).mem_iff.mpr hLin), hok]

/-- C8 at a concrete input: element 2 of `heapPath` (depth 2), listener 4, and the response
`responseCells` merged at element 2. -/
theorem C8_witness :
    ∃ res, Update MapOrder.stored 2 (heapRequested ++ responseCells) 2 9 = some res ∧
      res.err = none ∧ callsOn 4 res.trace = [⟨0, 4, 2, none⟩] := by
  obtain ⟨h1, top, hrun, _, _, hupd⟩ :=
    C8_listener_delivery Env.sample MapOrder.stored 3 heapPath 2 [1, 0] 4 _ rfl
      ⟨_, rfl, rfl, _, rfl, rfl, _, rfl, rfl⟩ (by decide) (by decide) (by decide)
  have hh : heapRequested = h1 := by
    simp only [heapRequested, hrun]
  rw [← hh] at hupd
  exact hupd responseCells 9 1 2 (by decide)
    (disjointTrees_of_check (by decide) (by decide) (by decide))
    (mergeableB_sound _ _ _ _ (by decide)) (by decide)

/-! ## C1 (amended): when `Update` returns an error -/

/-- C1 (amended): `Update(resident, incoming)` returns an error whenever
`resident.Number != incoming.Number` or `resident.tag != incoming.tag`; every error that a call
of `Update` returns is the identity-mismatch error of some pair of elements that differ in Number
or tag; and on disjoint trees `Update` returns an error if and only if resident and incoming are
not mergeable, i.e. Number or tag differ for the top-level pair or, level by level, for some
incoming child and the resident child stored under the same number. -/
theorem C1_update_error (ord : MapOrder) (n fuel : Nat) (h : Heap) (resident incoming : Ptr)
    (e m : Element) (he : h[resident]? = some e) (hm : h[incoming]? = some m) :
    ((e.Number ≠ m.Number ∨ e.tag ≠ m.tag) →
      ∃ res, Update ord (fuel + 1) h resident incoming = some res ∧
        res.err = some (Error.identityMismatch e.Number m.Number e.tag m.tag)) ∧
    (∀ res err, Update ord fuel h resident incoming = some res → res.err = some err →
      MismatchOf h err) ∧
    (DisjointTrees n h resident incoming → n ≤ fuel →
      ∃ res, Update ord fuel h resident incoming = some res ∧
        (res.err ≠ none ↔ ¬ Mergeable n h resident incoming)) := by
  refine ⟨?_, ?_, ?_⟩
  · intro hmis
    refine ⟨⟨h, _, []⟩, ?_, rfl⟩
    simp only [Update, he, hm]
    rw [if_pos hmis]
  · intro res err hres herr
    exact Update_mismatchOf ord fuel h resident incoming res hres err herr
  · intro t hfuel
    obtain ⟨res, hrun, _, _, hiff⟩ := Update_tree ord n fuel hfuel h resident incoming t
    exact ⟨res, hrun, not_congr hiff⟩

/-- C1 (amended) at a concrete input: in `heapTagClash` the top-level identities agree and the
call returns an error exactly because the two trees are not mergeable. -/
theorem C1_witness :
    ∃ res, Update MapOrder.stored 2 heapTagClash 0 2 = some res ∧
      (res.err ≠ none ↔ ¬ Mergeable 2 heapTagClash 0 2) :=
  (C1_update_error MapOrder.stored 2 2 heapTagClash 0 2 _ _ rfl rfl).2.2
    (disjointTrees_of_check (by decide) (by decide) (by decide)) (by decide)

/-! ## C13 and C14: rendering of the field flags -/

theorem containsLabel_append (a b : String) : containsLabel (a ++ b) b := by
  unfold containsLabel
  rw [String.data_append]
  exact (List.suffix_append _ _).isInfix

theorem ToString_fallback (v : FieldFlags) (h1 : v ≠ ALLFieldFlags) (h2 : v ≠ DefaultFieldFlags)
    (h3 : v ≠ IdentifierFieldFlags) (h4 : v ≠ DescriptionFieldFlags) (h5 : v ≠ TreeFieldFlags)
    (h6 : v ≠ ValueFieldFlags) (h7 : v ≠ ConnectionsFieldFlags) :
    CommandContents.ToString { fieldFlags := v } = sprintfFieldFlags v := by
  simp only [CommandContents.ToString, h1, h2, h3, h4, h5, h6, h7, if_false]

/-- C13 (as stated) fails: with `fieldFlags = ALLFieldFlags` the rendering is
`"  fieldFlags: ALL"`, in which the label `"All"` does not occur. -/
theorem C13_counterexample :
    CommandContents.ToString { fieldFlags := ALLFieldFlags } = "  fieldFlags: ALL" ∧
    ¬ containsLabel (CommandContents.ToString { fieldFlags := ALLFieldFlags }) "All" := by
  refine ⟨by decide, ?_⟩
  unfold containsLabel
  decide

/-- C13 (amended): `CommandContents.ToString` with `fieldFlags = ALLFieldFlags` produces the
label `"ALL"` (the string `"  fieldFlags: ALL"`); with the value 99 it produces
`"  fieldFlags: 99"`; and for every value that is not a named constant it produces
`"  fieldFlags: "` followed by the decimal rendering of the integer. -/
theorem C13_label_fidelity :
    CommandContents.ToString { fieldFlags := ALLFieldFlags } = "  fieldFlags: ALL" ∧
    containsLabel (CommandContents.ToString { fieldFlags := ALLFieldFlags }) "ALL" ∧
    CommandContents.ToString { fieldFlags := 99 } = "  fieldFlags: 99" ∧
    ∀ v : FieldFlags, v ∉ knownFieldFlags →
      CommandContents.ToString { fieldFlags := v } = "  fieldFlags: " ++ toString v ∧
      containsLabel (CommandContents.ToString { fieldFlags := v }) (toString v) := by
  refine ⟨by decide, ?_, by decide, ?_⟩
  · unfold containsLabel
    decide
  · intro v hv
    simp only [knownFieldFlags, List.mem_cons, List.mem_singleton, not_or, List.not_mem_nil,
      or_false] at hv
    obtain ⟨_, h1, h2, h3, h4, h5, h6, h7⟩ := hv
    have := ToString_fallback v h1 h2 h3 h4 h5 h6 h7
    rw [this]
    exact ⟨rfl, containsLabel_append _ _⟩

/-- C13 (amended) at a concrete input: the unrecognized value 99. -/
theorem C13_witness :
    CommandContents.ToString { fieldFlags := 99 } = "  fieldFlags: " ++ toString (99 : Int) ∧
    containsLabel (CommandContents.ToString { fieldFlags := 99 }) (toString (99 : Int)) :=
  C13_label_fidelity.2.2.2 99 (by decide)

/-- C14 (code defect): `SparseFieldFlags` is one of the eight declared constants, but the switch
of `ToString` has no case for it, so it is rendered by the raw-integer statement after the
switch, as `"  fieldFlags: -2"`.  The other seven constants have the pairwise distinct fixed
labels listed. -/
theorem C14_sparse_has_no_label :
    SparseFieldFlags ∈ knownFieldFlags ∧
    CommandContents.ToString { fieldFlags := SparseFieldFlags } =
      sprintfFieldFlags SparseFieldFlags ∧
    CommandContents.ToString { fieldFlags := SparseFieldFlags } = "  fieldFlags: -2" ∧
    (knownFieldFlags.tail.map fun v => CommandContents.ToString { fieldFlags := v }) =
      ["  fieldFlags: ALL", "  fieldFlags: Default", "  fieldFlags: Identifier",
       "  fieldFlags: Description", "  fieldFlags: Tree", "  fieldFlags: Value",
       "  fieldFlags: Connections"] ∧
    (knownFieldFlags.tail.map fun v => CommandContents.ToString { fieldFlags := v }).Nodup := by
  refine ⟨by decide, by decide, by decide, by decide, by decide⟩

/-! ## C18: command content round trip -/

/-- C18: for every `fieldFlags` value `v`, `CommandContents.Encode` is exactly one `WriteInt` of
`v`; when `ReadInt` on the transferred output returns `v` without error, `Decode` succeeds and
sets `fieldFlags` to `v`; and when `ReadInt` fails, `Decode` returns that error and leaves
`fieldFlags` unchanged. -/
theorem C18_round_trip {W R : Type} (cdc : Codec W) (rdr : Decoder R) (load : W → R)
    (v : FieldFlags) (cc0 : CommandContents) (w : W) :
    CommandContents.Encode cdc { fieldFlags := v } w = cdc.WriteInt v w ∧
    (∀ r', rdr.ReadInt (load (CommandContents.Encode cdc { fieldFlags := v } w).1) =
        (r', v, none) →
      CommandContents.Decode rdr cc0 (load (CommandContents.Encode cdc { fieldFlags := v } w).1) =
        (r', { fieldFlags := v }, none)) ∧
    (∀ r r' val err, rdr.ReadInt r = (r', val, some err) →
      CommandContents.Decode rdr cc0 r = (r', cc0, some err)) := by
  refine ⟨rfl, ?_, ?_⟩
  · intro r' hread
    simp only [CommandContents.Decode, hread]
  · intro r r' val err hread
    simp only [CommandContents.Decode, hread]

/-- C18 at a concrete input: the value -2 written to an empty tape and read back into contents
that held 7; and a read from an empty tape, which fails and leaves the 7. -/
theorem C18_witness :
    CommandContents.Decode Decoder.tape { fieldFlags := 7 }
        (CommandContents.Encode Codec.tape { fieldFlags := -2 } []).1 =
      ([], { fieldFlags := -2 }, none) ∧
    CommandContents.Decode Decoder.tape { fieldFlags := 7 } [] =
      ([], { fieldFlags := 7 }, some (Error.external 1)) :=
  ⟨(C18_round_trip Codec.tape Decoder.tape id (-2) { fieldFlags := 7 } []).2.1 [] rfl,
   (C18_round_trip Codec.tape Decoder.tape id 0 { fieldFlags := 7 } []).2.2 [] [] 0 _ rfl⟩

/-! ## C11: content replacement -/

/-- C11: for every resident and incoming (disjoint trees) with matching tag and Number,
`Update(resident, incoming)` returns, and afterwards the content of resident is the content of
incoming when incoming has content, and the previous content of resident when incoming has none,
whether or not the merges of the children succeed. -/
theorem C11_content_replacement (ord : MapOrder) (n fuel : Nat) (h : Heap)
    (resident incoming : Ptr) (e m : Element) (t : DisjointTrees (n + 1) h resident incoming)
    (he : h[resident]? = some e) (hm : h[incoming]? = some m) (hnum : e.Number = m.Number)
    (htag : e.tag = m.tag) (hfuel : n < fuel) :
    ∃ res ef, Update ord fuel h resident incoming = some res ∧
      res.heap[resident]? = some ef ∧
      ef.contents = (match m.contents with
        | some c => some c
        | none => e.contents) := by
  obtain ⟨f, rfl⟩ : ∃ f, fuel = f + 1 := ⟨fuel - 1, by omega⟩
  obtain ⟨res, ef, hrun, hef, hsans, _⟩ :=
    Update_onTrees ord (Update_tree ord n f (by omega)) t he hm hnum htag
  refine ⟨res, ef, hrun, hef, ?_⟩
  have hc : ef.sansChildren.contents = (e.withContent m.contents).sansChildren.contents :=
    congrArg Element.contents hsans
  change ef.contents = (e.withContent m.contents).contents at hc
  rw [hc]
  cases m.contents <;> rfl

/-- C11 at a concrete input: in `heapContentClash` the merge of child 5 fails, `Update` returns
that error, and the resident has the content of the incoming element. -/
theorem C11_witness :
    ∃ res ef, Update MapOrder.stored 2 heapContentClash 0 2 = some res ∧
      res.heap[0]? = some ef ∧ ef.contents = some (EmberContents.other 2) ∧
      res.err = some (Error.identityMismatch 5 5 1 2) := by
  obtain ⟨res, ef, hrun, hef, hc⟩ :=
    C11_content_replacement MapOrder.stored 1 2 heapContentClash 0 2 _ _
      (disjointTrees_of_check (by decide) (by decide) (by decide)) rfl rfl rfl rfl (by decide)
  have hrun2 : ∃ r2, Update MapOrder.stored 2 heapContentClash 0 2 = some r2 ∧
      r2.err = some (Error.identityMismatch 5 5 1 2) := ⟨_, rfl, rfl⟩
  obtain ⟨r2, hr2, herr2⟩ := hrun2
  rw [hrun] at hr2
  simp only [Option.some.injEq] at hr2
  subst hr2
  exact ⟨res, ef, hrun, hef, hc, herr2⟩

/-! ## C15: the contract of `AddChild` -/

/-- C15: for every allocated element `p` and child `c`, `AddChild(p, c)` returns no error;
afterwards `p.Children[c.Number]` is `c`, every other entry of `p.Children` is what it was, the
parent of `c` is `p`, the path of `c` is empty when `c` is not qualified and what it was when `c`
is qualified, and no element other than `p` and `c` has changed. -/
theorem C15_AddChild_contract (h : Heap) (p c : Ptr) (e ce : Element) (he : h[p]? = some e)
    (hc : h[c]? = some ce) :
    ∃ h' e' ce', AddChild h p c = some (h', none) ∧ h'[p]? = some e' ∧ h'[c]? = some ce' ∧
      mapLookup ce.Number e'.Children = some c ∧
      (∀ k, k ≠ ce.Number → mapLookup k e'.Children = mapLookup k e.Children) ∧
      ce'.parent = some p ∧
      ce'.path = (if ce.isQualified then ce.path else []) ∧
      (∀ q, q ≠ p → q ≠ c → h'[q]? = h[q]?) := by
  have hplt : p < h.length := getElem?_lt he
  have hclt : c < h.length := getElem?_lt hc
  by_cases hpc : p = c
  · subst hpc
    rw [he] at hc
    simp only [Option.some.injEq] at hc
    subst hc
    have h1 : (h.set p (e.withChild e.Number p))[p]? = some (e.withChild e.Number p) :=
      List.getElem?_set_self hplt
    refine ⟨(h.set p (e.withChild e.Number p)).set p ((e.withChild e.Number p).withParent p),
      (e.withChild e.Number p).withParent p, (e.withChild e.Number p).withParent p, ?_, ?_, ?_,
      ?_, ?_, rfl, rfl, ?_⟩
    · have h1' : (h.set p { e with Children := mapInsert e.Number p e.Children })[p]? =
          some (e.withChild e.Number p) := h1
      simp only [AddChild, he, SetParent, h1']
      rfl
    · exact List.getElem?_set_self (by simp [hplt])
    · exact List.getElem?_set_self (by simp [hplt])
    · simp [Element.withParent, Element.withChild, mapLookup_mapInsert]
    · intro k hk
      simp [Element.withParent, Element.withChild, mapLookup_mapInsert, hk]
    · intro q hq _
      rw [List.getElem?_set_ne (Ne.symm hq), List.getElem?_set_ne (Ne.symm hq)]
  · refine ⟨(h.set p (e.withChild ce.Number c)).set c (ce.withParent p),
      e.withChild ce.Number c, ce.withParent p, AddChild_eq he hc hpc, ?_, ?_, ?_, ?_, rfl, rfl,
      ?_⟩
    · rw [List.getElem?_set_ne (Ne.symm hpc)]
      exact List.getElem?_set_self hplt
    · exact List.getElem?_set_self (by simp [hclt])
    · simp [Element.withChild, mapLookup_mapInsert]
    · intro k hk
      simp [Element.withChild, mapLookup_mapInsert, hk]
    · intro q hq hq'
      rw [List.getElem?_set_ne (Ne.symm hq'), List.getElem?_set_ne (Ne.symm hq)]

/-- C15 at a concrete input: element 3 of `heapPath` becomes the child numbered 32 of element 2,
replacing nothing. -/
theorem C15_witness :
    ∃ h' e' ce', AddChild heapPath 2 3 = some (h', none) ∧ h'[2]? = some e' ∧
      h'[3]? = some ce' ∧ mapLookup 32 e'.Children = some 3 ∧
      (∀ k, k ≠ 32 → mapLookup k e'.Children = mapLookup k []) ∧
      ce'.parent = some 2 ∧ ce'.path = [] ∧
      (∀ q, q ≠ 2 → q ≠ 3 → h'[q]? = heapPath[q]?) :=
  C15_AddChild_contract heapPath 2 3 _ _ rfl rfl

/-! ## C12: identity is immutable -/

theorem KeepsIdentity.refl_identity (h : Heap) : KeepsIdentity h h :=
  fun _ e he => ⟨e, he, rfl, rfl⟩

theorem KeepsIdentity.trans_identity {h1 h2 h3 : Heap} (a : KeepsIdentity h1 h2)
    (b : KeepsIdentity h2 h3) : KeepsIdentity h1 h3 := by
  intro p e he
  obtain ⟨e2, he2, hn2, ht2⟩ := a p e he
  obtain ⟨e3, he3, hn3, ht3⟩ := b p e2 he2
  exact ⟨e3, he3, hn3.trans hn2, ht3.trans ht2⟩

theorem keepsIdentity_of_sameFixed {h h' : Heap} (a : SameFixed h h') : KeepsIdentity h h' := by
  intro p e he
  obtain ⟨e', he', hf⟩ := a.cell he
  simp only [Element.fixed, Prod.mk.injEq] at hf
  exact ⟨e', he', hf.1, hf.2.1⟩

theorem keepsIdentity_set {h : Heap} {p : Ptr} {e e' : Element} (he : h[p]? = some e)
    (hn : e'.Number = e.Number) (ht : e'.tag = e.tag) : KeepsIdentity h (h.set p e') := by
  intro q c hc
  by_cases hpq : p = q
  · subst hpq
    rw [he] at hc
    simp only [Option.some.injEq] at hc
    subst hc
    exact ⟨e', List.getElem?_set_self (getElem?_lt he), hn, ht⟩
  · exact ⟨c, by rw [List.getElem?_set_ne hpq]; exact hc, rfl, rfl⟩

theorem keepsIdentity_append (h : Heap) (extra : List Element) :
    KeepsIdentity h (h ++ extra) := by
  intro p e he
  exact ⟨e, by rw [List.getElem?_append_left (getElem?_lt he)]; exact he, rfl, rfl⟩

theorem AddChild_keepsIdentity {h h' : Heap} {el ch : Ptr} {er : Option Error}
    (hs : AddChild h el ch = some (h', er)) : KeepsIdentity h h' :=
  keepsIdentity_of_sameFixed (AddChild_sameFixed hs).1

theorem CreateContent_keepsIdentity {h h' : Heap} {p : Ptr} {c : Option EmberContents}
    (hs : CreateContent h p = some (h', c)) : KeepsIdentity h h' := by
  unfold CreateContent at hs
  cases he : h[p]? with
  | none => simp [he] at hs
  | some e =>
    simp only [he] at hs
    cases hcr : e.contentsCreator with
    | none =>
      simp only [hcr, Option.some.injEq, Prod.mk.injEq] at hs
      rw [← hs.1]
      exact KeepsIdentity.refl_identity h
    | some creator =>
      simp only [hcr, Option.some.injEq, Prod.mk.injEq] at hs
      rw [← hs.1]
      exact keepsIdentity_set he rfl rfl

theorem NewCommand_keepsIdentity {env : Env} {h h' : Heap} {number : Int} {p : Ptr}
    (hs : NewCommand env h number = some (h', p)) : KeepsIdentity h h' := by
  unfold NewCommand at hs
  simp only [NewElement] at hs
  split at hs
  · rename_i h2 cc hcreate
    have k1 := keepsIdentity_append h
      [{ Number := number, tag := CommandApplication env, contents := none, parent := none,
         Children := [], isMatrix := false, isQualified := false,
         contentsCreator := some NewCommandContents, listeners := [], path := [],
         targets := [], sources := [], connections := [] }]
    have k2 := CreateContent_keepsIdentity hcreate
    split at hs
    · split at hs
      · simp at hs
      · rename_i c hc
        simp only [Option.some.injEq, Prod.mk.injEq] at hs
        rw [← hs.1]
        exact (k1.trans_identity k2).trans_identity (keepsIdentity_set hc rfl rfl)
    · simp only [Option.some.injEq, Prod.mk.injEq] at hs
      rw [← hs.1]
      exact k1.trans_identity k2
  · simp at hs

theorem dupLoop_keepsIdentity :
    ∀ (fuel : Nat) (h : Heap) (e d : Ptr) (h' : Heap) (top : Option Ptr) (er : Option Error),
      dupLoop fuel h e d = some (h', top, er) → KeepsIdentity h h' := by
  intro fuel
  induction fuel with
  | zero => intro h e d h' top er hs; simp [dupLoop] at hs
  | succ fuel ih =>
    intro h e d h' top er hs
    unfold dupLoop at hs
    split at hs
    · simp at hs
    · simp only [Option.some.injEq, Prod.mk.injEq] at hs
      rw [← hs.1]
      exact KeepsIdentity.refl_identity h
    · simp only [Option.some.injEq, Prod.mk.injEq] at hs
      rw [← hs.1]
      exact KeepsIdentity.refl_identity h
    · split at hs
      · simp at hs
      · rename_i p hp
        simp only [NewElement] at hs
        split at hs
        · simp at hs
        · rename_i h2 er2 hadd
          exact ((keepsIdentity_append h _).trans_identity
            (AddChild_keepsIdentity hadd)).trans_identity (ih _ _ _ _ _ _ hs)

theorem getDupBranch_keepsIdentity {fuel : Nat} {h h' : Heap} {element : Ptr}
    {cmd top : Option Ptr} {er : Option Error}
    (hs : getDupBranch fuel h element cmd = some (h', top, er)) : KeepsIdentity h h' := by
  unfold getDupBranch at hs
  split at hs
  · simp at hs
  · rename_i e he
    simp only [NewElement] at hs
    split at hs
    · exact (keepsIdentity_append h _).trans_identity (dupLoop_keepsIdentity _ _ _ _ _ _ _ hs)
    · split at hs
      · simp at hs
      · rename_i h2 er2 hadd
        exact ((keepsIdentity_append h _).trans_identity
          (AddChild_keepsIdentity hadd)).trans_identity (dupLoop_keepsIdentity _ _ _ _ _ _ _ hs)

theorem AddListener_keepsIdentity {h h' : Heap} {p : Ptr} {l : Listener}
    (hs : AddListener h p l = some h') : KeepsIdentity h h' := by
  unfold AddListener at hs
  cases he : h[p]? with
  | none => simp [he] at hs
  | some e =>
    simp only [he, Option.some.injEq] at hs
    rw [← hs]
    exact keepsIdentity_set he rfl rfl

theorem GetDirectoryMsg_keepsIdentity {env : Env} {fuel : Nat} {h h' : Heap} {element : Ptr}
    {l : Option Listener} {root : Option RootElement} {er : Option Error}
    (hs : GetDirectoryMsg env fuel h element l = some (h', root, er)) : KeepsIdentity h h' := by
  unfold GetDirectoryMsg at hs
  split at hs
  · simp at hs
  · rename_i h1 cmd hcmd
    have k1 := NewCommand_keepsIdentity hcmd
    split at hs
    · simp at hs
    · rename_i h2 top er2 hdup
      simp only [Option.some.injEq, Prod.mk.injEq] at hs
      rw [← hs.1]
      exact k1.trans_identity (getDupBranch_keepsIdentity hdup)
    · simp at hs
    · rename_i h2 dupElement hdup
      have k2 := k1.trans_identity (getDupBranch_keepsIdentity hdup)
      split at hs
      · simp only [Option.some.injEq, Prod.mk.injEq] at hs
        rw [← hs.1]
        exact k2
      · split at hs
        · simp at hs
        · rename_i h3 hadd
          simp only [Option.some.injEq, Prod.mk.injEq] at hs
          rw [← hs.1]
          exact k2.trans_identity (AddListener_keepsIdentity hadd)

theorem SetContents_inv {ord : MapOrder} {h : Heap} {p : Ptr} {c : Option EmberContents}
    {res : UpdateResult} (hs : SetContents ord h p c = some res) :
    ∃ e x, h[p]? = some e ∧ c = some x ∧
      res = ⟨h.set p { e with contents := some x }, none,
        (ord.listeners e.listeners).map fun l => (⟨0, l, p, none⟩ : Event)⟩ := by
  unfold SetContents at hs
  split at hs
  · rename_i e x he
    have h1 : (h.set p { e with contents := some x })[p]? = some { e with contents := some x } :=
      List.getElem?_set_self (getElem?_lt he)
    simp only [updateListeners, h1, Option.some.injEq] at hs
    exact ⟨e, x, he, rfl, hs.symm⟩
  · simp at hs

theorem RemoveListener_inv {h h' : Heap} {p : Ptr} {l : Listener}
    (hs : RemoveListener h p l = some h') :
    ∃ e, h[p]? = some e ∧
      h' = h.set p { e with listeners := e.listeners.filter fun l' => l' ≠ l } := by
  unfold RemoveListener at hs
  cases he : h[p]? with
  | none => simp [he] at hs
  | some e =>
    simp only [he, Option.some.injEq] at hs
    exact ⟨e, rfl, hs.symm⟩

theorem AddListener_inv {h h' : Heap} {p : Ptr} {l : Listener}
    (hs : AddListener h p l = some h') :
    ∃ e, h[p]? = some e ∧
      h' = h.set p { e with listeners :=
        if l ∈ e.listeners then e.listeners else e.listeners ++ [l] } := by
  unfold AddListener at hs
  cases he : h[p]? with
  | none => simp [he] at hs
  | some e =>
    simp only [he, Option.some.injEq] at hs
    exact ⟨e, rfl, hs.symm⟩

/-- C12: none of `AddChild`, `SetParent`, `SetContents`, `CreateContent`, `AddListener`,
`RemoveListener`, `Update` (whether it returns an error or not), `getDupBranch` and
`GetDirectoryMsg` changes the Number or the tag of any element that exists when it is called:
every cell of the heap before the call is a cell of the heap after it, with the same Number and
tag.  In particular the Number and tag of resident are unchanged by `Update`. -/
theorem C12_identity_immutable (h : Heap) :
    (∀ p c h' er, AddChild h p c = some (h', er) → KeepsIdentity h h') ∧
    (∀ p parent h' er, SetParent h p parent = some (h', er) → KeepsIdentity h h') ∧
    (∀ ord p c res, SetContents ord h p c = some res → KeepsIdentity h res.heap) ∧
    (∀ p h' c, CreateContent h p = some (h', c) → KeepsIdentity h h') ∧
    (∀ p l h', AddListener h p l = some h' → KeepsIdentity h h') ∧
    (∀ p l h', RemoveListener h p l = some h' → KeepsIdentity h h') ∧
    (∀ ord fuel r i res, Update ord fuel h r i = some res → KeepsIdentity h res.heap) ∧
    (∀ fuel p cmd h' top er, getDupBranch fuel h p cmd = some (h', top, er) →
      KeepsIdentity h h') ∧
    (∀ env fuel p l h' root er, GetDirectoryMsg env fuel h p l = some (h', root, er) →
      KeepsIdentity h h') := by
  refine ⟨?_, ?_, ?_, ?_, ?_, ?_, ?_, ?_, ?_⟩
  · intro p c h' er hs
    exact AddChild_keepsIdentity hs
  · intro p parent h' er hs
    exact keepsIdentity_of_sameFixed (SetParent_sameFixed hs).1
  · intro ord p c res hs
    obtain ⟨e, x, he, _, rfl⟩ := SetContents_inv hs
    exact keepsIdentity_set he rfl rfl
  · intro p h' c hs
    exact CreateContent_keepsIdentity hs
  · intro p l h' hs
    exact AddListener_keepsIdentity hs
  · intro p l h' hs
    obtain ⟨e, he, rfl⟩ := RemoveListener_inv hs
    exact keepsIdentity_set he rfl rfl
  · intro ord fuel r i res hs
    exact keepsIdentity_of_sameFixed (Update_sameFixed ord fuel h r i res hs)
  · intro fuel p cmd h' top er hs
    exact getDupBranch_keepsIdentity hs
  · intro env fuel p l h' root er hs
    exact GetDirectoryMsg_keepsIdentity hs

/-- C12 at concrete inputs: a successful `Update` on `heapMerge`, a failing `Update` on
`heapTagClash` and a directory request on `heapPath` keep the identity of every element. -/
theorem C12_witness :
    (∃ res, Update MapOrder.stored 3 heapMerge 0 4 = some res ∧ res.err = none ∧
      KeepsIdentity heapMerge res.heap) ∧
    (∃ res, Update MapOrder.stored 2 heapTagClash 0 2 = some res ∧ res.err ≠ none ∧
      KeepsIdentity heapTagClash res.heap) ∧
    (∃ h' root, GetDirectoryMsg Env.sample 3 heapPath 2 (some 4) = some (h', root, none) ∧
      KeepsIdentity heapPath h') :=
  ⟨⟨_, rfl, rfl,
      (C12_identity_immutable heapMerge).2.2.2.2.2.2.1 MapOrder.stored 3 0 4 _ rfl⟩,
   ⟨_, rfl, by decide,
      (C12_identity_immutable heapTagClash).2.2.2.2.2.2.1 MapOrder.stored 2 0 2 _ rfl⟩,
   ⟨_, _, rfl,
      (C12_identity_immutable heapPath).2.2.2.2.2.2.2.2 Env.sample 3 2 (some 4) _ _ _ rfl⟩⟩

/-! ## C16: children are keyed by their own Number -/

theorem mem_mapInsert {k : Int} {v : Ptr} {kc : Int × Ptr} :
    ∀ {m : List (Int × Ptr)}, kc ∈ mapInsert k v m → kc = (k, v) ∨ kc ∈ m := by
  intro m
  induction m with
  | nil => intro hm; simp [mapInsert] at hm; exact Or.inl hm
  | cons a rest ih =>
    intro hm
    obtain ⟨k', v'⟩ := a
    unfold mapInsert at hm
    by_cases hk : k' = k
    · simp only [hk, if_true, List.mem_cons] at hm
      rcases hm with hm | hm
      · exact Or.inl hm
      · exact Or.inr (List.mem_cons_of_mem _ hm)
    · simp only [hk, if_false, List.mem_cons] at hm
      rcases hm with hm | hm
      · exact Or.inr (hm ▸ List.mem_cons_self _ _)
      · rcases ih hm with h1 | h1
        · exact Or.inl h1
        · exact Or.inr (List.mem_cons_of_mem _ h1)

theorem mapKeys_mapInsert (k : Int) (v : Ptr) :
    ∀ (m : List (Int × Ptr)),
      mapKeys (mapInsert k v m) = if k ∈ mapKeys m then mapKeys m else mapKeys m ++ [k] := by
  intro m
  induction m with
  | nil => simp [mapInsert, mapKeys]
  | cons a rest ih =>
    obtain ⟨k', v'⟩ := a
    unfold mapInsert
    by_cases hk : k' = k
    · subst hk
      simp [mapKeys]
    · have hk' : ¬ k = k' := fun hc => hk hc.symm
      simp only [hk, if_false]
      simp only [mapKeys, List.map_cons, List.mem_cons, hk', false_or] at ih ⊢
      rw [ih]
      split <;> simp

theorem mapKeys_mapInsert_nodup {k : Int} {v : Ptr} {m : List (Int × Ptr)}
    (hnd : (mapKeys m).Nodup) : (mapKeys (mapInsert k v m)).Nodup := by
  rw [mapKeys_mapInsert]
  split
  · exact hnd
  · rename_i hk
    rw [List.nodup_append]
    exact ⟨hnd, List.nodup_singleton k, by
      intro x hx hx'
      simp only [List.mem_singleton] at hx'
      exact hk (hx' ▸ hx)⟩

/-- A step that keeps every Number, adds no cell, and changes a children map only by storing an
allocated element under its own Number keeps the heap keyed by Number. -/
theorem keyed_step {h h' : Heap} (a : KeepsIdentity h h') (hk : KeyedByNumber h)
    (hcells : ∀ (q : Ptr) (x' : Element), h'[q]? = some x' → ∃ x : Element, h[q]? = some x ∧
      (x'.Children = x.Children ∨
        ∃ (k : Int) (c : Ptr) (cc : Element),
          x'.Children = mapInsert k c x.Children ∧ h[c]? = some cc ∧ cc.Number = k)) :
    KeyedByNumber h' := by
  intro q x' hq
  obtain ⟨x, hx, hch⟩ := hcells q x' hq
  obtain ⟨hnd, hent⟩ := hk q x hx
  have hold : ∀ kc ∈ x.Children, ∃ c, h'[kc.2]? = some c ∧ c.Number = kc.1 := by
    intro kc hkc
    obtain ⟨c, hc, hn⟩ := hent kc hkc
    obtain ⟨c', hc', hn', _⟩ := a kc.2 c hc
    exact ⟨c', hc', hn'.trans hn⟩
  rcases hch with hch | ⟨k, c, cc, hch, hcc, hnum⟩
  · rw [hch]
    exact ⟨hnd, hold⟩
  · rw [hch]
    refine ⟨mapKeys_mapInsert_nodup hnd, ?_⟩
    intro kc hkc
    rcases mem_mapInsert hkc with rfl | hkc
    · obtain ⟨c', hc', hn', _⟩ := a c cc hcc
      exact ⟨c', hc', hn'.trans hnum⟩
    · exact hold kc hkc

theorem AddChild_inv {h h' : Heap} {p c : Ptr} {er : Option Error}
    (hs : AddChild h p c = some (h', er)) :
    ∃ e ce x, h[p]? = some e ∧ h[c]? = some ce ∧
      (h.set p (e.withChild ce.Number c))[c]? = some x ∧
      h' = (h.set p (e.withChild ce.Number c)).set c (x.withParent p) := by
  unfold AddChild at hs
  split at hs
  · rename_i e ce he hc
    split at hs
    · simp at hs
    · rename_i h2 er2 hsp
      simp only [Option.some.injEq, Prod.mk.injEq] at hs
      unfold SetParent at hsp
      split at hsp
      · simp at hsp
      · rename_i x hx
        simp only [Option.some.injEq, Prod.mk.injEq] at hsp
        exact ⟨e, ce, x, he, hc, hx, by rw [← hs.1, ← hsp.1]; rfl⟩
  · simp at hs

theorem AddChild_keyed {h h' : Heap} {p c : Ptr} {er : Option Error}
    (hk : KeyedByNumber h) (hs : AddChild h p c = some (h', er)) : KeyedByNumber h' := by
  obtain ⟨e, ce, x, he, hc, hx, rfl⟩ := AddChild_inv hs
  refine keyed_step (AddChild_keepsIdentity hs) hk ?_
  intro q x' hq
  have hplt : p < h.length := getElem?_lt he
  by_cases hqc : q = c
  · subst hqc
    rw [List.getElem?_set_self (getElem?_lt hx)] at hq
    simp only [Option.some.injEq] at hq
    subst hq
    by_cases hqp : p = q
    · subst hqp
      rw [List.getElem?_set_self hplt] at hx
      simp only [Option.some.injEq] at hx
      subst hx
      exact ⟨e, he, Or.inr ⟨ce.Number, p, ce, rfl, hc, rfl⟩⟩
    · rw [List.getElem?_set_ne hqp] at hx
      rw [hc] at hx
      simp only [Option.some.injEq] at hx
      subst hx
      exact ⟨ce, hc, Or.inl rfl⟩
  · rw [List.getElem?_set_ne (Ne.symm hqc)] at hq
    by_cases hqp : p = q
    · subst hqp
      rw [List.getElem?_set_self hplt] at hq
      simp only [Option.some.injEq] at hq
      subst hq
      exact ⟨e, he, Or.inr ⟨ce.Number, c, ce, rfl, hc, rfl⟩⟩
    · rw [List.getElem?_set_ne hqp] at hq
      exact ⟨x', hq, Or.inl rfl⟩

theorem assignContent_keyed {h : Heap} {p : Ptr} {e : Element} (hk : KeyedByNumber h)
    (he : h[p]? = some e) (c : Option EmberContents) :
    KeyedByNumber (assignContent h p e c) := by
  cases c with
  | none => exact hk
  | some x =>
    refine keyed_step (keepsIdentity_set he rfl rfl) hk ?_
    intro q x' hq
    simp only [assignContent] at hq
    by_cases hqp : p = q
    · subst hqp
      rw [List.getElem?_set_self (getElem?_lt he)] at hq
      simp only [Option.some.injEq] at hq
      subst hq
      exact ⟨e, he, Or.inl rfl⟩
    · rw [List.getElem?_set_ne hqp] at hq
      exact ⟨x', hq, Or.inl rfl⟩

theorem updateLoop_keyed {recur : Heap → Ptr → Ptr → Option UpdateResult}
    (hrec : ∀ h a b r, KeyedByNumber h → recur h a b = some r → KeyedByNumber r.heap)
    (el : Ptr) :
    ∀ (entries : List (Int × Ptr)) (h : Heap) (tr : List Event) (r : UpdateResult),
      KeyedByNumber h → updateLoop recur el entries h tr = some r → KeyedByNumber r.heap := by
  intro entries
  induction entries with
  | nil =>
    intro h tr r hk hr
    simp only [updateLoop, Option.some.injEq] at hr
    subst hr
    exact hk
  | cons hd rest ih =>
    intro h tr r hk hr
    obtain ⟨number, newChild⟩ := hd
    obtain ⟨e, he, hcase⟩ := updateLoop_cons_inv hr
    rcases hcase with ⟨_, h', hadd, hrest⟩ | ⟨child, r', _, hr', hcase2⟩
    · exact ih _ _ _ (AddChild_keyed hk hadd) hrest
    · rcases hcase2 with ⟨_, hrest⟩ | ⟨err, _, rfl⟩
      · exact ih _ _ _ (hrec _ _ _ r' hk hr') hrest
      · exact hrec _ _ _ r' hk hr'

theorem Update_keyed (ord : MapOrder) :
    ∀ (fuel : Nat) (h : Heap) (a b : Ptr) (r : UpdateResult),
      KeyedByNumber h → Update ord fuel h a b = some r → KeyedByNumber r.heap := by
  intro fuel
  induction fuel with
  | zero => intro h a b r _ hr; simp [Update] at hr
  | succ fuel ih =>
    intro h a b r hk hr
    obtain ⟨e, n, he, hn, hcase⟩ := Update_succ_inv hr
    rcases hcase with ⟨_, rfl⟩ | ⟨_, _, r', evs, hloop, _, rfl⟩
    · exact hk
    · exact updateLoop_keyed ih a _ _ _ r' (assignContent_keyed hk he _) hloop

theorem NewElement_keyed {h : Heap} (hk : KeyedByNumber h) (tag : Nat) (number : Int)
    (creator : Option ContentCreator) : KeyedByNumber (NewElement h tag number creator).1 := by
  intro q x hq
  simp only [NewElement] at hq
  by_cases hql : q < h.length
  · rw [List.getElem?_append_left hql] at hq
    obtain ⟨hnd, hent⟩ := hk q x hq
    refine ⟨hnd, ?_⟩
    intro kc hkc
    obtain ⟨c, hc, hn⟩ := hent kc hkc
    exact ⟨c, by
      simp only [NewElement]
      rw [List.getElem?_append_left (getElem?_lt hc)]; exact hc, hn⟩
  · rw [List.getElem?_append_right (by simp only [Ptr] at *; omega)] at hq
    have hmem := List.getElem?_mem hq
    simp only [List.mem_singleton] at hmem
    subst hmem
    exact ⟨by simp [mapKeys], by intro kc hkc; simp at hkc⟩

/-- C16: in every heap built from `NewElement` using only `AddChild` and `Update`, every entry of
every Children map is an element stored under its own Number and every map has each key once,
so no two children of one parent have the same Number. -/
theorem C16_sibling_numbers_unique (h : Heap) (hb : Built h) :
    KeyedByNumber h ∧
    ∀ (p : Ptr) (e : Element), h[p]? = some e →
      ∀ kc ∈ e.Children, ∀ kc' ∈ e.Children, ∀ c c', h[kc.2]? = some c → h[kc'.2]? = some c' →
        c.Number = c'.Number → kc = kc' := by
  have hk : KeyedByNumber h := by
    induction hb with
    | empty => intro q x hq; simp at hq
    | newElement h tag number creator _ ih => exact NewElement_keyed ih tag number creator
    | addChild h h' element child err _ hadd ih => exact AddChild_keyed ih hadd
    | update ord fuel h element newElement res _ hup ih =>
      exact Update_keyed ord fuel h element newElement res ih hup
  refine ⟨hk, ?_⟩
  intro p e he kc hkc kc' hkc' c c' hc hc' hnum
  obtain ⟨hnd, hent⟩ := hk p e he
  obtain ⟨c1, hc1, hn1⟩ := hent kc hkc
  obtain ⟨c2, hc2, hn2⟩ := hent kc' hkc'
  rw [hc] at hc1
  rw [hc'] at hc2
  simp only [Option.some.injEq] at hc1 hc2
  subst hc1 hc2
  have hkey : kc.1 = kc'.1 := by rw [← hn1, ← hn2]; exact hnum
  have l1 := mapLookup_of_mem hnd (show (kc.1, kc.2) ∈ e.Children from hkc)
  have l2 := mapLookup_of_mem hnd (show (kc'.1, kc'.2) ∈ e.Children from hkc')
  rw [hkey, l2] at l1
  simp only [Option.some.injEq] at l1
  exact Prod.ext hkey l1.symm

theorem C16_witness :
    ∃ h er, AddChild heapTwoNew 0 1 = some (h, er) ∧ Built h ∧ KeyedByNumber h ∧
      ∀ (p : Ptr) (e : Element), h[p]? = some e →
        ∀ kc ∈ e.Children, ∀ kc' ∈ e.Children, ∀ c c', h[kc.2]? = some c →
          h[kc'.2]? = some c' → c.Number = c'.Number → kc = kc' :=
  have hb : Built heapTwoNew :=
    Built.newElement _ 1 5 none (Built.newElement _ 0 1 none Built.empty)
  have hadd : AddChild heapTwoNew 0 1 = some ((AddChild heapTwoNew 0 1).get rfl) := rfl
  ⟨_, _, hadd, Built.addChild _ _ 0 1 _ hb hadd,
    C16_sibling_numbers_unique _ (Built.addChild _ _ 0 1 _ hb hadd)⟩

/-! ## C17: listener sets -/

theorem set_self {h : Heap} {p : Ptr} {e : Element} (he : h[p]? = some e) : h.set p e = h := by
  apply List.ext_getElem?
  intro q
  by_cases hq : p = q
  · subst hq
    rw [List.getElem?_set_self (getElem?_lt he), he]
  · rw [List.getElem?_set_ne hq]

theorem keepsListeners_of_sameFixed {h h' : Heap} (a : SameFixed h h') : KeepsListeners h h' := by
  intro p e he
  obtain ⟨e', he', hf⟩ := a.cell he
  simp only [Element.fixed, Prod.mk.injEq] at hf
  exact ⟨e', he', hf.2.2.1⟩

theorem Update_ownCalls (ord : MapOrder) (fuel : Nat) (h : Heap) (resident incoming : Ptr)
    (e n : Element) (res : UpdateResult) (he : h[resident]? = some e)
    (hn : h[incoming]? = some n) (hset : e.listeners.Nodup)
    (hres : Update ord fuel h resident incoming = some res) (l : Listener) :
    ownCalls l res.trace =
      if (e.Number = n.Number ∧ e.tag = n.tag) ∧ l ∈ e.listeners
      then [⟨0, l, resident, res.err⟩] else [] := by
  cases fuel with
  | zero => simp [Update] at hres
  | succ fuel =>
    obtain ⟨e1, n1, he1, hn1, hcase⟩ := Update_succ_inv hres
    rw [he] at he1
    rw [hn] at hn1
    simp only [Option.some.injEq] at he1 hn1
    subst he1 hn1
    rcases hcase with ⟨hmis, rfl⟩ | ⟨hnum, htag, r', evs, hloop, hev, rfl⟩
    · have hno : ¬ (e.Number = n.Number ∧ e.tag = n.tag) := by
        rintro ⟨h1, h2⟩
        rcases hmis with hmis | hmis
        · exact hmis h1
        · exact hmis h2
      simp [ownCalls, hno]
    · obtain ⟨extra, hx, hdepth⟩ := updateLoop_trace resident _ _ _ _ hloop
      have hfix : SameFixed h r'.heap :=
        (assignContent_sameFixed he _).trans_fixed
          (updateLoop_sameFixed (Update_sameFixed ord fuel) resident _ _ _ r' hloop)
      obtain ⟨e', he', hfe⟩ := hfix.cell he
      have hls : e'.listeners = e.listeners := by
        simp only [Element.fixed, Prod.mk.injEq] at hfe
        exact hfe.2.2.1
      simp only [updateListeners, he', Option.some.injEq] at hev
      subst hev
      have hperm := ord.listeners_perm e.listeners
      simp only [List.nil_append] at hx
      show ownCalls l (r'.trace ++ _) = _
      unfold ownCalls
      rw [List.filter_append]
      have h1 := ownCalls_of_nested l r'.trace (by rw [hx]; exact hdepth)
      unfold ownCalls at h1
      rw [h1, List.nil_append, hls]
      have h2 := ownCalls_notify l resident r'.err (ord.listeners e.listeners)
        (hperm.nodup_iff.mpr hset)
      unfold ownCalls at h2
      rw [h2]
      simp only [hperm.mem_iff, hnum, htag, and_self, true_and]

/-- C17 (as stated) fails: in `heapTopClash` listener 7 is registered on the resident, the call
`Update(resident, incoming)` is stopped by the identity check (tags 3 and 4), and it delivers to
no listener: the number of its `Receive` calls on listener 7 is zero, not one. -/
theorem C17_counterexample :
    ∃ e res, heapTopClash[0]? = some e ∧ 7 ∈ e.listeners ∧
      Update MapOrder.reversed 1 heapTopClash 0 2 = some res ∧
      callsOn 7 res.trace = [] ∧ KeepsListeners heapTopClash res.heap :=
  ⟨_, _, rfl, by decide, rfl, rfl, fun _ e he => ⟨e, he, rfl⟩⟩

/-- C17 (amended): for every element with listener set `e.listeners`: `AddListener(l)` twice
leaves the heap that one `AddListener(l)` leaves, and the set is then the old one with `l`;
`RemoveListener(l)` twice leaves the heap that one leaves, and the set is then the old one
without `l`; `RemoveListener` of an unregistered listener leaves the heap unchanged;
`SetContents` returns, makes exactly one `Receive` call on each registered listener and none on
any other, and leaves every listener set unchanged; `Update` on resident and incoming trees,
with fuel above their depth, returns, leaves every listener set unchanged, and the call itself
makes exactly one `Receive` call on each registered listener when Number and tag agree and none
when the identity check stops it.  The last part states the same for every returning call of
`Update` on any heap. -/
theorem C17_listener_set (h : Heap) (p : Ptr) (e : Element) (he : h[p]? = some e)
    (hset : e.listeners.Nodup) (l : Listener) :
    (∃ h1 e1, AddListener h p l = some h1 ∧ AddListener h1 p l = some h1 ∧
      h1[p]? = some e1 ∧ e1.listeners.Nodup ∧
      ∀ x, x ∈ e1.listeners ↔ x = l ∨ x ∈ e.listeners) ∧
    (∃ h1 e1, RemoveListener h p l = some h1 ∧ RemoveListener h1 p l = some h1 ∧
      h1[p]? = some e1 ∧ e1.listeners.Nodup ∧
      ∀ x, x ∈ e1.listeners ↔ x ≠ l ∧ x ∈ e.listeners) ∧
    (l ∉ e.listeners → RemoveListener h p l = some h) ∧
    (∀ (ord : MapOrder) (c : EmberContents), ∃ res, SetContents ord h p (some c) = some res ∧
      KeepsListeners h res.heap ∧
      ∀ x, callsOn x res.trace = if x ∈ e.listeners then [⟨0, x, p, none⟩] else []) ∧
    (∀ (ord : MapOrder) (depth fuel : Nat) (incoming : Ptr) (n : Element),
      h[incoming]? = some n → DisjointTrees (depth + 1) h p incoming → depth < fuel →
      ∃ res, Update ord fuel h p incoming = some res ∧ KeepsListeners h res.heap ∧
        ∀ x, ownCalls x res.trace =
          if (e.Number = n.Number ∧ e.tag = n.tag) ∧ x ∈ e.listeners
          then [⟨0, x, p, res.err⟩] else []) ∧
    (∀ (ord : MapOrder) (fuel : Nat) (incoming : Ptr) (n : Element) (res : UpdateResult),
      h[incoming]? = some n → Update ord fuel h p incoming = some res →
      KeepsListeners h res.heap ∧
      ∀ x, ownCalls x res.trace =
        if (e.Number = n.Number ∧ e.tag = n.tag) ∧ x ∈ e.listeners
        then [⟨0, x, p, res.err⟩] else []) := by
  have hplt : p < h.length := getElem?_lt he
  have hgen : ∀ (ord : MapOrder) (fuel : Nat) (incoming : Ptr) (n : Element)
      (res : UpdateResult), h[incoming]? = some n → Update ord fuel h p incoming = some res →
      KeepsListeners h res.heap ∧
      ∀ x, ownCalls x res.trace =
        if (e.Number = n.Number ∧ e.tag = n.tag) ∧ x ∈ e.listeners
        then [⟨0, x, p, res.err⟩] else [] := by
    intro ord fuel incoming n res hn hres
    exact ⟨keepsListeners_of_sameFixed (Update_sameFixed ord fuel h p incoming res hres),
      fun x => Update_ownCalls ord fuel h p incoming e n res he hn hset hres x⟩
  refine ⟨?_, ?_, ?_, ?_, ?_, hgen⟩
  · by_cases hl : l ∈ e.listeners
    · have hadd : AddListener h p l = some h := by
        simp only [AddListener, he, hl, if_true]
        exact congrArg some (set_self he)
      exact ⟨h, e, hadd, hadd, he, hset, fun x =>
        ⟨fun hx => Or.inr hx, fun hx => hx.elim (fun hxl => hxl ▸ hl) id⟩⟩
    · have hcell : (h.set p { e with listeners := e.listeners ++ [l] })[p]? =
          some { e with listeners := e.listeners ++ [l] } := List.getElem?_set_self hplt
      refine ⟨h.set p { e with listeners := e.listeners ++ [l] },
        { e with listeners := e.listeners ++ [l] }, ?_, ?_, hcell, ?_, ?_⟩
      · simp only [AddListener, he, hl, if_false]
      · simp only [AddListener, hcell, List.mem_append, List.mem_singleton, or_true, if_true]
        exact congrArg some (set_self hcell)
      · show (e.listeners ++ [l]).Nodup
        rw [List.nodup_append]
        exact ⟨hset, List.nodup_singleton l, by
          intro x hx hx'
          simp only [List.mem_singleton] at hx'
          exact hl (hx' ▸ hx)⟩
      · intro x
        show x ∈ e.listeners ++ [l] ↔ _
        simp only [List.mem_append, List.mem_singleton]
        exact or_comm
  · have hcell : (h.set p { e with listeners := e.listeners.filter fun l' => l' ≠ l })[p]? =
        some { e with listeners := e.listeners.filter fun l' => l' ≠ l } :=
      List.getElem?_set_self hplt
    refine ⟨_, _, ?_, ?_, hcell, ?_, ?_⟩
    · simp only [RemoveListener, he]
    · simp only [RemoveListener, hcell]
      have hff : (e.listeners.filter fun l' => l' ≠ l).filter (fun l' => l' ≠ l) =
          e.listeners.filter fun l' => l' ≠ l := by
        rw [List.filter_eq_self]
        intro a ha
        exact (List.mem_filter.mp ha).2
      rw [hff]
      exact congrArg some (set_self hcell)
    · exact hset.filter _
    · intro x
      show x ∈ e.listeners.filter (fun l' => l' ≠ l) ↔ _
      rw [List.mem_filter]
      simp only [ne_eq, decide_eq_true_eq]
      exact and_comm
  · intro hl
    have hff : (e.listeners.filter fun l' => l' ≠ l) = e.listeners := by
      rw [List.filter_eq_self]
      intro a ha
      simp only [ne_eq, decide_eq_true_eq]
      rintro rfl
      exact hl ha
    simp only [RemoveListener, he]
    rw [hff]
    exact congrArg some (set_self he)
  · intro ord c
    have hcell : (h.set p { e with contents := some c })[p]? =
        some { e with contents := some c } := List.getElem?_set_self hplt
    refine ⟨⟨h.set p { e with contents := some c }, none,
      (ord.listeners e.listeners).map fun l' => (⟨0, l', p, none⟩ : Event)⟩, ?_, ?_, ?_⟩
    · simp only [SetContents, he, updateListeners, hcell]
    · intro q x hq
      by_cases hqp : p = q
      · subst hqp
        rw [he] at hq
        simp only [Option.some.injEq] at hq
        subst hq
        exact ⟨_, hcell, rfl⟩
      · exact ⟨x, by rw [List.getElem?_set_ne hqp]; exact hq, rfl⟩
    · intro x
      have hperm := ord.listeners_perm e.listeners
      show callsOn x ((ord.listeners e.listeners).map _) = _
      rw [callsOn_notify x p none _ (hperm.nodup_iff.mpr hset)]
      simp only [hperm.mem_iff]
  · intro ord depth fuel incoming n hn t hf
    obtain ⟨res, hrun, _⟩ := Update_tree ord (depth + 1) fuel (by omega) h p incoming t
    exact ⟨res, hrun, hgen ord fuel incoming n res hn hrun⟩

/-- C17 (amended) at concrete inputs: on element 0 of `heapTagClash` (listener set 7), adding
listener 8 twice is adding it once, removing the unregistered listener 9 changes nothing, and
`SetContents` makes one `Receive` call on listener 7 and none on listener 8; and the call
`Update` on the trees at 0 and 4 of `heapMerge` returns without error, makes one `Receive` call
on listener 7 of the resident and keeps the listener sets. -/
theorem C17_witness :
    (∃ h1, AddListener heapTagClash 0 8 = some h1 ∧ AddListener h1 0 8 = some h1) ∧
    RemoveListener heapTagClash 0 9 = some heapTagClash ∧
    (∃ res, SetContents MapOrder.stored heapTagClash 0 (some (EmberContents.other 3)) = some res ∧
      callsOn 7 res.trace = [⟨0, 7, 0, none⟩] ∧ callsOn 8 res.trace = []) ∧
    ∃ res, Update MapOrder.stored 3 heapMerge 0 4 = some res ∧ res.err = none ∧
      KeepsListeners heapMerge res.heap ∧ ownCalls 7 res.trace = [⟨0, 7, 0, none⟩] := by
  have key := C17_listener_set heapTagClash 0 (Element.plain 1 0 [(5, 1)] [7]) rfl (by decide) 8
  have key9 := C17_listener_set heapTagClash 0 (Element.plain 1 0 [(5, 1)] [7]) rfl (by decide) 9
  have keyU := (C17_listener_set heapMerge 0 (Element.plain 1 0 [(5, 1), (6, 2)] [7]) rfl
    (by decide) 7).2.2.2.2.1 MapOrder.stored 2 3 4 _ rfl
    (disjointTrees_of_check (by decide) (by decide) (by decide)) (by decide)
  obtain ⟨resU, hrunU, hkeepU, hcallsU⟩ := keyU
  have hr : Update MapOrder.stored 3 heapMerge 0 4 = some _ := rfl
  rw [hr] at hrunU
  simp only [Option.some.injEq] at hrunU
  subst hrunU
  exact ⟨let ⟨h1, _, ha, hb, _⟩ := key.1; ⟨h1, ha, hb⟩,
   key9.2.2.1 (by decide),
   let ⟨res, hs, _, hc⟩ := key.2.2.2.1 MapOrder.stored (EmberContents.other 3)
   ⟨res, hs, hc 7, hc 8⟩,
   ⟨_, rfl, rfl, hkeepU, hcallsU 7⟩⟩

/-! ## What a successful merge leaves in each cell -/

/-- On success, what the loop of `Update` leaves in the region of each incoming entry: an adopted
child has only its parent set; a matched child holds what the nested `Update` left. -/
theorem updateLoop_cells {n : Nat} {recur : Heap → Ptr → Ptr → Option UpdateResult}
    (hrec : RecSpec n recur) {h : Heap} {r : Ptr} {M E : List (Int × Ptr)}
    (F : LoopFacts n h r M E) :
    ∀ (rest : List (Int × Ptr)), (∀ kc ∈ rest, kc ∈ E) → (mapKeys rest).Nodup →
      ∀ (hj : Heap) (tr : List Event) (ej : Element), hj[r]? = some ej →
        (∀ kc ∈ rest, mapLookup kc.1 ej.Children = mapLookup kc.1 M) →
        (∀ kc ∈ rest, ∀ q ∈ region n h M kc, hj[q]? = h[q]?) →
        ∀ res, updateLoop recur r rest hj tr = some res → res.err = none →
          ∀ kc ∈ rest,
            (mapLookup kc.1 M = none → ∃ cn, h[kc.2]? = some cn ∧
              res.heap[kc.2]? = some (cn.withParent r) ∧
              ∀ q ∈ footprint n h kc.2, q ≠ kc.2 → res.heap[q]? = h[q]?) ∧
            (∀ c, mapLookup kc.1 M = some c → ∃ hk resk,
              (∀ q ∈ region n h M kc, hk[q]? = h[q]?) ∧ recur hk c kc.2 = some resk ∧
              resk.err = none ∧ ∀ q ∈ region n h M kc, res.heap[q]? = resk.heap[q]?) := by
  intro rest
  induction rest with
  | nil => intro _ _ _ _ _ _ _ _ _ _ _ kc hkc; simp at hkc
  | cons kc rest' ih =>
    intro hsub hnd hj tr ej hr hlook hreg res hrun hnone
    obtain ⟨k, nc⟩ := kc
    have hE : (k, nc) ∈ E := hsub _ (List.mem_cons_self _ _)
    have hsub' : ∀ kc ∈ rest', kc ∈ E := fun kc hkc => hsub kc (List.mem_cons_of_mem _ hkc)
    simp only [mapKeys, List.map_cons, List.nodup_cons] at hnd
    have hknot : ∀ kc ∈ rest', kc.1 ≠ k := by
      intro kc hkc hk
      exact hnd.1 (hk ▸ List.mem_map.mpr ⟨kc, hkc, rfl⟩)
    obtain ⟨tnc, cn, hcn, hnum⟩ := F.incoming _ hE
    obtain ⟨m, rfl⟩ := tnc.pos
    have hncreg : nc ∈ region (m + 1) h M (k, nc) :=
      List.mem_append_left _ (footprint_self_mem m h nc)
    have hjnc : hj[nc]? = some cn := by
      rw [hreg _ (List.mem_cons_self _ _) nc hncreg]; exact hcn
    have hrnc : r ≠ nc := fun hc => F.apart _ hE (hc ▸ hncreg)
    have hdis : ∀ kc ∈ rest', ∀ q ∈ region (m + 1) h M kc, q ∉ region (m + 1) h M (k, nc) := by
      intro kc hkc q hq hq'
      exact F.disjoint _ (hsub' kc hkc) _ hE (hknot kc hkc) hq hq'
    have hdis' : ∀ q ∈ region (m + 1) h M (k, nc), ∀ kc ∈ rest', q ∉ region (m + 1) h M kc :=
      fun q hq kc hkc hq' => hdis kc hkc q hq' hq
    have hlook' : ∀ kc ∈ rest', mapLookup kc.1 ej.Children = mapLookup kc.1 M :=
      fun kc hkc => hlook kc (List.mem_cons_of_mem _ hkc)
    have hlk : mapLookup k ej.Children = mapLookup k M := hlook _ (List.mem_cons_self _ _)
    cases hl : mapLookup k ej.Children with
    | none =>
      have hadd := AddChild_eq hr hjnc hrnc
      rw [hnum] at hadd
      obtain ⟨hj', hhj'⟩ : ∃ hj' : Heap,
          hj' = (hj.set r (ej.withChild k nc)).set nc (cn.withParent r) := ⟨_, rfl⟩
      rw [← hhj'] at hadd
      have hrlt : r < hj.length := getElem?_lt hr
      have hj'r : hj'[r]? = some (ej.withChild k nc) := by
        rw [hhj', List.getElem?_set_ne (Ne.symm hrnc), List.getElem?_set_self hrlt]
      have hj'nc : hj'[nc]? = some (cn.withParent r) := by
        rw [hhj']
        apply List.getElem?_set_self
        rw [List.length_set]
        exact getElem?_lt hjnc
      have hj'o : ∀ q, q ≠ r → q ≠ nc → hj'[q]? = hj[q]? := by
        intro q h1 h2
        rw [hhj', List.getElem?_set_ne (Ne.symm h2), List.getElem?_set_ne (Ne.symm h1)]
      have hstep : updateLoop recur r ((k, nc) :: rest') hj tr =
          updateLoop recur r rest' hj' tr := by
        simp only [updateLoop, hr, hl, hadd]
      rw [hstep] at hrun
      have hlookj : ∀ kc ∈ rest', mapLookup kc.1 (ej.withChild k nc).Children =
          mapLookup kc.1 M := fun kc hkc => by
        rw [← hlook' kc hkc]
        simp only [Element.withChild, mapLookup_mapInsert, hknot kc hkc, if_false]
      have hregj : ∀ kc ∈ rest', ∀ q ∈ region (m + 1) h M kc, hj'[q]? = h[q]? :=
        fun kc hkc q hq => by
          have hqr : q ≠ r := fun hc => F.apart _ (hsub' kc hkc) (hc ▸ hq)
          have hqnc : q ≠ nc := fun hc => hdis kc hkc q hq (hc ▸ hncreg)
          rw [hj'o q hqr hqnc]
          exact hreg kc (List.mem_cons_of_mem _ hkc) q hq
      obtain ⟨res0, _, hrun0, _, _, hframe, _⟩ :=
        updateLoop_tree hrec F rest' hsub' hnd.2 hj' tr (ej.withChild k nc) hj'r hlookj hregj
      rw [hrun] at hrun0
      simp only [Option.some.injEq] at hrun0
      subst hrun0
      intro kc hkc
      rcases List.mem_cons.mp hkc with rfl | hkc
      · refine ⟨fun _ => ⟨cn, hcn, ?_, ?_⟩, ?_⟩
        · show res.heap[nc]? = _
          rw [hframe nc (Ne.symm hrnc) (hdis' nc hncreg), hj'nc]
        · intro q hq hqnc
          have hqreg : q ∈ region (m + 1) h M (k, nc) := List.mem_append_left _ hq
          have hqr : q ≠ r := fun hc => F.apart _ hE (hc ▸ hqreg)
          rw [hframe q hqr (hdis' q hqreg), hj'o q hqr hqnc]
          exact hreg _ (List.mem_cons_self _ _) q hqreg
        · intro c hc
          rw [← hlk, hl] at hc
          simp at hc
      · exact ih hsub' hnd.2 hj' tr (ej.withChild k nc) hj'r hlookj hregj res hrun hnone kc hkc
    | some c =>
      have hlM : mapLookup k M = some c := by rw [← hlk]; exact hl
      have hregeq : region (m + 1) h M (k, nc) =
          footprint (m + 1) h nc ++ footprint (m + 1) h c := by
        simp only [region, hlM]
      have hag : ∀ q ∈ footprint (m + 1) h c ++ footprint (m + 1) h nc, hj[q]? = h[q]? := by
        intro q hq
        apply hreg _ (List.mem_cons_self _ _) q
        rw [hregeq]
        rcases List.mem_append.mp hq with hq | hq
        · exact List.mem_append_right _ hq
        · exact List.mem_append_left _ hq
      obtain ⟨tj, fc, fnc⟩ := DisjointTrees_congr hag (F.paired _ hE c hlM)
      obtain ⟨res1, hrec1, hfr1, hev1, herr1⟩ := hrec hj c nc tj
      rw [fc, fnc] at hfr1
      have hout : ∀ q, q ∉ region (m + 1) h M (k, nc) → res1.heap[q]? = hj[q]? := by
        intro q hq
        apply hfr1 q
        intro hq'
        apply hq
        rw [hregeq]
        rcases List.mem_append.mp hq' with hq' | hq'
        · exact List.mem_append_right _ hq'
        · exact List.mem_append_left _ hq'
      have hr1 : res1.heap[r]? = some ej := by
        rw [hout r (F.apart _ hE)]; exact hr
      cases herr1v : res1.err with
      | some er =>
        have hstep : updateLoop recur r ((k, nc) :: rest') hj tr =
            some ⟨res1.heap, some er, tr ++ res1.trace.map Event.nested⟩ := by
          simp only [updateLoop, hr, hl, hrec1, herr1v]
        rw [hstep] at hrun
        simp only [Option.some.injEq] at hrun
        subst hrun
        simp at hnone
      | none =>
        have hstep : updateLoop recur r ((k, nc) :: rest') hj tr =
            updateLoop recur r rest' res1.heap (tr ++ res1.trace.map Event.nested) := by
          simp only [updateLoop, hr, hl, hrec1, herr1v]
        rw [hstep] at hrun
        have hregj : ∀ kc ∈ rest', ∀ q ∈ region (m + 1) h M kc, res1.heap[q]? = h[q]? :=
          fun kc hkc q hq => by
            rw [hout q (hdis kc hkc q hq)]
            exact hreg kc (List.mem_cons_of_mem _ hkc) q hq
        obtain ⟨res0, _, hrun0, _, _, hframe, _⟩ :=
          updateLoop_tree hrec F rest' hsub' hnd.2 res1.heap
            (tr ++ res1.trace.map Event.nested) ej hr1 hlook' hregj
        rw [hrun] at hrun0
        simp only [Option.some.injEq] at hrun0
        subst hrun0
        intro kc hkc
        rcases List.mem_cons.mp hkc with rfl | hkc
        · refine ⟨fun hc => ?_, ?_⟩
          · rw [hlM] at hc
            simp at hc
          · intro c' hc'
            rw [hlM] at hc'
            simp only [Option.some.injEq] at hc'
            subst hc'
            refine ⟨hj, res1, hreg _ (List.mem_cons_self _ _), hrec1, herr1v, ?_⟩
            intro q hq
            have hqr : q ≠ r := fun hc => F.apart _ hE (hc ▸ hq)
            exact hframe q hqr (hdis' q hq)
        · exact ih hsub' hnd.2 res1.heap _ ej hr1 hlook' hregj res hrun hnone kc hkc

/-- A successful `Update` on disjoint trees, started in a heap `hk` that agrees with `h` on the
two trees: the resident cell, the cells it leaves alone, and the region of each incoming entry. -/
theorem Update_cells (ord : MapOrder) {n f : Nat} (hrec : RecSpec n (Update ord f))
    {h hk : Heap} {r i : Ptr} {e m : Element} (t : DisjointTrees (n + 1) h r i)
    (he : h[r]? = some e) (hm : h[i]? = some m)
    (hag : ∀ q ∈ footprint (n + 1) h r ++ footprint (n + 1) h i, hk[q]? = h[q]?)
    {res : UpdateResult} (hrun : Update ord (f + 1) hk r i = some res) (hnone : res.err = none) :
    (∃ ef, res.heap[r]? = some ef ∧
      ef.sansChildren = (e.withContent m.contents).sansChildren ∧
      ∀ k0, mapLookup k0 ef.Children =
        match mapLookup k0 e.Children with
        | some c => some c
        | none => mapLookup k0 m.Children) ∧
    (∀ q, q ≠ r → (∀ kc ∈ m.Children, q ∉ region n h e.Children kc) →
      res.heap[q]? = hk[q]?) ∧
    (∀ kc ∈ m.Children,
      (mapLookup kc.1 e.Children = none → ∃ cn, h[kc.2]? = some cn ∧
        res.heap[kc.2]? = some (cn.withParent r) ∧
        ∀ q ∈ footprint n h kc.2, q ≠ kc.2 → res.heap[q]? = h[q]?) ∧
      (∀ c, mapLookup kc.1 e.Children = some c → ∃ hc resk,
        (∀ q ∈ region n h e.Children kc, hc[q]? = h[q]?) ∧
        Update ord f hc c kc.2 = some resk ∧ resk.err = none ∧
        ∀ q ∈ region n h e.Children kc, res.heap[q]? = resk.heap[q]?)) := by
  obtain ⟨F, hndm, hin, hrnot⟩ := loopFacts_of_disjointTrees t he hm
  have hperm := ord.children_perm m.Children
  have hndE : (mapKeys (ord.children m.Children)).Nodup :=
    (hperm.map Prod.fst).nodup_iff.mpr hndm
  have hkr : hk[r]? = some e := by
    rw [hag r (List.mem_append_left _ (footprint_self_mem n h r))]; exact he
  have hki : hk[i]? = some m := by
    rw [hag i (List.mem_append_right _ (footprint_self_mem n h i))]; exact hm
  have hregk : ∀ kc ∈ m.Children, ∀ q ∈ region n h e.Children kc, hk[q]? = h[q]? := by
    intro kc hkc q hq
    apply hag
    rcases List.mem_append.mp (hin kc hkc q hq) with hc | hc
    · exact List.mem_append_left _ (List.mem_of_mem_tail hc)
    · exact List.mem_append_right _ (List.mem_of_mem_tail hc)
  obtain ⟨e1, m1, he1, hm1, hcase⟩ := Update_succ_inv hrun
  rw [hkr] at he1
  rw [hki] at hm1
  simp only [Option.some.injEq] at he1 hm1
  subst he1 hm1
  rcases hcase with ⟨_, rfl⟩ | ⟨_, _, r', evs, hloop, _, rfl⟩
  · simp at hnone
  · have h1r := assignContent_self hkr m.contents
    have hlookj : ∀ kc ∈ ord.children m.Children,
        mapLookup kc.1 (e.withContent m.contents).Children = mapLookup kc.1 e.Children :=
      fun kc _ => by rw [Element.withContent_children]
    have hregj : ∀ kc ∈ ord.children m.Children, ∀ q ∈ region n h e.Children kc,
        (assignContent hk r e m.contents)[q]? = h[q]? := fun kc hkc q hq => by
      have hqr : q ≠ r := fun hc => F.apart kc (hperm.mem_iff.mp hkc) (hc ▸ hq)
      rw [assignContent_other hk r e m.contents hqr]
      exact hregk kc (hperm.mem_iff.mp hkc) q hq
    obtain ⟨res0, ef, hrun0, hef, hsans, hframe, _, _, _, hchar, _⟩ :=
      updateLoop_tree hrec (F.of_perm hperm) (ord.children m.Children) (fun _ hkc => hkc) hndE
        (assignContent hk r e m.contents) [] (e.withContent m.contents) h1r hlookj hregj
    rw [hloop] at hrun0
    simp only [Option.some.injEq] at hrun0
    subst hrun0
    have hcells := updateLoop_cells hrec (F.of_perm hperm) (ord.children m.Children)
      (fun _ hkc => hkc) hndE (assignContent hk r e m.contents) []
      (e.withContent m.contents) h1r hlookj hregj r' hloop hnone
    refine ⟨⟨ef, hef, hsans, ?_⟩, ?_, ?_⟩
    · intro k0
      rw [hchar hnone k0, Element.withContent_children, mapLookup_perm hndm hperm]
    · intro q hqr hq
      show r'.heap[q]? = _
      rw [hframe q hqr (fun kc hkc => hq kc (hperm.mem_iff.mp hkc))]
      exact assignContent_other hk r e m.contents hqr
    · intro kc hkc
      exact hcells kc (hperm.mem_iff.mpr hkc)

/-! ## C19: the order of the incoming children -/

theorem SameCell.of_eq {a b : Option Element} (hab : a = b) : SameCell a b := by
  subst hab
  exact ⟨rfl, fun _ => rfl⟩

/-- Two successful runs of `Update`, under any two visiting orders, from heaps that agree on the
two trees, leave the same element in every cell of the two trees. -/
theorem Update_order (ord1 ord2 : MapOrder) :
    ∀ (n f1 f2 : Nat), n ≤ f1 → n ≤ f2 → ∀ (h h1 h2 : Heap) (r i : Ptr),
      DisjointTrees n h r i →
      (∀ q ∈ footprint n h r ++ footprint n h i, h1[q]? = h[q]?) →
      (∀ q ∈ footprint n h r ++ footprint n h i, h2[q]? = h[q]?) →
      ∀ res1 res2, Update ord1 f1 h1 r i = some res1 → Update ord2 f2 h2 r i = some res2 →
        res1.err = none → res2.err = none →
        ∀ q ∈ footprint n h r ++ footprint n h i, SameCell res1.heap[q]? res2.heap[q]? := by
  intro n
  induction n with
  | zero =>
    intro f1 f2 _ _ h h1 h2 r i t
    exact absurd t.1 (by simp [TreeAt])
  | succ n ih =>
    intro f1 f2 hf1 hf2 h h1 h2 r i t hag1 hag2 res1 res2 hrun1 hrun2 hnone1 hnone2 q hq
    obtain ⟨g1, rfl⟩ : ∃ g, f1 = g + 1 := ⟨f1 - 1, by omega⟩
    obtain ⟨g2, rfl⟩ : ∃ g, f2 = g + 1 := ⟨f2 - 1, by omega⟩
    obtain ⟨e, he, _, _⟩ := t.1
    obtain ⟨m, hm, _, _⟩ := t.2.1
    obtain ⟨F, _, _, _⟩ := loopFacts_of_disjointTrees t he hm
    obtain ⟨⟨ef1, hef1, hs1, hch1⟩, hfr1, hc1⟩ :=
      Update_cells ord1 (Update_tree ord1 n g1 (by omega)) t he hm hag1 hrun1 hnone1
    obtain ⟨⟨ef2, hef2, hs2, hch2⟩, hfr2, hc2⟩ :=
      Update_cells ord2 (Update_tree ord2 n g2 (by omega)) t he hm hag2 hrun2 hnone2
    by_cases hqr : q = r
    · subst hqr
      rw [hef1, hef2]
      refine ⟨?_, ?_⟩
      · show some ef1.sansChildren = some ef2.sansChildren
        rw [hs1, hs2]
      · intro k
        show mapLookup k ef1.Children = mapLookup k ef2.Children
        rw [hch1 k, hch2 k]
    · by_cases hreg : ∃ kc ∈ m.Children, q ∈ region n h e.Children kc
      · obtain ⟨kc, hkc, hqreg⟩ := hreg
        cases hl : mapLookup kc.1 e.Children with
        | none =>
          obtain ⟨cn, hcn, hnc1, hoth1⟩ := (hc1 kc hkc).1 hl
          obtain ⟨cn2, hcn2, hnc2, hoth2⟩ := (hc2 kc hkc).1 hl
          rw [hcn] at hcn2
          simp only [Option.some.injEq] at hcn2
          subst hcn2
          have hqf : q ∈ footprint n h kc.2 := by
            simp only [region, hl, List.append_nil] at hqreg
            exact hqreg
          by_cases hqn : q = kc.2
          · subst hqn
            exact SameCell.of_eq (hnc1.trans hnc2.symm)
          · exact SameCell.of_eq ((hoth1 q hqf hqn).trans (hoth2 q hqf hqn).symm)
        | some c =>
          obtain ⟨k1, resk1, hagk1, hrunk1, hnonek1, hfin1⟩ := (hc1 kc hkc).2 c hl
          obtain ⟨k2, resk2, hagk2, hrunk2, hnonek2, hfin2⟩ := (hc2 kc hkc).2 c hl
          have hsub : ∀ x ∈ footprint n h c ++ footprint n h kc.2,
              x ∈ region n h e.Children kc := by
            intro x hx
            simp only [region, hl]
            rcases List.mem_append.mp hx with hx | hx
            · exact List.mem_append_right _ hx
            · exact List.mem_append_left _ hx
          have hqin : q ∈ footprint n h c ++ footprint n h kc.2 := by
            simp only [region, hl] at hqreg
            rcases List.mem_append.mp hqreg with hx | hx
            · exact List.mem_append_right _ hx
            · exact List.mem_append_left _ hx
          rw [hfin1 q hqreg, hfin2 q hqreg]
          exact ih g1 g2 (by omega) (by omega) h k1 k2 c kc.2 (F.paired kc hkc c hl)
            (fun x hx => hagk1 x (hsub x hx)) (fun x hx => hagk2 x (hsub x hx))
            resk1 resk2 hrunk1 hrunk2 hnonek1 hnonek2 q hqin
      · have hno : ∀ kc ∈ m.Children, q ∉ region n h e.Children kc :=
          fun kc hkc hc => hreg ⟨kc, hkc, hc⟩
        exact SameCell.of_eq (by
          rw [hfr1 q hqr hno, hfr2 q hqr hno, hag1 q hq, hag2 q hq])

/-- C19: for every resident and incoming tree (disjoint, children keyed by their own Number) and
any two processing orders of the children maps, `Update(resident, incoming)` returns under both
orders, it succeeds under one exactly when it succeeds under the other, and after success every
element holds the same fields and the same children under both orders. -/
theorem C19_order_independence (ord1 ord2 : MapOrder) (n f1 f2 : Nat) (h : Heap)
    (resident incoming : Ptr) (t : DisjointTrees n h resident incoming) (hf1 : n ≤ f1)
    (hf2 : n ≤ f2) :
    ∃ res1 res2, Update ord1 f1 h resident incoming = some res1 ∧
      Update ord2 f2 h resident incoming = some res2 ∧
      (res1.err = none ↔ res2.err = none) ∧
      (res1.err = none → SameCells res1.heap res2.heap) := by
  obtain ⟨res1, hrun1, hfr1, _, herr1⟩ := Update_tree ord1 n f1 hf1 h resident incoming t
  obtain ⟨res2, hrun2, hfr2, _, herr2⟩ := Update_tree ord2 n f2 hf2 h resident incoming t
  refine ⟨res1, res2, hrun1, hrun2, herr1.trans herr2.symm, ?_⟩
  intro hnone1 q
  have hnone2 : res2.err = none := herr2.mpr (herr1.mp hnone1)
  by_cases hq : q ∈ footprint n h resident ++ footprint n h incoming
  · exact Update_order ord1 ord2 n f1 f2 hf1 hf2 h h h resident incoming t
      (fun _ _ => rfl) (fun _ _ => rfl) res1 res2 hrun1 hrun2 hnone1 hnone2 q hq
  · exact SameCell.of_eq ((hfr1 q hq).trans (hfr2 q hq).symm)

/-- C19 at a concrete input: the two children of the incoming tree of `heapTwoIncoming` are
adopted in the stored order and in the reverse order; both calls succeed, the resident lists
its two entries in different orders, and every cell holds the same element. -/
theorem C19_witness :
    ∃ res1 res2 e1 e2, Update MapOrder.stored 2 heapTwoIncoming 0 1 = some res1 ∧
      Update MapOrder.reversed 2 heapTwoIncoming 0 1 = some res2 ∧
      res1.err = none ∧ res2.err = none ∧
      res1.heap[0]? = some e1 ∧ res2.heap[0]? = some e2 ∧
      e1.Children = [(5, 2), (6, 3)] ∧ e2.Children = [(6, 3), (5, 2)] ∧
      SameCells res1.heap res2.heap := by
  obtain ⟨res1, res2, hrun1, hrun2, _, hsame⟩ :=
    C19_order_independence MapOrder.stored MapOrder.reversed 2 2 2 heapTwoIncoming 0 1
      (disjointTrees_of_check (by decide) (by decide) (by decide)) (by decide) (by decide)
  have hr1 : Update MapOrder.stored 2 heapTwoIncoming 0 1 = some _ := rfl
  have hr2 : Update MapOrder.reversed 2 heapTwoIncoming 0 1 = some _ := rfl
  rw [hr1] at hrun1
  rw [hr2] at hrun2
  simp only [Option.some.injEq] at hrun1 hrun2
  subst hrun1 hrun2
  exact ⟨_, _, _, _, rfl, rfl, rfl, rfl, rfl, rfl, rfl, rfl, hsame rfl⟩

/-! ## C20: merging a second time -/

theorem AbsorbedIn.mono {S S' : List Ptr} (hsub : ∀ q ∈ S, q ∈ S') {h : Heap} :
    ∀ (n : Nat) (r i : Ptr), AbsorbedIn S n h r i → AbsorbedIn S' n h r i := by
  intro n
  induction n with
  | zero => intro r i a; exact a
  | succ n ih =>
    intro r i a
    obtain ⟨hr, hi, e, m, he, hm, hnum, htag, hcont, hch⟩ := a
    refine ⟨hsub r hr, hsub i hi, e, m, he, hm, hnum, htag, hcont, ?_⟩
    intro kc hkc
    obtain ⟨c, hl, hc⟩ := hch kc hkc
    exact ⟨c, hl, ih c kc.2 hc⟩

theorem AbsorbedIn.congr_in {S : List Ptr} {h h' : Heap} (hag : ∀ q ∈ S, h'[q]? = h[q]?) :
    ∀ (n : Nat) (r i : Ptr), AbsorbedIn S n h r i → AbsorbedIn S n h' r i := by
  intro n
  induction n with
  | zero => intro r i a; exact a
  | succ n ih =>
    intro r i a
    obtain ⟨hr, hi, e, m, he, hm, hnum, htag, hcont, hch⟩ := a
    refine ⟨hr, hi, e, m, by rw [hag r hr]; exact he, by rw [hag i hi]; exact hm, hnum, htag,
      hcont, ?_⟩
    intro kc hkc
    obtain ⟨c, hl, hc⟩ := hch kc hkc
    exact ⟨c, hl, ih c kc.2 hc⟩

theorem assignContent_same {h : Heap} {r : Ptr} {e : Element} (he : h[r]? = some e)
    {c : Option EmberContents} (hc : c = none ∨ e.contents = c) : assignContent h r e c = h := by
  cases c with
  | none => rfl
  | some x =>
    rcases hc with hc | hc
    · simp at hc
    · have hcell : ({ e with contents := some x } : Element) = e := by
        cases e
        simp only at hc
        subst hc
        rfl
      simp only [assignContent, hcell]
      exact set_self he

/-- When the resident already holds everything of the incoming element, `Update` succeeds and
leaves the heap as it is. -/
theorem Update_absorbed (ord : MapOrder) (S : List Ptr) :
    ∀ (n f : Nat), n ≤ f → ∀ (h : Heap) (r i : Ptr), AbsorbedIn S n h r i →
      ∃ tr, Update ord f h r i = some ⟨h, none, tr⟩ := by
  intro n
  induction n with
  | zero => intro f _ h r i a; exact absurd a (by simp [AbsorbedIn])
  | succ n ih =>
    intro f hf h r i a
    obtain ⟨g, rfl⟩ : ∃ g, f = g + 1 := ⟨f - 1, by omega⟩
    obtain ⟨_, _, e, m, he, hm, hnum, htag, hcont, hch⟩ := a
    have hloop : ∀ (entries : List (Int × Ptr)), (∀ kc ∈ entries, kc ∈ m.Children) →
        ∀ tr, ∃ tr', updateLoop (Update ord g) r entries h tr = some ⟨h, none, tr'⟩ := by
      intro entries
      induction entries with
      | nil => intro _ tr; exact ⟨tr, rfl⟩
      | cons kc rest ihl =>
        intro hsub tr
        obtain ⟨k, nc⟩ := kc
        obtain ⟨c, hl, hc⟩ := hch (k, nc) (hsub _ (List.mem_cons_self _ _))
        obtain ⟨tr1, hr1⟩ := ih g (by omega) h c nc hc
        obtain ⟨tr', hr'⟩ := ihl (fun kc hkc => hsub kc (List.mem_cons_of_mem _ hkc))
          (tr ++ tr1.map Event.nested)
        refine ⟨tr', ?_⟩
        simp only at hl
        simp only [updateLoop, he, hl, hr1]
        exact hr'
    obtain ⟨tr', hr'⟩ := hloop (ord.children m.Children)
      (fun kc hkc => (ord.children_perm m.Children).mem_iff.mp hkc) []
    have hnot : ¬ (e.Number ≠ m.Number ∨ e.tag ≠ m.tag) := by
      intro hc
      rcases hc with hc | hc
      · exact hc hnum
      · exact hc htag
    refine ⟨tr' ++ (ord.listeners e.listeners).map fun l => (⟨0, l, r, none⟩ : Event), ?_⟩
    simp only [Update, he, hm, if_neg hnot, assignContent_same he hcont, hr', updateListeners]

theorem TreeAt.allocated {h : Heap} :
    ∀ (n : Nat) (x : Ptr), TreeAt n h x → ∀ q ∈ footprint n h x, ∃ e, h[q]? = some e := by
  intro n
  induction n with
  | zero => intro x t; exact absurd t (by simp [TreeAt])
  | succ n ih =>
    intro x t q hq
    obtain ⟨e, he, _, hch⟩ := t
    simp only [footprint, he, List.mem_cons, List.mem_flatMap] at hq
    rcases hq with rfl | ⟨kc, hkc, hq⟩
    · exact ⟨e, he⟩
    · exact ih kc.2 (hch kc hkc).2 q hq

/-- A tree whose cells keep their children maps holds everything of itself. -/
theorem absorbedIn_self {h h' : Heap} :
    ∀ (n : Nat) (x : Ptr), TreeAt n h x →
      (∀ q ∈ footprint n h x, ∃ e e', h[q]? = some e ∧ h'[q]? = some e' ∧
        e'.Children = e.Children) →
      AbsorbedIn (footprint n h x) n h' x x := by
  intro n
  induction n with
  | zero => intro x t; exact absurd t (by simp [TreeAt])
  | succ n ih =>
    intro x t hcells
    obtain ⟨e, he, hnd, hch⟩ := t
    obtain ⟨e0, e', he0, he', hsame⟩ := hcells x (footprint_self_mem n h x)
    rw [he] at he0
    simp only [Option.some.injEq] at he0
    subst he0
    refine ⟨footprint_self_mem n h x, footprint_self_mem n h x, e', e', he', he', rfl, rfl,
      Or.inr rfl, ?_⟩
    intro kc hkc
    rw [hsame] at hkc ⊢
    have hsub : ∀ q ∈ footprint n h kc.2, q ∈ footprint (n + 1) h x := fun q hq =>
      List.mem_of_mem_tail (footprint_child he hkc hq)
    exact ⟨kc.2, mapLookup_of_mem hnd hkc,
      AbsorbedIn.mono hsub n kc.2 kc.2
        (ih kc.2 (hch kc hkc).2 (fun q hq => hcells q (hsub q hq)))⟩

theorem incoming_apart {n : Nat} {h : Heap} {r i : Ptr} {e m : Element}
    (t : DisjointTrees (n + 1) h r i) (he : h[r]? = some e) (hm : h[i]? = some m) :
    i ≠ r ∧ i ∉ (footprint (n + 1) h r).tail ++ (footprint (n + 1) h i).tail := by
  have hnd := t.2.2
  simp only [footprint, he, hm] at hnd ⊢
  simp only [List.tail_cons]
  have hnd2 := hnd.of_append_right
  have hdisj := (List.nodup_append.mp hnd).2.2
  refine ⟨?_, ?_⟩
  · rintro rfl
    exact hdisj (List.mem_cons_self _ _) (List.mem_cons_self _ _)
  · intro hc
    rcases List.mem_append.mp hc with hc | hc
    · exact hdisj (List.mem_cons_of_mem _ hc) (List.mem_cons_self _ _)
    · exact (List.nodup_cons.mp hnd2).1 hc

/-- After a successful `Update` on disjoint trees the resident holds everything of the incoming
tree. -/
theorem Update_absorbs (ord : MapOrder) :
    ∀ (n f : Nat), n ≤ f → ∀ (h hk : Heap) (r i : Ptr), DisjointTrees n h r i →
      (∀ q ∈ footprint n h r ++ footprint n h i, hk[q]? = h[q]?) →
      ∀ res, Update ord f hk r i = some res → res.err = none →
        AbsorbedIn (footprint n h r ++ footprint n h i) n res.heap r i := by
  intro n
  induction n with
  | zero =>
    intro f _ h hk r i t
    exact absurd t.1 (by simp [TreeAt])
  | succ n ih =>
    intro f hf h hk r i t hag res hrun hnone
    obtain ⟨g, rfl⟩ : ∃ g, f = g + 1 := ⟨f - 1, by omega⟩
    obtain ⟨e, he, _, _⟩ := t.1
    obtain ⟨m, hm, _, _⟩ := t.2.1
    obtain ⟨F, hndm, hin, _⟩ := loopFacts_of_disjointTrees t he hm
    obtain ⟨hir, hitail⟩ := incoming_apart t he hm
    obtain ⟨⟨ef, hef, hs, hch⟩, hfr, hc⟩ :=
      Update_cells ord (Update_tree ord n g (by omega)) t he hm hag hrun hnone
    have hkr : hk[r]? = some e := by
      rw [hag r (List.mem_append_left _ (footprint_self_mem n h r))]; exact he
    have hki : hk[i]? = some m := by
      rw [hag i (List.mem_append_right _ (footprint_self_mem n h i))]; exact hm
    have hid : e.Number = m.Number ∧ e.tag = m.tag := by
      obtain ⟨e1, m1, he1, hm1, hcase⟩ := Update_succ_inv hrun
      rw [hkr] at he1
      rw [hki] at hm1
      simp only [Option.some.injEq] at he1 hm1
      subst he1 hm1
      rcases hcase with ⟨_, rfl⟩ | ⟨h1, h2, _⟩
      · simp at hnone
      · exact ⟨h1, h2⟩
    have hresi : res.heap[i]? = some m := by
      rw [hfr i hir (fun kc hkc hc => hitail (hin kc hkc i hc))]; exact hki
    have hregS : ∀ kc ∈ m.Children, ∀ q ∈ region n h e.Children kc,
        q ∈ footprint (n + 1) h r ++ footprint (n + 1) h i := by
      intro kc hkc q hq
      rcases List.mem_append.mp (hin kc hkc q hq) with hx | hx
      · exact List.mem_append_left _ (List.mem_of_mem_tail hx)
      · exact List.mem_append_right _ (List.mem_of_mem_tail hx)
    have hfields : ef.Number = e.Number ∧ ef.tag = e.tag ∧
        ef.contents = (e.withContent m.contents).contents := by
      have h1 : ef.sansChildren.Number = (e.withContent m.contents).sansChildren.Number :=
        congrArg Element.Number hs
      have h2 : ef.sansChildren.tag = (e.withContent m.contents).sansChildren.tag :=
        congrArg Element.tag hs
      have h3 : ef.sansChildren.contents = (e.withContent m.contents).sansChildren.contents :=
        congrArg Element.contents hs
      have h4 : (e.withContent m.contents).Number = e.Number := by cases m.contents <;> rfl
      have h5 : (e.withContent m.contents).tag = e.tag := by cases m.contents <;> rfl
      exact ⟨h1.trans h4, h2.trans h5, h3⟩
    refine ⟨List.mem_append_left _ (footprint_self_mem n h r),
      List.mem_append_right _ (footprint_self_mem n h i), ef, m, hef, hresi,
      hfields.1.trans hid.1, hfields.2.1.trans hid.2, ?_, ?_⟩
    · rw [hfields.2.2]
      cases m.contents with
      | none => exact Or.inl rfl
      | some x => exact Or.inr rfl
    · intro kc hkc
      cases hl : mapLookup kc.1 e.Children with
      | none =>
        obtain ⟨cn, hcn, hnc, hoth⟩ := (hc kc hkc).1 hl
        have hlook : mapLookup kc.1 ef.Children = some kc.2 := by
          rw [hch kc.1, hl]
          exact mapLookup_of_mem hndm hkc
        have htree := (F.incoming kc hkc).1
        have hself : AbsorbedIn (footprint n h kc.2) n res.heap kc.2 kc.2 :=
          absorbedIn_self n kc.2 htree (by
          intro q hq
          by_cases hqn : q = kc.2
          · subst hqn
            exact ⟨cn, cn.withParent r, hcn, hnc, rfl⟩
          · obtain ⟨eq, heq⟩ := TreeAt.allocated n kc.2 htree q hq
            exact ⟨eq, eq, heq, by rw [hoth q hq hqn]; exact heq, rfl⟩)
        refine ⟨kc.2, hlook, AbsorbedIn.mono ?_ n kc.2 kc.2 hself⟩
        intro q hq
        exact hregS kc hkc q (List.mem_append_left _ hq)
      | some c =>
        obtain ⟨hk', resk, hagk, hrunk, hnonek, hfin⟩ := (hc kc hkc).2 c hl
        have hlook : mapLookup kc.1 ef.Children = some c := by
          rw [hch kc.1, hl]
        have hsub : ∀ x ∈ footprint n h c ++ footprint n h kc.2,
            x ∈ region n h e.Children kc := by
          intro x hx
          simp only [region, hl]
          rcases List.mem_append.mp hx with hx | hx
          · exact List.mem_append_right _ hx
          · exact List.mem_append_left _ hx
        have ha := ih g (by omega) h hk' c kc.2 (F.paired kc hkc c hl)
          (fun x hx => hagk x (hsub x hx)) resk hrunk hnonek
        have ha' : AbsorbedIn (footprint n h c ++ footprint n h kc.2) n res.heap c kc.2 :=
          AbsorbedIn.congr_in (fun q hq => hfin q (hsub q hq)) n c kc.2 ha
        exact ⟨c, hlook, AbsorbedIn.mono (fun q hq => hregS kc hkc q (hsub q hq)) n c kc.2 ha'⟩

/-- C20: for every resident and incoming tree (disjoint, children keyed by their own Number),
`Update(resident, incoming)` returns, and when it succeeds a second `Update(resident, incoming)`,
under any processing order, returns too, succeeds, and leaves every element (the resident tree at
every depth included) exactly as the first application left it. -/
theorem C20_merge_idempotent (ord1 ord2 : MapOrder) (n f1 f2 : Nat) (h : Heap)
    (resident incoming : Ptr) (t : DisjointTrees n h resident incoming) (hf1 : n ≤ f1)
    (hf2 : n ≤ f2) :
    ∃ res1, Update ord1 f1 h resident incoming = some res1 ∧
      (res1.err = none →
        ∃ res2, Update ord2 f2 res1.heap resident incoming = some res2 ∧
          res2.err = none ∧ res2.heap = res1.heap) := by
  obtain ⟨res1, hrun1, _, _, _⟩ := Update_tree ord1 n f1 hf1 h resident incoming t
  refine ⟨res1, hrun1, ?_⟩
  intro hnone
  have ha := Update_absorbs ord1 n f1 hf1 h h resident incoming t (fun _ _ => rfl) res1 hrun1
    hnone
  obtain ⟨tr, hrun2⟩ := Update_absorbed ord2 _ n f2 hf2 res1.heap resident incoming ha
  exact ⟨_, hrun2, rfl, rfl⟩

/-- C20 at a concrete input: the trees at 0 and 4 of `heapMerge` are merged without error, and
merging them a second time, in the reverse order, succeeds and leaves the heap as it was. -/
theorem C20_witness :
    ∃ res1 res2, Update MapOrder.stored 3 heapMerge 0 4 = some res1 ∧ res1.err = none ∧
      Update MapOrder.reversed 3 res1.heap 0 4 = some res2 ∧ res2.err = none ∧
      res2.heap = res1.heap := by
  obtain ⟨res1, hrun1, himp⟩ :=
    C20_merge_idempotent MapOrder.stored MapOrder.reversed 3 3 3 heapMerge 0 4
      (disjointTrees_of_check (by decide) (by decide) (by decide)) (by decide) (by decide)
  have hr1 : Update MapOrder.stored 3 heapMerge 0 4 = some _ := rfl
  rw [hr1] at hrun1
  simp only [Option.some.injEq] at hrun1
  subst hrun1
  obtain ⟨res2, hrun2, hnone2, hheap⟩ := himp rfl
  exact ⟨_, res2, rfl, rfl, hrun2, hnone2, hheap⟩

/-! ## C4: listener notification by `Update`, with the call returning -/

/-- C4 (amended): for every call `Update(resident, incoming)` that passes the identity check
(equal Number and tag), on resident and incoming trees with fuel above their depth, whether the
merge of the children then succeeds or fails, the call returns, and the call itself makes exactly
one `Receive` call on each listener registered on resident (and none on any other listener),
with resident as the element and with exactly the error-or-none that the call returns.  The
second part states the same delivery for every returning call on any heap. -/
theorem C4_listeners_notified (ord : MapOrder) (fuel : Nat) (h : Heap) (resident incoming : Ptr)
    (e n : Element) (he : h[resident]? = some e) (hn : h[incoming]? = some n)
    (hnum : e.Number = n.Number) (htag : e.tag = n.tag) (hset : e.listeners.Nodup) :
    (∀ depth, DisjointTrees (depth + 1) h resident incoming → depth < fuel →
      ∃ res, Update ord fuel h resident incoming = some res ∧
        ∀ l, ownCalls l res.trace =
          if l ∈ e.listeners then [⟨0, l, resident, res.err⟩] else []) ∧
    (∀ res, Update ord fuel h resident incoming = some res →
      ∀ l, ownCalls l res.trace =
        if l ∈ e.listeners then [⟨0, l, resident, res.err⟩] else []) := by
  have hgen : ∀ res, Update ord fuel h resident incoming = some res →
      ∀ l, ownCalls l res.trace =
        if l ∈ e.listeners then [⟨0, l, resident, res.err⟩] else [] := by
    intro res hres l
    rw [Update_ownCalls ord fuel h resident incoming e n res he hn hset hres l]
    simp only [hnum, htag, and_self, true_and]
  refine ⟨?_, hgen⟩
  intro depth t hf
  obtain ⟨res, hrun, _⟩ := Update_tree ord (depth + 1) fuel (by omega) h resident incoming t
  exact ⟨res, hrun, hgen res hrun⟩

/-- C4 (amended) at a concrete input: in `heapTagClash` the identity check passes, the merge of
child 5 fails, the call returns that error, and listener 7 on the resident receives it once. -/
theorem C4_witness :
    ∃ res, Update MapOrder.stored 2 heapTagClash 0 2 = some res ∧
      res.err = some (Error.identityMismatch 5 5 1 2) ∧
      ownCalls 7 res.trace = [⟨0, 7, 0, some (Error.identityMismatch 5 5 1 2)⟩] := by
  obtain ⟨res, hrun, hcalls⟩ :=
    (C4_listeners_notified MapOrder.stored 2 heapTagClash 0 2 _ _ rfl rfl rfl rfl
      (by decide)).1 1 (disjointTrees_of_check (by decide) (by decide) (by decide)) (by decide)
  have hr : Update MapOrder.stored 2 heapTagClash 0 2 = some _ := rfl
  rw [hr] at hrun
  simp only [Option.some.injEq] at hrun
  subst hrun
  exact ⟨_, rfl, rfl, hcalls 7⟩

/-! ## C7: the record written by `Encode` -/

theorem encode_asChild_recording (env : Env) (ord : MapOrder) (fuel : Nat) (h : Heap) (c : Ptr)
    (ce : Element) (hc : h[c]? = some ce) (t : List Token) :
    encode env Codec.recording ord (fuel + 1) h c true t =
      some (t ++ specChildRecord env ce, none) := by
  unfold encode
  simp only [hc]
  cases hq : ce.isQualified <;> cases hm : ce.isMatrix <;> cases hcon : ce.contents with
  | none =>
    simp [checked, Codec.recording, encodeAddress, encodeContents, encodeChildrenBlock,
      encodeMatrix, specChildRecord, specAddress, specContent, specMatrix, hq, hm, hcon]
  | some x =>
    cases x <;>
    simp [checked, Codec.recording, encodeAddress, encodeContents, encodeChildrenBlock,
      encodeMatrix, specChildRecord, specAddress, specContent, specMatrix, hq, hm, hcon,
      EmberContents.Encode, CommandContents.Encode]

theorem encodeChildrenLoop_recording (env : Env) (ord : MapOrder) (fuel : Nat) (h : Heap) :
    ∀ (entries : List (Int × Ptr)), (∀ kc ∈ entries, ∃ c, h[kc.2]? = some c) →
      ∀ (t : List Token),
        encodeChildrenLoop env Codec.recording
            (fun child => encode env Codec.recording ord (fuel + 1) h child true) entries t =
          some (t ++ specChildrenGroup env h entries ++ [Token.finish], none) := by
  intro entries
  induction entries with
  | nil =>
    intro _ t
    simp [encodeChildrenLoop, Codec.recording, specChildrenGroup]
  | cons kc rest ih =>
    intro hall t
    obtain ⟨k, c⟩ := kc
    obtain ⟨ce, hce⟩ := hall (k, c) (List.mem_cons_self _ _)
    have hrest := ih (fun kc hkc => hall kc (List.mem_cons_of_mem _ hkc))
    simp only at hce
    unfold encodeChildrenLoop
    have hstart : Codec.recording.StartSequence (env.Context 0) t =
        (t ++ [Token.start (env.Context 0)], none) := rfl
    simp only [checked, hstart, encode_asChild_recording env ord fuel h c ce hce]
    have hend : Codec.recording.EndSequence
        (t ++ [Token.start (env.Context 0)] ++ specChildRecord env ce) =
        (t ++ [Token.start (env.Context 0)] ++ specChildRecord env ce ++ [Token.finish],
          none) := rfl
    simp only [hend, hrest]
    simp [specChildrenGroup, hce, List.append_assoc]

theorem Encode_recording (env : Env) (ord : MapOrder) (fuel : Nat) (h : Heap) (element : Ptr)
    (e : Element) (he : h[element]? = some e)
    (hch : ∀ kc ∈ e.Children, ∃ c, h[kc.2]? = some c) (t : List Token) :
    Encode env Codec.recording ord (fuel + 2) h element t =
      some (t ++ specRecord env ord h e, none) := by
  have hperm := ord.children_perm e.Children
  have hloop := encodeChildrenLoop_recording env ord fuel h (ord.children e.Children)
    (fun kc hkc => hch kc (hperm.mem_iff.mp hkc))
  have hlen : e.Children.length > 0 ↔ e.Children ≠ [] := by
    cases e.Children <;> simp
  unfold Encode encode
  simp only [he]
  by_cases hnil : e.Children = []
  · have hlen0 : ¬ (false = false ∧ e.Children.length > 0) := by
      simp [hnil]
    cases hq : e.isQualified <;> cases hm : e.isMatrix <;> cases hcon : e.contents with
    | none =>
      simp [checked, Codec.recording, encodeAddress, encodeContents, encodeChildrenBlock,
        encodeMatrix, specRecord, specAddress, specContent, specMatrix, hq, hm, hcon, hnil]
    | some x =>
      cases x <;>
      simp [checked, Codec.recording, encodeAddress, encodeContents, encodeChildrenBlock,
        encodeMatrix, specRecord, specAddress, specContent, specMatrix, hq, hm, hcon, hnil,
        EmberContents.Encode, CommandContents.Encode]
  · have hpos : e.Children.length > 0 := hlen.mpr hnil
    have hblock : ∀ (rest : List Token → Option (List Token × Option Error)),
        encodeChildrenBlock env Codec.recording e false
          (encodeChildrenWith env Codec.recording
            (fun child => encode env Codec.recording ord (fuel + 1) h child true)
            (ord.children e.Children)) rest =
        fun t0 => rest (t0 ++ ([Token.start (env.Context 2), Token.start (env.Application 4)] ++
          specChildrenGroup env h (ord.children e.Children) ++
          [Token.finish, Token.finish])) := by
      intro rest
      funext t0
      have hs2 : Codec.recording.StartSequence (env.Context 2) t0 =
          (t0 ++ [Token.start (env.Context 2)], none) := rfl
      have hs4 : Codec.recording.StartSequence (env.Application 4)
          (t0 ++ [Token.start (env.Context 2)]) =
          (t0 ++ [Token.start (env.Context 2)] ++ [Token.start (env.Application 4)], none) := rfl
      simp only [encodeChildrenBlock, hpos, and_self, if_true, checked, hs2, encodeChildrenWith,
        hs4, hloop]
      have he2 : ∀ u : List Token, Codec.recording.EndSequence u = (u ++ [Token.finish], none) :=
        fun _ => rfl
      simp only [he2]
      congr 1
      simp [List.append_assoc]
    rw [hblock]
    cases hq : e.isQualified <;> cases hm : e.isMatrix <;> cases hcon : e.contents with
    | none =>
      simp [checked, Codec.recording, encodeAddress, encodeContents,
        encodeMatrix, specRecord, specAddress, specContent, specMatrix, hq, hm, hcon, hnil]
    | some x =>
      cases x <;>
      simp [checked, Codec.recording, encodeAddress, encodeContents,
        encodeMatrix, specRecord, specAddress, specContent, specMatrix, hq, hm, hcon, hnil,
        EmberContents.Encode, CommandContents.Encode]

/-- C7: for every element `e` whose children are allocated elements other than `e` itself, and
for every visiting order of the children: `Encode(e)` returns and the record it writes is
exactly the one the spec describes, with the context-2 children group for `e` itself (tag,
address, content, then, when `e` has children, one context-2 sub-record wrapping the
application-4 group that holds for each child a context-0 wrapper around the child's as-child
record, then the matrix groups); each child is written in as-child mode, as a record without a
context-2 group; and, with any codec, `Encode(e)` writes the same record (and returns the same
error) as `Encode(e')`, where `e'` is `e` with the Children of every child emptied, so no
grandchild is serialized. -/
theorem C7_one_level_encoding {W : Type} (env : Env) (cdc : Codec W) (ord : MapOrder)
    (fuel : Nat) (h : Heap) (element : Ptr) (e : Element) (w : W) (he : h[element]? = some e)
    (hch : ∀ kc ∈ e.Children, (∃ c, h[kc.2]? = some c) ∧ kc.2 ≠ element) :
    (∀ t, Encode env Codec.recording ord (fuel + 2) h element t =
      some (t ++ specRecord env ord h e, none)) ∧
    (∀ kc ∈ e.Children, ∃ c, h[kc.2]? = some c ∧
      ∀ t, encode env Codec.recording ord (fuel + 1) h kc.2 true t =
        some (t ++ specChildRecord env c, none)) ∧
    (∃ out, Encode env cdc ord (fuel + 2) h element w = some out ∧
      Encode env cdc ord (fuel + 2) (clearChildrenOf e.Children h) element w = some out) := by
  refine ⟨?_, ?_, ?_⟩
  · intro t
    exact Encode_recording env ord fuel h element e he (fun kc hkc => (hch kc hkc).1) t
  · intro kc hkc
    obtain ⟨c, hc⟩ := (hch kc hkc).1
    exact ⟨c, hc, fun t => encode_asChild_recording env ord fuel h kc.2 c hc t⟩
  · obtain ⟨out, hout⟩ :=
      Encode_total env cdc ord fuel h element e he (fun kc hkc => (hch kc hkc).1) w
    refine ⟨out, hout, ?_⟩
    rw [Encode_clearChildren env cdc ord (fuel + 2) h element e w he
      (fun kc hkc => (hch kc hkc).2)]
    exact hout

/-- C7 at a concrete input: the root of `heapPath` has child 1 (with its own child 2) and child
4; the record written has one context-2 group (tag 130) with the two as-child records, the
grandchild 2 (Number 7) does not occur in it, and the record is the same after the children maps
of elements 1 and 4 are emptied. -/
theorem C7_witness :
    Encode Env.sample Codec.recording MapOrder.stored 2 heapPath 0 [] =
      some ([Token.start 10, Token.start 128, Token.int 1, Token.finish,
        Token.start 129, Token.content 0, Token.finish,
        Token.start 130, Token.start 68,
        Token.start 128, Token.start 11, Token.start 128, Token.int 5, Token.finish,
        Token.finish, Token.finish,
        Token.start 128, Token.start 11, Token.start 128, Token.int 6, Token.finish,
        Token.finish, Token.finish,
        Token.finish, Token.finish, Token.finish], none) ∧
    ∃ out, Encode Env.sample Codec.recording MapOrder.stored 2 heapPath 0 [] = some out ∧
      Encode Env.sample Codec.recording MapOrder.stored 2
        (clearChildrenOf [(5, 1), (6, 4)] heapPath) 0 [] = some out :=
  have key := C7_one_level_encoding Env.sample Codec.recording MapOrder.stored 0 heapPath 0
    ({ Element.plain 1 10 [(5, 1), (6, 4)] [] with contents := some (EmberContents.other 0) }) []
    rfl
    (fun kc hkc => by
      have hkc' : kc = (5, 1) ∨ kc = (6, 4) := by simpa [Element.plain] using hkc
      rcases hkc' with rfl | rfl
      · exact ⟨⟨_, rfl⟩, by decide⟩
      · exact ⟨⟨_, rfl⟩, by decide⟩)
  ⟨key.1 [], key.2.2⟩

end Embertree
